import Mathlib

/-!
Verification development for the datacore markdown import pipeline
(src/src/index/import/markdown.ts).  The TypeScript source is shallowly
embedded below: every definition follows the corresponding source
function; mutation of the shared builder objects (BTree residents,
Metadata accumulators) is rendered as explicit state passing keyed by
start line, which is a faithful identity because every builder object
lives in a line-keyed tree with unique keys.  External collaborators
that are not part of the sources (the yaml parser, the parsimmon
PRIMITIVES parsers, the inline-field extractors, Link.infer and the
path normalizers) are modelled from the spec as opaque parameters of an
Env structure, or as small modelled definitions marked as such.
-/

namespace Datacore

/-! ## External value model -/

/-- Opaque carrier for a luxon DateTime value (epoch milliseconds). -/
structure DateRep where
  ms : Int
deriving DecidableEq, Repr

/-- Opaque carrier for a luxon Duration value (milliseconds). -/
structure DurRep where
  ms : Int
deriving DecidableEq, Repr

/-- Modelled from the spec: a link value (expression/link.ts is not part
of the sources); a target plus an optional display alias, compared
structurally, which matches the dedup-by-structural-equality rule. -/
structure LinkData where
  target : String
  display : Option String
deriving DecidableEq, Repr

/-- The untyped JavaScript value space that parseFrontmatter dispatches
on at runtime.  Constructors follow the runtime type tests of the
source: null/undefined, booleans, numbers, strings, native Date
objects, arrays, plain objects (their own enumerable key/value pairs),
class instances of luxon DateTime, luxon Duration and Link (each of
which is typeof object, is not an Array and is not instanceof Date, and
exposes some list of enumerable fields to a for-in loop), and a
constructor for every other runtime type (function, symbol, bigint). -/
inductive JsValue where
  | null
  | bool (b : Bool)
  | num (n : Int)
  | str (s : String)
  | jsDate (d : DateRep)
  | arr (xs : List JsValue)
  | obj (kvs : List (String × JsValue))
  | luxonDateTime (d : DateRep) (fields : List (String × JsValue))
  | luxonDuration (d : DurRep) (fields : List (String × JsValue))
  | linkObj (l : LinkData) (fields : List (String × JsValue))
  | other

/-- The system's closed literal type (expression/literal.ts), the
codomain of coercion. -/
inductive Literal where
  | null
  | bool (b : Bool)
  | num (n : Int)
  | str (s : String)
  | date (d : DateRep)
  | dur (d : DurRep)
  | link (l : LinkData)
  | list (xs : List Literal)
  | map (kvs : List (String × Literal))

/-- A discovered inline field: key, value and the line it was found on
(asInlineField attaches the line number). -/
structure InlineField where
  key : String
  value : String
  line : Nat
deriving DecidableEq, Repr

/-- The collaborators of markdownImport that are not part of the given
sources, modelled from the spec at their boundary: the three string
parsers tried by coercion (date pattern, duration pattern, wiki-link
pattern), the yaml document parser used for yaml:data block bodies, and
the two inline-field extractors of inline-field.ts. -/
structure Env where
  dateParse : String → Option DateRep
  durParse : String → Option DurRep
  linkParse : String → Option LinkData
  yamlParse : String → Except String (List (String × JsValue))
  extractInline : String → List (String × String)
  extractFull : String → Option (String × String)

/-! ## String helpers used by the import -/

/-- Whether a character list starts with a pattern. -/
def listStarts : List Char → List Char → Bool
  | _, [] => true
  | [], _ :: _ => false
  | a :: as, b :: bs => a = b && listStarts as bs

/-- Whether a pattern occurs contiguously in a character list. -/
def listSub : List Char → List Char → Bool
  | hay, pat =>
    match hay with
    | [] => pat.isEmpty
    | _ :: rest => listStarts hay pat || listSub rest pat

/-- JavaScript String.prototype.includes. -/
def containsStr (s pat : String) : Bool := listSub s.data pat.data

/-- JavaScript String.prototype.startsWith. -/
def strStarts (s pat : String) : Bool := listStarts s.data pat.data

/-- Whether a character is trimmed whitespace (space, tab, newline,
carriage return). -/
def isWS (c : Char) : Bool :=
  c = Char.ofNat 32 || c = Char.ofNat 9 || c = Char.ofNat 10 || c = Char.ofNat 13

/-- JavaScript String.prototype.trim: strip leading and trailing
whitespace. -/
def strTrim (s : String) : String :=
  String.mk (((s.data.dropWhile isWS).reverse.dropWhile isWS).reverse)

/-- JavaScript String.prototype.toLowerCase. -/
def strLower (s : String) : String := String.mk (s.data.map Char.toLower)

/-- JavaScript String.prototype.split at a single separator character:
the separator-free runs, keeping empty runs, one run even for the empty
string. -/
def splitChar (c : Char) : List Char → List (List Char)
  | [] => [[]]
  | x :: xs =>
      let r := splitChar c xs
      if x = c then [] :: r
      else
        match r with
        | y :: ys => (x :: y) :: ys
        | [] => [[x]]

/-- markdown.split on newlines (markdown.ts line 46). -/
def splitLines (s : String) : List String :=
  (splitChar (Char.ofNat 10) s.data).map String.mk

/-- The comma split of a fence language list. -/
def splitComma (s : String) : List String :=
  (splitChar (Char.ofNat 44) s.data).map String.mk

/-- Case-insensitive substring test, the semantics of testing the
unanchored /i regex YAML_DATA_REGEX against a line. -/
def containsCI (s pat : String) : Bool :=
  listSub (s.data.map Char.toLower) (pat.data.map Char.toLower)

/-- YAML_DATA_REGEX.test(lines[start]): an out-of-range index yields
undefined, which stringifies to a non-matching value, hence false. -/
def yamlDataTest : Option String → Bool
  | none => false
  | some s => containsCI s "```yaml:data"

/-- The line terminators of the host's regular expressions: LF, CR,
LINE SEPARATOR, PARAGRAPH SEPARATOR.  With the m flag, a caret matches
after any of these and a dollar before any of these, and the dot never
matches one. -/
def isLineTerm (c : Char) : Bool :=
  c = Char.ofNat 10 ∨ c = Char.ofNat 13 ∨ c = Char.ofNat 8232 ∨ c = Char.ofNat 8233

/-- The scan of CODEBLOCK_FENCE_REGEX, a multiline case-insensitive
regex matching a caret, three backticks or three tildes, a dot-star
capture and a dollar, over the remaining characters: the flag records
whether the current position is
a caret anchor (the string start or just after a line terminator).  At
an anchored position opening with three backticks or three tildes the
first match is found and the capture is everything up to the next line
terminator or the end; otherwise the scan advances one character. -/
def fenceScanAux : Bool → List Char → Option String
  | _, [] => none
  | anchor, c :: rest =>
      if anchor && (listStarts (c :: rest) ("```".data) ||
          listStarts (c :: rest) ("~~~".data)) then
        some (String.mk (((c :: rest).drop 3).takeWhile (fun ch => !(isLineTerm ch))))
      else fenceScanAux (isLineTerm c) rest

/-- startLine.match(CODEBLOCK_FENCE_REGEX): the capture group of the
first match, scanning from the string start (which is an anchor). -/
def fenceMatch (s : String) : Option String :=
  fenceScanAux true s.data

/-- The value computed by the emptylines loop (markdown.ts lines
222-228) on an in-range line span: every line of the span trims to the
empty string.  The import itself runs emptylinesE below, which also
carries the loop's out-of-range failure; this total form is its value
whenever the loop completes, and is the form the section theorems are
stated with. -/
def emptylines (lines : List String) (start endL : Nat) : Bool :=
  (List.range' start (endL - start)).all (fun i => strTrim (lines.getD i "") = "")

/-- The emptylines loop itself, one constructor per iteration count:
each step reads lines[index].trim(), so an index beyond the array is
the host's undefined.trim() TypeError; a non-blank line returns false
before any later out-of-range read. -/
def emptylinesGo (lines : List String) : Nat → Nat → Except String Bool
  | _, 0 => .ok true
  | start, n + 1 =>
      match lines.get? start with
      | none => .error "TypeError: Cannot read properties of undefined (reading trim)"
      | some s =>
          if strTrim s ≠ "" then .ok false
          else emptylinesGo lines (start + 1) n

/-- Embedding of emptylines exactly as the source runs it: the loop
from start (inclusive) to end (exclusive). -/
def emptylinesE (lines : List String) (start endL : Nat) : Except String Bool :=
  emptylinesGo lines start (endL - start)

/-- Modelled from the spec: getFileTitle of utils/normalizers (not part
of the sources) derives the title from the file's base name. -/
def getFileTitle (path : String) : String :=
  String.mk (((splitChar (Char.ofNat 47) path.data).getLastD path.data).takeWhile
    (fun c => c ≠ Char.ofNat 46))

/-- Modelled from the spec: getExtension of utils/normalizers (not part
of the sources) yields the path's extension. -/
def getExtension (path : String) : String :=
  ((splitChar (Char.ofNat 46) path.data).map String.mk).getLastD ""

/-- Modelled from the spec: Link.infer (expression/link.ts is not part
of the sources) builds a link value from target text plus an optional
display alias. -/
def linkInfer (target : String) (display : Option String) : LinkData :=
  ⟨target, display⟩

/-- lines.slice(a, b).join a newline, the extraction of a data block
body. -/
def sliceJoin (lines : List String) (a b : Nat) : String :=
  String.intercalate "\n" ((lines.drop a).take (b - a))

/-- Tab normalization of a data block body: each tab becomes two
spaces. -/
def replaceTabs (s : String) : String :=
  String.mk ((s.data.map (fun ch => if ch = Char.ofNat 9 then [Char.ofNat 32, Char.ofNat 32] else [ch])).flatten)

/-- Tag normalization: a tag always starts with a hash. -/
def normalizeTag (t : String) : String :=
  if strStarts t "#" then t else "#" ++ t

/-! ## Literal coercion (parseFrontmatter) -/

mutual

/-- Embedding of parseFrontmatter (markdown.ts lines 269-311): the
total coercion from an untyped value to a Literal.  The runtime type
dispatch of the source is rendered constructor-wise: null first; then
typeof object split into Array (element-wise recursion), instanceof
Date (DateTime.fromJSDate), and every remaining object shape - plain
objects as well as luxon DateTime, luxon Duration and Link class
instances - traversed key-wise by the for-in loop into a map literal;
then number and boolean passthrough; then the string parse chain
(date, then duration, then link, first success wins, else the raw
string); any other runtime type falls to the final null. -/
def parseFrontmatter (env : Env) : JsValue → Literal
  | .null => .null
  | .arr xs => .list (parseFrontmatterList env xs)
  | .jsDate d => .date d
  | .obj kvs => .map (parseFrontmatterPairs env kvs)
  | .luxonDateTime _ fields => .map (parseFrontmatterPairs env fields)
  | .luxonDuration _ fields => .map (parseFrontmatterPairs env fields)
  | .linkObj _ fields => .map (parseFrontmatterPairs env fields)
  | .num n => .num n
  | .bool b => .bool b
  | .str s =>
      match env.dateParse s with
      | some d => .date d
      | none =>
        match env.durParse s with
        | some d => .dur d
        | none =>
          match env.linkParse s with
          | some l => .link l
          | none => .str s
  | .other => .null

/-- Element-wise coercion of an array value (the for-of loop of the
Array branch). -/
def parseFrontmatterList (env : Env) : List JsValue → List Literal
  | [] => []
  | x :: xs => parseFrontmatter env x :: parseFrontmatterList env xs

/-- Key-wise coercion of an object's enumerable pairs (the for-in loop
of the object branch). -/
def parseFrontmatterPairs (env : Env) : List (String × JsValue) → List (String × Literal)
  | [] => []
  | (k, v) :: rest => (k, parseFrontmatter env v) :: parseFrontmatterPairs env rest

end

/-- A frontmatter entry: display key, coerced value, raw value
(JsonFrontmatterEntry). -/
structure FrontEntry where
  key : String
  value : Literal
  raw : JsValue

/-- JavaScript object assignment result[k] = e: replace in place when
the key is present, else append. -/
def recordSet : List (String × FrontEntry) → String → FrontEntry → List (String × FrontEntry)
  | [], k, e => [(k, e)]
  | (k', e') :: rest, k, e =>
      if k' = k then (k', e) :: rest else (k', e') :: recordSet rest k e

/-- Embedding of parseFrontmatterBlock (markdown.ts lines 253-266):
for each key of the block in enumeration order, assign at the
lowercased key an entry keeping the original key, the coerced value
and the raw value. -/
def parseFrontmatterBlock (env : Env) (block : List (String × JsValue)) :
    List (String × FrontEntry) :=
  block.foldl
    (fun acc kv => recordSet acc (strLower kv.1) ⟨kv.1, parseFrontmatter env kv.2, kv.2⟩) []

/-! ## The interval index (sorted-btree model)

The source keys every BTree by a start line with the numeric comparator.
The model is an association list kept sorted by key; set replaces the
value when the key is present (BTree.set), values iterates in ascending
key order, getPairOrNextLower is the floor lookup and
getPairOrNextHigher at key 0 is the least pair. -/

abbrev Tree (α : Type) : Type := List (Nat × α)

namespace Tree

/-- BTree.set: insert or replace at a key, keeping keys sorted. -/
def set {α : Type} : Tree α → Nat → α → Tree α
  | [], k, v => [(k, v)]
  | (k', v') :: rest, k, v =>
      if k < k' then (k, v) :: (k', v') :: rest
      else if k = k' then (k, v) :: rest
      else (k', v') :: set rest k v

/-- BTree.get: the value at an exact key. -/
def get {α : Type} (t : Tree α) (k : Nat) : Option α :=
  (t.find? (fun p => p.1 = k)).map (·.2)

/-- BTree.values in ascending key order. -/
def values {α : Type} (t : Tree α) : List α := t.map (·.2)

/-- BTree.getPairOrNextLower: the pair with the greatest key at most
the given line.  On the key-sorted lists produced by set this recursion
(prefer the result found among the later, larger keys) returns exactly
the floor pair. -/
def floorPair {α : Type} : Tree α → Nat → Option (Nat × α)
  | [], _ => none
  | p :: rest, line =>
      if p.1 ≤ line then
        match floorPair rest line with
        | some q => some q
        | none => some p
      else floorPair rest line

/-- BTree.getPairOrNextHigher at key 0: since keys are naturals, the
least pair of the tree. -/
def least {α : Type} (t : Tree α) : Option (Nat × α) := t.head?

/-- Embedding of lookup (markdown.ts lines 314-319): floor lookup at the
line, accepted only when the candidate's end is greater than the line.
The end accessor of the stored record is passed explicitly. -/
def lookupBy {α : Type} (endOf : α → Nat) (line : Nat) (t : Tree α) : Option α :=
  match t.floorPair line with
  | some p => if endOf p.2 > line then some p.2 else none
  | none => none

end Tree

/-! ## Host metadata (CachedMetadata) and file stats -/

/-- A heading hint: start line, heading text, level. -/
structure HeadingHint where
  start : Nat
  heading : String
  level : Nat
deriving DecidableEq, Repr

/-- A host block hint (an entry of metadata.sections): type tag,
start line, end line, optional block id. -/
structure BlockHint where
  typeTag : String
  start : Nat
  endL : Nat
  id : Option String
deriving DecidableEq, Repr

/-- A host list-item hint: position, signed parent reference, optional
block id, optional task status character. -/
structure ListItemHint where
  start : Nat
  endL : Nat
  parent : Int
  id : Option String
  task : Option String
deriving DecidableEq, Repr

/-- A host tag occurrence: tag text and start line. -/
structure TagHint where
  tag : String
  line : Nat
deriving DecidableEq, Repr

/-- A host link occurrence: link target text and start line. -/
structure LinkHint where
  target : String
  line : Nat
deriving DecidableEq, Repr

/-- A frontmatter link declaration: target plus display text. -/
structure FrontLinkHint where
  target : String
  display : Option String
deriving DecidableEq, Repr

/-- File stats: creation time, modification time, byte size. -/
structure FileStats where
  ctime : Int
  mtime : Int
  size : Int
deriving DecidableEq, Repr

/-- The host-supplied CachedMetadata fields read by markdownImport;
every field is optional exactly as in the source, which defaults the
missing lists to empty. -/
structure MetadataCache where
  headings : Option (List HeadingHint)
  sections : Option (List BlockHint)
  listItems : Option (List ListItemHint)
  tags : Option (List TagHint)
  links : Option (List LinkHint)
  frontmatterLinks : Option (List FrontLinkHint)
  frontmatter : Option (List (String × JsValue))

/-! ## Builder cores

The source keeps one mutable builder object per section, block and list
item, identified by its start-line key in the respective tree.  The
immutable part of each builder (everything set at construction time) is
its core; the mutable accumulations (attached blocks, child items,
metadata) are threaded separately, keyed by the same start line. -/

/-- The constructor arguments of SectionData. -/
structure SectionCore where
  start : Nat
  endL : Nat
  title : String
  level : Nat
  ordinal : Nat
deriving DecidableEq, Repr

/-- The constructor arguments of the four block builders
(ListBlockData, CodeblockData, DatablockData, BaseBlockData).  The
content positions of a code block are integers because the source
computes end - 1 on the host's numbers. -/
inductive BlockCore where
  | listB (start endL ordinal : Nat) (blockId : Option String)
  | codeB (start endL ordinal : Nat) (languages : List String) (style : String)
      (contentStart contentEnd : Int) (blockId : Option String)
  | dataB (start endL ordinal : Nat) (data : List (String × FrontEntry))
      (blockId : Option String)
  | baseB (start endL ordinal : Nat) (typeTag : String) (blockId : Option String)

/-- The start line of a block builder. -/
def BlockCore.start : BlockCore → Nat
  | .listB s _ _ _ => s
  | .codeB s _ _ _ _ _ _ _ => s
  | .dataB s _ _ _ _ => s
  | .baseB s _ _ _ _ => s

/-- The end line of a block builder. -/
def BlockCore.endL : BlockCore → Nat
  | .listB _ e _ _ => e
  | .codeB _ e _ _ _ _ _ _ => e
  | .dataB _ e _ _ _ => e
  | .baseB _ e _ _ _ => e

/-- The ordinal of a block builder. -/
def BlockCore.ordinal : BlockCore → Nat
  | .listB _ _ o _ => o
  | .codeB _ _ o _ _ _ _ _ => o
  | .dataB _ _ o _ _ => o
  | .baseB _ _ o _ _ => o

/-- The type tag test listBlock.type === "list" of the second list
pass. -/
def BlockCore.isList : BlockCore → Bool
  | .listB _ _ _ _ => true
  | _ => false

/-- The constructor arguments of ListItemData. -/
structure ListItemCore where
  start : Nat
  endL : Nat
  parent : Int
  blockId : Option String
  status : Option String
deriving DecidableEq, Repr

/-! ## Metadata aggregator -/

/-- Embedding of the Metadata class: a tag set in insertion order, a
link list deduped by structural equality, and an inline-field record
keyed by lowercased key with first occurrence winning. -/
structure Metadata where
  tags : List String
  links : List LinkData
  infields : List (String × InlineField)
deriving DecidableEq, Repr

/-- The empty aggregator. -/
def Metadata.empty : Metadata := ⟨[], [], []⟩

/-- Metadata.tag: Set.add keeps the first insertion and iteration
order. -/
def Metadata.addTag (m : Metadata) (t : String) : Metadata :=
  if t ∈ m.tags then m else { m with tags := m.tags ++ [t] }

/-- Metadata.link: skipped when an equal link is present. -/
def Metadata.addLink (m : Metadata) (l : LinkData) : Metadata :=
  if m.links.contains l then m else { m with links := m.links ++ [l] }

/-- Metadata.inlineField: stored at the lowercased key unless some
present key already lowercases to it. -/
def Metadata.addField (m : Metadata) (f : InlineField) : Metadata :=
  let lower := strLower f.key
  if m.infields.any (fun p => strLower p.1 = lower) then m
  else { m with infields := m.infields ++ [(lower, f)] }

/-! ## Section phase -/

/-- Stable insertion of a heading into a run sorted by start line (the
numeric comparator of the source's sort call): an equal element goes
after the existing ones, preserving encounter order. -/
def insertHeading (h : HeadingHint) : List HeadingHint → List HeadingHint
  | [] => [h]
  | h' :: rest =>
      if h'.start ≤ h.start then h' :: insertHeading h rest else h :: h' :: rest

/-- The stable sort of the heading hints by start line. -/
def sortHeadings (hs : List HeadingHint) : List HeadingHint :=
  hs.foldl (fun acc h => insertHeading h acc) []

/-- The heading loop of markdownImport (lines 61-68): heading i gets
Position from its own start to the next heading's start (the file
length for the last one) and ordinal index + 1; each section is pushed
onto the page's section list and set into the section tree. -/
def headingLoop (total : Nat) :
    List HeadingHint → Nat → Tree SectionCore → List SectionCore →
      Tree SectionCore × List SectionCore
  | [], _, t, pushed => (t, pushed)
  | h :: rest, idx, t, pushed =>
      let e := match rest with
        | [] => total
        | h2 :: _ => h2.start
      let core : SectionCore := ⟨h.start, e, h.heading, h.level, idx + 1⟩
      headingLoop total rest (idx + 1) (t.set h.start core) (pushed ++ [core])

/-- The section phase of markdownImport (lines 57-85): sort the heading
hints, run the heading loop, then synthesize the implicit section when
either no section exists and the file has a non-blank line (covering
the whole file), or the least section starts after line 0 and the
leading gap has a non-blank line (covering the gap).  The gap check
runs the emptylines loop, whose undefined.trim() TypeError propagates
when the first heading starts beyond the file and every in-range line
is blank. -/
def sectionsPhase (path : String) (lines : List String)
    (headings : List HeadingHint) : Except String (Tree SectionCore × List SectionCore) :=
  let sorted := sortHeadings headings
  let (t, pushed) := headingLoop lines.length sorted 0 [] []
  if t.length = 0 then
    match emptylinesE lines 0 lines.length with
    | .error e => .error e
    | .ok blank =>
        if blank then .ok (t, pushed)
        else
          let core : SectionCore := ⟨0, lines.length, getFileTitle path, 1, 0⟩
          .ok (t.set 0 core, pushed ++ [core])
  else
    match t.least with
    | some first =>
        if 0 < first.2.start then
          match emptylinesE lines 0 first.2.start with
          | .error e => .error e
          | .ok blank =>
              if blank then .ok (t, pushed)
              else
                let core : SectionCore := ⟨0, first.2.start, getFileTitle path, 1, 0⟩
                .ok (t.set 0 core, pushed ++ [core])
        else .ok (t, pushed)
    | none => .ok (t, pushed)

/-! ## Block phase -/

/-- The body of the block loop of markdownImport (lines 99-128) for one
non-heading hint at the current ordinal: a list hint becomes a list
block; a code hint whose first line tests positive for yaml:data has
its body between the fences extracted, tab-normalized, yaml-parsed
(the one operation that can fail, and whose failure propagates) and
mapped through parseFrontmatterBlock into a data block; any other code
hint becomes a fenced code block with the comma-split capture as its
languages and content from start + 1 to end - 1 when its first line
matches the fence regex, else an indented code block whose content is
the whole position (reading the first line of a code hint beyond the
file is the source's undefined.match type error); anything else is a
generic block keeping the host's type tag. -/
def classifyBlock (env : Env) (lines : List String) (ord : Nat) (b : BlockHint) :
    Except String BlockCore :=
  let startLine := lines.get? b.start
  if b.typeTag = "list" then .ok (.listB b.start b.endL ord b.id)
  else if b.typeTag = "code" ∧ yamlDataTest startLine then
    match env.yamlParse (replaceTabs (sliceJoin lines (b.start + 1) b.endL)) with
    | .error e => .error e
    | .ok kvs => .ok (.dataB b.start b.endL ord (parseFrontmatterBlock env kvs) b.id)
  else if b.typeTag = "code" then
    match startLine with
    | none => .error "TypeError: Cannot read properties of undefined (reading match)"
    | some s =>
      match fenceMatch s with
      | none => .ok (.codeB b.start b.endL ord [] "indent" b.start b.endL b.id)
      | some rest =>
        let languages := if rest ≠ "" then splitComma rest else []
        .ok (.codeB b.start b.endL ord languages "fenced"
              ((b.start : Int) + 1) ((b.endL : Int) - 1) b.id)
  else .ok (.baseB b.start b.endL ord b.typeTag b.id)

/-- The block loop of markdownImport (lines 93-129): skip heading
hints; classify every other hint at the running page-wide ordinal,
increment the ordinal once per classified hint, and set the block into
the line-keyed tree at its start line. -/
def blockLoop (env : Env) (lines : List String) :
    List BlockHint → Nat → Tree BlockCore → Except String (Tree BlockCore × Nat)
  | [], ord, t => .ok (t, ord)
  | b :: rest, ord, t =>
      if b.typeTag = "heading" then blockLoop env lines rest ord t
      else
        match classifyBlock env lines ord b with
        | .error e => .error e
        | .ok core => blockLoop env lines rest (ord + 1) (t.set b.start core)

/-- The whole block phase: the loop started at ordinal 1 on the empty
tree. -/
def blocksPhase (env : Env) (lines : List String) (hints : List BlockHint) :
    Except String (Tree BlockCore × Nat) :=
  blockLoop env lines hints 1 []

/-- Point update of a start-line-keyed accumulation map. -/
def mupdate {α : Type} (m : Nat → List α) (k : Nat) (x : α) : Nat → List α :=
  fun s => if s = k then m s ++ [x] else m s

/-- The attachment of blocks to sections (markdown.ts line 132): each
block of the tree, in ascending start order, is pushed onto the block
list of the section containing its start line, found by the
containment lookup; a block with no containing section is dropped. -/
def attachBlocks (secT : Tree SectionCore) (blkT : Tree BlockCore) :
    Nat → List BlockCore :=
  blkT.values.foldl
    (fun acc core =>
      match Tree.lookupBy SectionCore.endL core.start secT with
      | some sec => mupdate acc sec.start core
      | none => acc)
    (fun _ => [])

/-! ## List phases -/

/-- The first list pass (markdown.ts lines 139-149): every hint becomes
one item record set into the line-keyed tree at its start. -/
def itemsPhase (hints : List ListItemHint) : Tree ListItemCore :=
  hints.foldl (fun t h => t.set h.start ⟨h.start, h.endL, h.parent, h.id, h.task⟩) []

/-- One step of the second list pass (markdown.ts lines 152-161): an
item with a negative parent reference is pushed onto the item list of
the block at the negated line when that block exists and is a list
block (silently dropped otherwise); an item with a non-negative parent
reference is pushed onto the child list of the item at that line when
it exists (silently dropped otherwise). -/
def passTwoStep (blkT : Tree BlockCore) (itmT : Tree ListItemCore)
    (maps : (Nat → List ListItemCore) × (Nat → List ListItemCore))
    (item : ListItemCore) :
    (Nat → List ListItemCore) × (Nat → List ListItemCore) :=
  if item.parent < 0 then
    match blkT.get (-item.parent).toNat with
    | some core =>
        if core.isList then (mupdate maps.1 (-item.parent).toNat item, maps.2)
        else maps
    | none => maps
  else
    match itmT.get item.parent.toNat with
    | some _ => (maps.1, mupdate maps.2 item.parent.toNat item)
    | none => maps

/-- The second list pass, iterating the item tree in ascending start
order.  The result maps a list block's start to its pushed items and
an item's start to its pushed children. -/
def passTwo (blkT : Tree BlockCore) (itmT : Tree ListItemCore) :
    (Nat → List ListItemCore) × (Nat → List ListItemCore) :=
  itmT.values.foldl (passTwoStep blkT itmT) (fun _ => [], fun _ => [])

/-! ## Metadata attachment loops -/

/-- The mutable aggregators during the attachment loops: the page's
own, and one per section, block and list item, keyed by the node's
start line (the identity of the tree resident the source mutates). -/
structure AttachState where
  page : Metadata
  sec : Nat → Metadata
  blk : Nat → Metadata
  itm : Nat → Metadata

/-- The initial state: every aggregator empty. -/
def AttachState.init : AttachState :=
  ⟨Metadata.empty, fun _ => Metadata.empty, fun _ => Metadata.empty,
    fun _ => Metadata.empty⟩

/-- Point update of a start-line-keyed metadata map. -/
def mapply (m : Nat → Metadata) (k : Nat) (f : Metadata → Metadata) : Nat → Metadata :=
  fun s => if s = k then f (m s) else m s

/-- One attachment step shared by the tag, link and inline-field loops:
apply the addition to the page aggregator always, and to the aggregator
of the section, the block and the list item found by the containment
lookup at the item's line, when each exists. -/
def attachAt (secT : Tree SectionCore) (blkT : Tree BlockCore)
    (itmT : Tree ListItemCore) (st : AttachState) (line : Nat)
    (f : Metadata → Metadata) : AttachState :=
  let st := { st with page := f st.page }
  let st := match Tree.lookupBy SectionCore.endL line secT with
    | some sec => { st with sec := mapply st.sec sec.start f }
    | none => st
  let st := match Tree.lookupBy BlockCore.endL line blkT with
    | some core => { st with blk := mapply st.blk core.start f }
    | none => st
  match Tree.lookupBy ListItemCore.endL line itmT with
  | some core => { st with itm := mapply st.itm core.start f }
  | none => st

/-- A fold of attachment steps over a list of line-located additions. -/
def attachLoop (secT : Tree SectionCore) (blkT : Tree BlockCore)
    (itmT : Tree ListItemCore) (items : List (Nat × (Metadata → Metadata)))
    (st : AttachState) : AttachState :=
  items.foldl (fun st p => attachAt secT blkT itmT st p.1 p.2) st

/-- The tag loop (markdown.ts lines 168-176): each tag occurrence is
normalized to start with a hash and attached at its line. -/
def tagAdditions (tags : List TagHint) : List (Nat × (Metadata → Metadata)) :=
  tags.map (fun h => (h.line, fun m => m.addTag (normalizeTag h.tag)))

/-- The link loop (markdown.ts lines 182-190): each link occurrence is
inferred into a link value and attached at its line. -/
def linkAdditions (links : List LinkHint) : List (Nat × (Metadata → Metadata)) :=
  links.map (fun h => (h.line, fun m => m.addLink (linkInfer h.target none)))

/-- The frontmatter-link loop (markdown.ts lines 197-199): assigned to
the page only. -/
def frontLinksLoop (links : List FrontLinkHint) (st : AttachState) : AttachState :=
  links.foldl
    (fun st h => { st with page := st.page.addLink (linkInfer h.target h.display) }) st

/-- Embedding of one step of iterateInlineFields (markdown.ts lines
234-250): a line longer than 32768 characters or without the two-colon
delimiter is skipped; otherwise the inline extractor's matches are
yielded at the line, and when it finds none the whole-line extractor is
tried. -/
def lineFields (env : Env) (lineno : Nat) (line : String) : List InlineField :=
  if line.length > 32768 ∨ ¬ containsStr line "::" then []
  else
    let fs := env.extractInline line
    if fs.length > 0 then fs.map (fun p => ⟨p.1, p.2, lineno⟩)
    else
      match env.extractFull line with
      | some p => [⟨p.1, p.2, lineno⟩]
      | none => []

/-- All inline fields discovered by the line-by-line scan, in document
order. -/
def inlineFieldsOf (env : Env) (lines : List String) : List InlineField :=
  (lines.enum.map (fun p => lineFields env p.1 p.2)).flatten

/-- The inline-field loop (markdown.ts lines 205-212): each discovered
field is attached at its line. -/
def fieldAdditions (env : Env) (lines : List String) :
    List (Nat × (Metadata → Metadata)) :=
  (inlineFieldsOf env lines).map (fun f => (f.line, fun m => m.addField f))

/-- All four attachment loops in source order: tags, links,
frontmatter links, inline fields. -/
def attachPhase (env : Env) (lines : List String) (secT : Tree SectionCore)
    (blkT : Tree BlockCore) (itmT : Tree ListItemCore) (meta : MetadataCache) :
    AttachState :=
  let st := attachLoop secT blkT itmT (tagAdditions (meta.tags.getD [])) AttachState.init
  let st := attachLoop secT blkT itmT (linkAdditions (meta.links.getD [])) st
  let st := frontLinksLoop (meta.frontmatterLinks.getD []) st
  attachLoop secT blkT itmT (fieldAdditions env lines) st

/-! ## Build phase (the serialized JSON records) -/

/-- JsonMarkdownListItem / JsonMarkdownTaskItem: the serialized list
item; the type tag is task exactly when the status is present and
truthy (a present empty string is falsy in the source's conditional),
and the status is carried verbatim. -/
inductive JsonItem where
  | mk (parent : Int) (start endL : Nat) (blockId : Option String)
      (elements : List JsonItem) (typeTag : String) (status : Option String)
      (tags : List String) (links : List LinkData)
      (infields : List (String × InlineField))

/-- The start line of a serialized item. -/
def JsonItem.start : JsonItem → Nat
  | .mk _ s _ _ _ _ _ _ _ _ => s

/-- The tag list of a serialized item. -/
def JsonItem.tags : JsonItem → List String
  | .mk _ _ _ _ _ _ _ t _ _ => t

/-- The serialized block record, one constructor per block builder. -/
inductive JsonBlock where
  | listB (ordinal : Nat) (start endL : Nat) (infields : List (String × InlineField))
      (tags : List String) (links : List LinkData) (blockId : Option String)
      (elements : List JsonItem)
  | codeB (ordinal : Nat) (start endL : Nat) (infields : List (String × InlineField))
      (tags : List String) (links : List LinkData) (blockId : Option String)
      (languages : List String) (style : String) (contentStart contentEnd : Int)
  | dataB (ordinal : Nat) (start endL : Nat) (infields : List (String × InlineField))
      (tags : List String) (links : List LinkData) (blockId : Option String)
      (data : List (String × FrontEntry))
  | baseB (typeTag : String) (ordinal : Nat) (start endL : Nat)
      (infields : List (String × InlineField)) (tags : List String)
      (links : List LinkData) (blockId : Option String)

/-- The start line of a serialized block. -/
def JsonBlock.start : JsonBlock → Nat
  | .listB _ s _ _ _ _ _ _ => s
  | .codeB _ s _ _ _ _ _ _ _ _ _ => s
  | .dataB _ s _ _ _ _ _ _ => s
  | .baseB _ _ s _ _ _ _ _ => s

/-- The ordinal of a serialized block. -/
def JsonBlock.ordinal : JsonBlock → Nat
  | .listB o _ _ _ _ _ _ _ => o
  | .codeB o _ _ _ _ _ _ _ _ _ _ => o
  | .dataB o _ _ _ _ _ _ _ => o
  | .baseB _ o _ _ _ _ _ _ => o

/-- The tag list of a serialized block. -/
def JsonBlock.tags : JsonBlock → List String
  | .listB _ _ _ _ t _ _ _ => t
  | .codeB _ _ _ _ t _ _ _ _ _ _ => t
  | .dataB _ _ _ _ t _ _ _ => t
  | .baseB _ _ _ _ _ t _ _ => t

/-- JsonMarkdownSection: the serialized section record. -/
structure JsonSection where
  title : String
  ordinal : Nat
  level : Nat
  tags : List String
  infields : List (String × InlineField)
  links : List LinkData
  start : Nat
  endL : Nat
  blocks : List JsonBlock

/-- JsonMarkdownPage: the serialized page record. -/
structure JsonPage where
  path : String
  ctime : Int
  mtime : Int
  size : Int
  extension : String
  posStart : Nat
  posEnd : Nat
  tags : List String
  links : List LinkData
  infields : List (String × InlineField)
  sections : List JsonSection
  frontmatter : Option (List (String × FrontEntry))

mutual

/-- ListItemData.build: serialize an item, recursing into the children
accumulated by the second list pass and reading the final aggregator
of the tree resident at the item's start line.  The source's recursion
runs on the JavaScript call stack, which overflows when the hints
encode a parent cycle; the fuel argument models that stack, and its
exhaustion is the stack-overflow error. -/
def buildItem (cmap : Nat → List ListItemCore) (im : Nat → Metadata) :
    Nat → ListItemCore → Except String JsonItem
  | 0, _ => .error "RangeError: Maximum call stack size exceeded"
  | fuel + 1, core =>
      match buildItemList cmap im fuel (cmap core.start) with
      | .error e => .error e
      | .ok kids =>
          let m := im core.start
          .ok (.mk core.parent core.start core.endL core.blockId kids
            (match core.status with
              | some s => if s = "" then "list" else "task"
              | none => "list")
            core.status m.tags m.links m.infields)

/-- Serialization of a list of items at the same stack depth. -/
def buildItemList (cmap : Nat → List ListItemCore) (im : Nat → Metadata) :
    Nat → List ListItemCore → Except String (List JsonItem)
  | _, [] => .ok []
  | fuel, c :: cs =>
      match buildItem cmap im fuel c with
      | .error e => .error e
      | .ok j =>
          match buildItemList cmap im fuel cs with
          | .error e => .error e
          | .ok js => .ok (j :: js)

end

/-- Block build: serialize one block, reading its final aggregator and,
for a list block, serializing the items accumulated by the second list
pass. -/
def buildBlock (bitems : Nat → List ListItemCore) (cmap : Nat → List ListItemCore)
    (bm im : Nat → Metadata) (fuel : Nat) (core : BlockCore) :
    Except String JsonBlock :=
  match core with
  | .listB s e o id =>
      match buildItemList cmap im fuel (bitems s) with
      | .error err => .error err
      | .ok items =>
          let m := bm s
          .ok (.listB o s e m.infields m.tags m.links id items)
  | .codeB s e o langs style cs ce id =>
      let m := bm s
      .ok (.codeB o s e m.infields m.tags m.links id langs style cs ce)
  | .dataB s e o data id =>
      let m := bm s
      .ok (.dataB o s e m.infields m.tags m.links id data)
  | .baseB s e o ty id =>
      let m := bm s
      .ok (.baseB ty o s e m.infields m.tags m.links id)

/-- Serialization of the blocks of one section. -/
def buildBlockList (bitems cmap : Nat → List ListItemCore) (bm im : Nat → Metadata)
    (fuel : Nat) : List BlockCore → Except String (List JsonBlock)
  | [] => .ok []
  | c :: cs =>
      match buildBlock bitems cmap bm im fuel c with
      | .error e => .error e
      | .ok j =>
          match buildBlockList bitems cmap bm im fuel cs with
          | .error e => .error e
          | .ok js => .ok (j :: js)

/-- SectionData.build: serialize one pushed section.  Attached blocks
and metadata live on the tree resident; a pushed section that was
replaced in the tree (a later heading hint at the same start line) is
a distinct object that was never attached to, so it serializes with
empty accumulations. -/
def buildSection (secT : Tree SectionCore) (sblocks : Nat → List BlockCore)
    (bitems cmap : Nat → List ListItemCore) (sm bm im : Nat → Metadata)
    (fuel : Nat) (core : SectionCore) : Except String JsonSection :=
  let resident := secT.get core.start = some core
  let m := if resident then sm core.start else Metadata.empty
  let bs := if resident then sblocks core.start else []
  match buildBlockList bitems cmap bm im fuel bs with
  | .error e => .error e
  | .ok blocks =>
      .ok ⟨core.title, core.ordinal, core.level, m.tags, m.infields, m.links,
        core.start, core.endL, blocks⟩

/-- Serialization of the pushed section list, in push order. -/
def buildSectionList (secT : Tree SectionCore) (sblocks : Nat → List BlockCore)
    (bitems cmap : Nat → List ListItemCore) (sm bm im : Nat → Metadata)
    (fuel : Nat) : List SectionCore → Except String (List JsonSection)
  | [] => .ok []
  | c :: cs =>
      match buildSection secT sblocks bitems cmap sm bm im fuel c with
      | .error e => .error e
      | .ok j =>
          match buildSectionList secT sblocks bitems cmap sm bm im fuel cs with
          | .error e => .error e
          | .ok js => .ok (j :: js)

/-! ## The import function -/

/-- Embedding of markdownImport (markdown.ts lines 40-215): split the
raw text on newlines; map the frontmatter block when present; run the
section phase (fallible through the emptylines gap check), the block
phase (fallible through yaml parsing and the fence read of an
out-of-range line), the block-to-section attachment, the two list
passes, and the four metadata loops; then serialize the page.  The
serialization fuel for the list recursion is one more than the item
count, enough for every acyclic hierarchy and exhausted exactly by the
unbounded unfolding of a parent cycle, which on the source's call
stack is a stack overflow. -/
def markdownImport (env : Env) (path : String) (markdown : String)
    (meta : MetadataCache) (stats : FileStats) : Except String JsonPage :=
  let lines := splitLines markdown
  let frontmatter := meta.frontmatter.map (parseFrontmatterBlock env)
  match sectionsPhase path lines (meta.headings.getD []) with
  | .error e => .error e
  | .ok sp =>
  let secT := sp.1
  let pushed := sp.2
  match blocksPhase env lines (meta.sections.getD []) with
  | .error e => .error e
  | .ok bp =>
      let blkT := bp.1
      let sblocks := attachBlocks secT blkT
      let itmT := itemsPhase (meta.listItems.getD [])
      let pt := passTwo blkT itmT
      let bitems := pt.1
      let cmap := pt.2
      let st := attachPhase env lines secT blkT itmT meta
      let fuel := itmT.length + 1
      match buildSectionList secT sblocks bitems cmap st.sec st.blk st.itm fuel pushed with
      | .error e => .error e
      | .ok sections =>
          .ok ⟨path, stats.ctime, stats.mtime, stats.size, getExtension path,
            0, lines.length, st.page.tags, st.page.links, st.page.infields,
            sections, frontmatter⟩

/-! ## Verification-layer definitions -/

/-- The sortedness invariant of every tree built by set: keys strictly
increase. -/
def TSorted {α : Type} (t : Tree α) : Prop :=
  List.Pairwise (fun p q => p.1 < q.1) t

/-- The section cores produced by the heading loop, without the tree:
heading i stretches to the next heading's start (the file length for
the last one) and carries ordinal idx + i + 1. -/
def headCores (total : Nat) : List HeadingHint → Nat → List SectionCore
  | [], _ => []
  | h :: rest, idx =>
      (⟨h.start,
        (match rest with
          | [] => total
          | h2 :: _ => h2.start),
        h.heading, h.level, idx + 1⟩ : SectionCore) :: headCores total rest (idx + 1)

/-- A section core covering a given line. -/
def coversLine (L : Nat) (c : SectionCore) : Bool :=
  decide (c.start ≤ L ∧ L < c.endL)

/-- A fold of keyed insertions, the shape of every tree-building loop
of the import. -/
def tfold {α : Type} (keyf : α → Nat) (t : Tree α) (cs : List α) : Tree α :=
  cs.foldl (fun t c => t.set (keyf c) c) t

/-- The key-equals-start invariant of every tree of the import. -/
def TKeyed {α : Type} (keyf : α → Nat) (t : Tree α) : Prop :=
  ∀ p ∈ t, keyf p.2 = p.1

/-- The implicit section core synthesized for a file or a leading
gap. -/
def implicitCore (path : String) (endL : Nat) : SectionCore :=
  ⟨0, endL, getFileTitle path, 1, 0⟩

/-- A serialized section covering a given line (the claim predicate
over built pages). -/
def coversLineJ (L : Nat) (s : JsonSection) : Bool :=
  decide (s.start ≤ L ∧ L < s.endL)

/-- A concrete environment for closed evaluations: the string parsers
never match, the yaml parser fails exactly on a body equal to FAIL, and
the inline extractor splits one key :: value occurrence. -/
def cEnv : Env where
  dateParse := fun _ => none
  durParse := fun _ => none
  linkParse := fun _ => none
  yamlParse := fun s => if s = "FAIL" then .error "bad yaml" else .ok [("a", .num 1)]
  extractInline := fun s =>
    if containsStr s "::" then [("k", s)] else []
  extractFull := fun _ => none

/-- An empty metadata record for fixtures. -/
def cMeta : MetadataCache := ⟨none, none, none, none, none, none, none⟩

/-- Concrete file stats for fixtures. -/
def cStats : FileStats := ⟨1, 2, 3⟩

/-- The section list of a successful import result (empty on
failure), for closed statements about concrete imports. -/
def pageSections : Except String JsonPage → List JsonSection
  | .ok p => p.sections
  | .error _ => []

/-- Metadata with one heading hint at line 1, the C1 fixture. -/
def cMetaC1 : MetadataCache :=
  ⟨some [⟨1, "H", 1⟩], none, none, none, none, none, none⟩

/-- A default page record for extracting concrete import results. -/
def defaultPage : JsonPage := ⟨"", 0, 0, 0, "", 0, 0, [], [], [], [], none⟩

/-- The language list of a serialized code block (empty for other
blocks). -/
def JsonBlock.languages : JsonBlock → List String
  | .codeB _ _ _ _ _ _ _ langs _ _ _ => langs
  | _ => []

/-- The style tag of a serialized code block (empty for other
blocks). -/
def JsonBlock.style : JsonBlock → String
  | .codeB _ _ _ _ _ _ _ _ st _ _ => st
  | _ => ""

/-- All serialized blocks of a built page, across its sections, in
order. -/
def allBlocks (page : JsonPage) : List JsonBlock :=
  (page.sections.map (fun s => s.blocks)).flatten

/-- The first block of a successful import result. -/
def firstBlock (r : Except String JsonPage) : Option JsonBlock :=
  (((pageSections r).map (fun s => s.blocks)).flatten).head?

/-- A heading plus paragraph plus fenced code block, the C5 fixture. -/
def cMetaC5 : MetadataCache :=
  ⟨some [⟨0, "Title", 1⟩],
    some [⟨"heading", 0, 0, none⟩, ⟨"paragraph", 1, 1, none⟩, ⟨"code", 2, 4, none⟩],
    none, none, none, none, none⟩

/-- The page built by the C5 fixture import. -/
def cPageC5 : JsonPage :=
  (markdownImport cEnv "f.md" "# Title\npara\n```js\nx\n```" cMetaC5 cStats).toOption.getD
    defaultPage

/-- Metadata with one code block hint spanning the whole three-line
file, the C6 fixture. -/
def cMetaC6 : MetadataCache :=
  ⟨none, some [⟨"code", 0, 2, none⟩], none, none, none, none, none⟩

/-- The fence-open reading of the claim, written from its words: three
or more fence characters, optionally followed by a comma-separated
language list; the languages are the comma-split of the list after the
whole fence run (empty if none given). -/
def specFenceLanguages (s : String) : Option (List String) :=
  match s.data.head? with
  | none => none
  | some fc =>
      if fc = Char.ofNat 96 ∨ fc = Char.ofNat 126 then
        let run := (s.data.takeWhile (fun c => c = fc)).length
        if 3 ≤ run then
          let rest := String.mk (s.data.drop run)
          some (if rest ≠ "" then splitComma rest else [])
        else none
      else none

/-- The page built by the C1 fixture import. -/
def cPageC1 : JsonPage :=
  (markdownImport cEnv "note.md" "\n# H\nx" cMetaC1 cStats).toOption.getD defaultPage

/-- Two heading hints sharing start line 0, the C10 fixture. -/
def cMetaC10 : MetadataCache :=
  ⟨some [⟨0, "A", 1⟩, ⟨0, "B", 2⟩], none, none, none, none, none, none⟩

/-- The page built by the C10 fixture import. -/
def cPageC10 : JsonPage :=
  (markdownImport cEnv "n.md" "x" cMetaC10 cStats).toOption.getD defaultPage

/-- The type tag test listBlock.type === "list" applied through the
block tree, the guard of the second list pass. -/
def isListAt (blkT : Tree BlockCore) (k : Nat) : Bool :=
  match blkT.get k with
  | some bc => bc.isList
  | none => false

/-- The item core built from a list-item hint in the first pass. -/
def itemCore (h : ListItemHint) : ListItemCore :=
  ⟨h.start, h.endL, h.parent, h.id, h.task⟩

/-- A code block hint starting beyond the end of the file, the C3
counterexample fixture. -/
def cMetaC3x : MetadataCache :=
  ⟨none, some [⟨"code", 5, 6, none⟩], none, none, none, none, none⟩

/-- A heading hint starting past the end of an empty (all-blank) file,
the second C3 counterexample fixture: the leading-gap emptylines scan
runs off the end of the lines array. -/
def cMetaC3h : MetadataCache :=
  ⟨some [⟨5, "H", 1⟩], none, none, none, none, none, none⟩

/-- A yaml:data block whose body the yaml parser rejects, the C3
witness fixture. -/
def cMetaC3 : MetadataCache :=
  ⟨none, some [⟨"code", 0, 2, none⟩], none, none, none, none, none⟩

/-- The page built from two inline-field lines whose extracted keys
collide, the C8 counterexample fixture. -/
def cPageC8 : JsonPage :=
  (markdownImport cEnv "f.md" "a::1\nb::2" cMeta cStats).toOption.getD defaultPage

/-- Modelled from the spec: the enumerable own fields a luxon DateTime
instance exposes to a for-in loop (their exact set is irrelevant to the
theorems; the timestamp field stands for all of them). -/
def dateTimeFields (d : DateRep) : List (String × JsValue) := [("ts", .num d.ms)]

/-- Modelled from the spec: the enumerable own fields of a luxon
Duration instance. -/
def durationFields (d : DurRep) : List (String × JsValue) := [("values", .num d.ms)]

/-- Modelled from the spec: the enumerable own fields of a Link class
instance. -/
def linkFields (l : LinkData) : List (String × JsValue) :=
  [("path", .str l.target),
    ("display", match l.display with | some d => .str d | none => .null)]

mutual

/-- The JavaScript runtime representation of an already-coerced literal
value, fed back into the coercion: scalars are primitives, dates and
durations are luxon class instances, links are Link class instances
(none of the three is an Array or a native Date), lists are arrays,
maps are plain objects. -/
def literalToJs : Literal → JsValue
  | .null => .null
  | .bool b => .bool b
  | .num n => .num n
  | .str s => .str s
  | .date d => .luxonDateTime d (dateTimeFields d)
  | .dur d => .luxonDuration d (durationFields d)
  | .link l => .linkObj l (linkFields l)
  | .list xs => .arr (literalToJsList xs)
  | .map kvs => .obj (literalToJsPairs kvs)

/-- Runtime representation of a list literal's elements. -/
def literalToJsList : List Literal → List JsValue
  | [] => []
  | x :: xs => literalToJs x :: literalToJsList xs

/-- Runtime representation of a map literal's pairs. -/
def literalToJsPairs : List (String × Literal) → List (String × JsValue)
  | [] => []
  | (k, v) :: rest => (k, literalToJs v) :: literalToJsPairs rest

end

/-! ## Basic facts about the interval index -/

theorem tsorted_nil {α : Type} : TSorted ([] : Tree α) := List.Pairwise.nil

theorem tsorted_cons {α : Type} {hd : Nat × α} {tl : Tree α} :
    TSorted (hd :: tl) ↔ (∀ p ∈ tl, hd.1 < p.1) ∧ TSorted tl := by
  unfold TSorted
  exact List.pairwise_cons

theorem set_mem {α : Type} {t : Tree α} {k : Nat} {v : α} {p : Nat × α}
    (hs : TSorted t) : p ∈ t.set k v ↔ p = (k, v) ∨ (p ∈ t ∧ p.1 ≠ k) := by
  induction t with
  | nil => simp [Tree.set]
  | cons hd tl ih =>
      obtain ⟨hhd, htl⟩ := tsorted_cons.mp hs
      by_cases h1 : k < hd.1
      · simp only [Tree.set, if_pos h1, List.mem_cons]
        constructor
        · rintro (h | h | h)
          · exact Or.inl h
          · exact Or.inr ⟨Or.inl h, by subst h; omega⟩
          · exact Or.inr ⟨Or.inr h, by have := hhd p h; omega⟩
        · rintro (h | ⟨(h | h), hne⟩)
          · exact Or.inl h
          · exact Or.inr (Or.inl h)
          · exact Or.inr (Or.inr h)
      · by_cases h2 : k = hd.1
        · simp only [Tree.set, if_neg h1, if_pos h2, List.mem_cons]
          constructor
          · rintro (h | h)
            · exact Or.inl h
            · exact Or.inr ⟨Or.inr h, by have := hhd p h; omega⟩
          · rintro (h | ⟨(h | h), hne⟩)
            · exact Or.inl h
            · exact absurd (by rw [h, h2]) hne
            · exact Or.inr h
        · simp only [Tree.set, if_neg h1, if_neg h2, List.mem_cons]
          constructor
          · rintro (h | h)
            · exact Or.inr ⟨Or.inl h, by subst h; omega⟩
            · rcases (ih htl).mp h with h' | ⟨h', hne⟩
              · exact Or.inl h'
              · exact Or.inr ⟨Or.inr h', hne⟩
          · rintro (h | ⟨(h | h), hne⟩)
            · exact Or.inr ((ih htl).mpr (Or.inl h))
            · exact Or.inl h
            · exact Or.inr ((ih htl).mpr (Or.inr ⟨h, hne⟩))

theorem set_sorted {α : Type} {t : Tree α} (k : Nat) (v : α)
    (hs : TSorted t) : TSorted (t.set k v) := by
  induction t with
  | nil => simp [Tree.set, TSorted]
  | cons hd tl ih =>
      obtain ⟨hhd, htl⟩ := tsorted_cons.mp hs
      by_cases h1 : k < hd.1
      · simp only [Tree.set, if_pos h1]
        refine tsorted_cons.mpr ⟨?_, hs⟩
        intro p hp
        rcases List.mem_cons.mp hp with h | h
        · subst h; omega
        · have := hhd p h; omega
      · by_cases h2 : k = hd.1
        · simp only [Tree.set, if_neg h1, if_pos h2]
          refine tsorted_cons.mpr ⟨?_, htl⟩
          intro p hp
          have := hhd p hp; omega
        · simp only [Tree.set, if_neg h1, if_neg h2]
          refine tsorted_cons.mpr ⟨?_, ih htl⟩
          intro p hp
          rcases (set_mem htl).mp hp with h | ⟨h, _⟩
          · subst h; omega
          · exact hhd p h

theorem get_eq_some {α : Type} {t : Tree α} {k : Nat} {v : α}
    (hs : TSorted t) : t.get k = some v ↔ (k, v) ∈ t := by
  induction t with
  | nil => simp [Tree.get]
  | cons hd tl ih =>
      obtain ⟨hhd, htl⟩ := tsorted_cons.mp hs
      by_cases h : hd.1 = k
      · obtain ⟨k', v'⟩ := hd
        simp only at h
        subst h
        rw [show Tree.get ((k', v') :: tl) k' = some v' by
          simp [Tree.get, List.find?_cons_of_pos]]
        simp only [Option.some_inj, List.mem_cons]
        constructor
        · intro hv
          exact Or.inl (by rw [hv])
        · rintro (hv | hv)
          · cases hv
            rfl
          · exfalso
            have := hhd _ hv
            simp at this
      · rw [show Tree.get (hd :: tl) k = Tree.get tl k by
          simp [Tree.get, List.find?_cons_of_neg, h]]
        rw [ih htl]
        simp only [List.mem_cons]
        constructor
        · exact Or.inr
        · rintro (hv | hv)
          · exfalso
            apply h
            rw [← hv]
          · exact hv

theorem get_isSome_iff {α : Type} {t : Tree α} {k : Nat}
    (hs : TSorted t) : (t.get k).isSome ↔ ∃ v, (k, v) ∈ t := by
  constructor
  · intro h
    obtain ⟨v, hv⟩ := Option.isSome_iff_exists.mp h
    exact ⟨v, (get_eq_some hs).mp hv⟩
  · rintro ⟨v, hv⟩
    rw [Option.isSome_iff_exists]
    exact ⟨v, (get_eq_some hs).mpr hv⟩

theorem floor_none {α : Type} {t : Tree α} {L : Nat} (hs : TSorted t) :
    t.floorPair L = none ↔ ∀ p ∈ t, L < p.1 := by
  induction t with
  | nil => simp [Tree.floorPair]
  | cons hd tl ih =>
      obtain ⟨hhd, htl⟩ := tsorted_cons.mp hs
      by_cases h : hd.1 ≤ L
      · simp only [Tree.floorPair, if_pos h]
        constructor
        · intro hcontra
          exfalso
          cases hfl : Tree.floorPair tl L with
          | some q => rw [hfl] at hcontra; exact Option.noConfusion hcontra
          | none => rw [hfl] at hcontra; exact Option.noConfusion hcontra
        · intro hall
          exact absurd (hall hd (List.mem_cons_self _ _)) (by omega)
      · simp only [Tree.floorPair, if_neg h, ih htl, List.mem_cons]
        constructor
        · intro hall p hp
          rcases hp with hp | hp
          · subst hp; omega
          · exact hall p hp
        · intro hall p hp
          exact hall p (Or.inr hp)

theorem floor_some {α : Type} {t : Tree α} {L : Nat} {p : Nat × α}
    (hs : TSorted t) :
    t.floorPair L = some p ↔
      p ∈ t ∧ p.1 ≤ L ∧ ∀ q ∈ t, q.1 ≤ L → q.1 ≤ p.1 := by
  induction t generalizing p with
  | nil => simp [Tree.floorPair]
  | cons hd tl ih =>
      obtain ⟨hhd, htl⟩ := tsorted_cons.mp hs
      by_cases h : hd.1 ≤ L
      · simp only [Tree.floorPair, if_pos h]
        cases hfl : Tree.floorPair tl L with
        | some q =>
            have hq := (ih htl).mp hfl
            simp only [Option.some_inj, List.mem_cons]
            constructor
            · intro hpq
              subst hpq
              refine ⟨Or.inr hq.1, hq.2.1, ?_⟩
              rintro r (hr | hr) hrL
              · subst hr
                exact le_of_lt (hhd _ hq.1)
              · exact hq.2.2 r hr hrL
            · rintro ⟨hp | hp, hpL, hmax⟩
              · exfalso
                subst hp
                have h1 := hmax q (Or.inr hq.1) hq.2.1
                have h2 := hhd _ hq.1
                omega
              · have : Tree.floorPair tl L = some p :=
                  (ih htl).mpr ⟨hp, hpL, fun r hr hrL => hmax r (Or.inr hr) hrL⟩
                rw [hfl] at this
                exact Option.some_inj.mp this
        | none =>
            have hnone := (floor_none htl).mp hfl
            simp only [Option.some_inj, List.mem_cons]
            constructor
            · intro hpq
              subst hpq
              refine ⟨Or.inl rfl, h, ?_⟩
              rintro r (hr | hr) hrL
              · subst hr; exact le_refl _
              · exact absurd hrL (by have := hnone r hr; omega)
            · rintro ⟨hp | hp, hpL, hmax⟩
              · exact hp.symm
              · exact absurd hpL (by have := hnone p hp; omega)
      · simp only [Tree.floorPair, if_neg h]
        rw [ih htl]
        simp only [List.mem_cons]
        constructor
        · rintro ⟨hp, hpL, hmax⟩
          refine ⟨Or.inr hp, hpL, ?_⟩
          rintro r (hr | hr) hrL
          · subst hr; omega
          · exact hmax r hr hrL
        · rintro ⟨hp | hp, hpL, hmax⟩
          · exfalso; subst hp; omega
          · exact ⟨hp, hpL, fun r hr hrL => hmax r (Or.inr hr) hrL⟩

/-- Containment lookup characterized: the result is the stored record
whose key is the greatest key at most the line, accepted only when its
end lies beyond the line. -/
theorem lookup_some {α : Type} {endOf : α → Nat} {t : Tree α} {L : Nat} {v : α}
    (hs : TSorted t) :
    Tree.lookupBy endOf L t = some v ↔
      ∃ k, (k, v) ∈ t ∧ k ≤ L ∧ L < endOf v ∧
        ∀ q ∈ t, q.1 ≤ L → q.1 ≤ k := by
  unfold Tree.lookupBy
  cases hfl : t.floorPair L with
  | some p =>
      have hp := (floor_some hs).mp hfl
      by_cases hend : endOf p.2 > L
      · simp only [if_pos hend, Option.some_inj]
        constructor
        · intro hv
          subst hv
          exact ⟨p.1, hp.1, hp.2.1, hend, hp.2.2⟩
        · rintro ⟨k, hkv, hkL, hLe, hmax⟩
          have heq : t.floorPair L = some (k, v) :=
            (floor_some hs).mpr ⟨hkv, hkL, hmax⟩
          rw [hfl] at heq
          exact congrArg Prod.snd (Option.some_inj.mp heq)
      · simp only [if_neg hend]
        constructor
        · intro hv; exact Option.noConfusion hv
        · rintro ⟨k, hkv, hkL, hLe, hmax⟩
          exfalso
          have heq : t.floorPair L = some (k, v) :=
            (floor_some hs).mpr ⟨hkv, hkL, hmax⟩
          rw [hfl] at heq
          have hpv : p.2 = v := congrArg Prod.snd (Option.some_inj.mp heq)
          apply hend
          rw [hpv]
          exact hLe
  | none =>
      have hnone := (floor_none hs).mp hfl
      constructor
      · intro hv; exact Option.noConfusion hv
      · rintro ⟨k, hkv, hkL, _, _⟩
        exact absurd hkL (by have := hnone _ hkv; omega)

/-! ## Section phase lemmas -/

theorem headingLoop_pushed (total : Nat) (hs : List HeadingHint) :
    ∀ idx t pushed,
      (headingLoop total hs idx t pushed).2 = pushed ++ headCores total hs idx := by
  induction hs with
  | nil => intro idx t pushed; simp [headingLoop, headCores]
  | cons h rest ih =>
      intro idx t pushed
      simp only [headingLoop, headCores]
      rw [ih]
      simp

theorem headingLoop_tree (total : Nat) (hs : List HeadingHint) :
    ∀ idx t pushed,
      (headingLoop total hs idx t pushed).1 =
        (headCores total hs idx).foldl (fun t c => t.set c.start c) t := by
  induction hs with
  | nil => intro idx t pushed; simp [headingLoop, headCores]
  | cons h rest ih =>
      intro idx t pushed
      simp only [headingLoop, headCores, List.foldl_cons]
      rw [ih]

theorem headCores_ordinal_gt (total : Nat) (hs : List HeadingHint) :
    ∀ idx c, c ∈ headCores total hs idx → idx < c.ordinal := by
  induction hs with
  | nil => intro idx c hc; simp [headCores] at hc
  | cons h rest ih =>
      intro idx c hc
      rcases List.mem_cons.mp hc with hc | hc
      · subst hc; simp
      · have := ih (idx + 1) c hc; omega

theorem headCores_pairwise_ordinal (total : Nat) (hs : List HeadingHint) :
    ∀ idx, List.Pairwise (fun a b => a.ordinal < b.ordinal) (headCores total hs idx) := by
  induction hs with
  | nil => intro idx; simp [headCores]
  | cons h rest ih =>
      intro idx
      refine List.pairwise_cons.mpr ⟨?_, ih (idx + 1)⟩
      intro c hc
      have := headCores_ordinal_gt total rest (idx + 1) c hc
      simp only
      omega

theorem headCores_starts (total : Nat) (hs : List HeadingHint) :
    ∀ idx, (headCores total hs idx).map (·.start) = hs.map (·.start) := by
  induction hs with
  | nil => intro idx; simp [headCores]
  | cons h rest ih =>
      intro idx
      simp only [headCores, List.map_cons, List.cons_inj_right]
      exact ih (idx + 1)

theorem headCores_start_mem (total : Nat) (hs : List HeadingHint)
    (idx : Nat) {c : SectionCore} (hc : c ∈ headCores total hs idx) :
    c.start ∈ hs.map (·.start) := by
  rw [← headCores_starts total hs idx]
  exact List.mem_map_of_mem _ hc

theorem headCores_count_zero (total : Nat) (hs : List HeadingHint) (idx L : Nat)
    (hL : ∀ h ∈ hs, L < h.start) :
    (headCores total hs idx).countP (coversLine L) = 0 := by
  apply List.countP_eq_zero.mpr
  intro c hc
  have := headCores_start_mem total hs idx hc
  obtain ⟨h, hh, hhs⟩ := List.mem_map.mp this
  have := hL h hh
  simp only [coversLine, decide_eq_true_eq]
  push_neg
  intro hcs
  omega

theorem headCores_cons (total : Nat) (h : HeadingHint) (rest : List HeadingHint)
    (idx : Nat) :
    headCores total (h :: rest) idx =
      (⟨h.start,
        (match rest with
          | [] => total
          | h2 :: _ => h2.start), h.heading, h.level, idx + 1⟩ : SectionCore) ::
        headCores total rest (idx + 1) := rfl

theorem headCores_count_one (total L : Nat) :
    ∀ (rest : List HeadingHint) (h : HeadingHint) (idx : Nat),
      List.Pairwise (fun a b => a.start ≤ b.start) (h :: rest) →
      h.start ≤ L → L < total →
      (headCores total (h :: rest) idx).countP (coversLine L) = 1 := by
  intro rest
  induction rest with
  | nil =>
      intro h idx _ hL hLt
      rw [headCores_cons]
      simp only [List.countP_cons, headCores, List.countP_nil]
      have : coversLine L ⟨h.start, total, h.heading, h.level, idx + 1⟩ = true := by
        simp only [coversLine, decide_eq_true_eq]
        exact ⟨hL, hLt⟩
      simp [this]
  | cons h2 rest2 ih =>
      intro h idx hss hL hLt
      obtain ⟨hh, htl⟩ := List.pairwise_cons.mp hss
      rw [headCores_cons, List.countP_cons]
      by_cases hcase : L < h2.start
      · have hcov : coversLine L ⟨h.start, h2.start, h.heading, h.level, idx + 1⟩ = true := by
          simp only [coversLine, decide_eq_true_eq]
          exact ⟨hL, hcase⟩
        have hzero : (headCores total (h2 :: rest2) (idx + 1)).countP (coversLine L) = 0 := by
          apply headCores_count_zero total (h2 :: rest2) (idx + 1) L
          intro x hx
          rcases List.mem_cons.mp hx with hx | hx
          · subst hx; omega
          · have h2le := (List.pairwise_cons.mp htl).1 x hx
            omega
        rw [hzero, hcov]
        simp
      · have hcov : coversLine L ⟨h.start, h2.start, h.heading, h.level, idx + 1⟩ = false := by
          simp only [coversLine, decide_eq_false_iff_not]
          omega
        have hone : (headCores total (h2 :: rest2) (idx + 1)).countP (coversLine L) = 1 :=
          ih h2 (idx + 1) htl (by omega) hLt
        rw [hone, hcov]
        simp

theorem headCores_cons_one (total : Nat) (h : HeadingHint) (idx : Nat) :
    headCores total [h] idx =
      [(⟨h.start, total, h.heading, h.level, idx + 1⟩ : SectionCore)] := rfl

theorem headCores_cons_two (total : Nat) (h h2 : HeadingHint)
    (rest2 : List HeadingHint) (idx : Nat) :
    headCores total (h :: h2 :: rest2) idx =
      (⟨h.start, h2.start, h.heading, h.level, idx + 1⟩ : SectionCore) ::
        headCores total (h2 :: rest2) (idx + 1) := rfl

theorem headCores_count_le_one (total L : Nat) :
    ∀ (hs : List HeadingHint) (idx : Nat),
      List.Pairwise (fun a b => a.start ≤ b.start) hs →
      (headCores total hs idx).countP (coversLine L) ≤ 1 := by
  intro hs
  induction hs with
  | nil => intro idx _; simp [headCores]
  | cons h rest ih =>
      intro idx hss
      obtain ⟨hh, htl⟩ := List.pairwise_cons.mp hss
      cases rest with
      | nil =>
          rw [headCores_cons_one]
          simp only [List.countP_cons, List.countP_nil]
          split <;> simp
      | cons h2 rest2 =>
          rw [headCores_cons_two, List.countP_cons]
          by_cases hc : coversLine L ⟨h.start, h2.start, h.heading, h.level, idx + 1⟩ = true
          · have hL : L < h2.start := by
              simp only [coversLine, decide_eq_true_eq] at hc
              exact hc.2
            have hzero : (headCores total (h2 :: rest2) (idx + 1)).countP (coversLine L) = 0 := by
              apply headCores_count_zero total (h2 :: rest2) (idx + 1) L
              intro x hx
              rcases List.mem_cons.mp hx with hx | hx
              · subst hx; omega
              · have h2le := (List.pairwise_cons.mp htl).1 x hx
                omega
            rw [hzero, hc]
            simp
          · rw [eq_false_of_ne_true hc]
            simpa using ih (idx + 1) htl

/-! ## Generic facts about folded insertion -/

theorem tfold_nil {α : Type} (keyf : α → Nat) (t : Tree α) :
    tfold keyf t [] = t := rfl

theorem tfold_cons {α : Type} (keyf : α → Nat) (t : Tree α) (c : α) (cs : List α) :
    tfold keyf t (c :: cs) = tfold keyf (t.set (keyf c) c) cs := rfl

theorem tfold_sorted {α : Type} (keyf : α → Nat) {t : Tree α} (cs : List α)
    (hs : TSorted t) : TSorted (tfold keyf t cs) := by
  induction cs generalizing t with
  | nil => exact hs
  | cons c cs ih => exact ih (set_sorted _ _ hs)

theorem set_get {α : Type} {t : Tree α} (hs : TSorted t) (k' k : Nat) (v : α) :
    (t.set k' v).get k = if k = k' then some v else t.get k := by
  by_cases h : k = k'
  · subst h
    rw [if_pos rfl]
    exact (get_eq_some (set_sorted _ _ hs)).mpr ((set_mem hs).mpr (Or.inl rfl))
  · rw [if_neg h]
    cases hg : t.get k with
    | some w =>
        exact (get_eq_some (set_sorted _ _ hs)).mpr
          ((set_mem hs).mpr (Or.inr ⟨(get_eq_some hs).mp hg, h⟩))
    | none =>
        cases hg' : (t.set k' v).get k with
        | none => rfl
        | some u =>
            exfalso
            rcases (set_mem hs).mp ((get_eq_some (set_sorted _ _ hs)).mp hg') with
              he | ⟨hm, _⟩
            · exact h (congrArg Prod.fst he)
            · rw [(get_eq_some hs).mpr hm] at hg
              exact Option.noConfusion hg

theorem tfold_get {α : Type} (keyf : α → Nat) {t : Tree α} (cs : List α) (k : Nat)
    (hs : TSorted t) :
    (tfold keyf t cs).get k =
      match (cs.filter (fun c => keyf c = k)).getLast? with
      | some c => some c
      | none => t.get k := by
  induction cs generalizing t with
  | nil => simp [tfold]
  | cons c cs ih =>
      rw [tfold_cons]
      rw [ih (set_sorted _ _ hs)]
      by_cases h : keyf c = k
      · rw [List.filter_cons_of_pos (by simp [h])]
        cases hl : (cs.filter (fun c => keyf c = k)).getLast? with
        | some c' =>
            rw [List.getLast?_cons, hl]
            simp
        | none =>
            rw [List.getLast?_cons, hl]
            simp only [Option.getD_none]
            rw [set_get hs _ _ _]
            rw [if_pos h.symm]
      · rw [List.filter_cons_of_neg (by simp [h])]
        cases hl : (cs.filter (fun c => keyf c = k)).getLast? with
        | some c' => rfl
        | none =>
            rw [set_get hs _ _ _, if_neg (fun he => h he.symm)]

theorem tfold_value_mem {α : Type} (keyf : α → Nat) {t : Tree α} (cs : List α)
    {p : Nat × α} (hs : TSorted t) (hp : p ∈ tfold keyf t cs) :
    p ∈ t ∨ ∃ c ∈ cs, p = (keyf c, c) := by
  induction cs generalizing t with
  | nil => exact Or.inl hp
  | cons c cs ih =>
      rw [tfold_cons] at hp
      rcases ih (set_sorted _ _ hs) hp with hm | ⟨c', hc', he⟩
      · rcases (set_mem hs).mp hm with he | ⟨hm', _⟩
        · exact Or.inr ⟨c, List.mem_cons_self _ _, he⟩
        · exact Or.inl hm'
      · exact Or.inr ⟨c', List.mem_cons_of_mem _ hc', he⟩

theorem tfold_keyed {α : Type} (keyf : α → Nat) {t : Tree α} (cs : List α)
    (hs : TSorted t) (hk : TKeyed keyf t) : TKeyed keyf (tfold keyf t cs) := by
  intro p hp
  rcases tfold_value_mem keyf cs hs hp with hm | ⟨c, _, he⟩
  · exact hk p hm
  · rw [he]

theorem tfold_key_mem {α : Type} (keyf : α → Nat) {t : Tree α} (cs : List α)
    (k : Nat) (hs : TSorted t) :
    (∃ v, (k, v) ∈ tfold keyf t cs) ↔ (∃ v, (k, v) ∈ t) ∨ k ∈ cs.map keyf := by
  induction cs generalizing t with
  | nil => simp [tfold]
  | cons c cs ih =>
      rw [tfold_cons, ih (set_sorted _ _ hs)]
      constructor
      · rintro (⟨v, hv⟩ | hm)
        · rcases (set_mem hs).mp hv with he | ⟨hm', _⟩
          · refine Or.inr ?_
            have hk : k = keyf c := congrArg Prod.fst he
            rw [List.map_cons, hk]
            exact List.mem_cons_self _ _
          · exact Or.inl ⟨v, hm'⟩
        · refine Or.inr ?_
          rw [List.map_cons]
          exact List.mem_cons_of_mem _ hm
      · rintro (⟨v, hv⟩ | hm)
        · by_cases h : k = keyf c
          · exact Or.inl ⟨c, (set_mem hs).mpr (Or.inl (by rw [h]))⟩
          · exact Or.inl ⟨v, (set_mem hs).mpr (Or.inr ⟨hv, h⟩)⟩
        · rw [List.map_cons] at hm
          rcases List.mem_cons.mp hm with he | hm'
          · exact Or.inl ⟨c, (set_mem hs).mpr (Or.inl (by rw [he]))⟩
          · exact Or.inr hm'

/-- The head of a sorted tree is its least pair. -/
theorem sorted_head_least {α : Type} {t : Tree α} (hs : TSorted t)
    {p : Nat × α} (hp : t.head? = some p) : p ∈ t ∧ ∀ q ∈ t, p.1 ≤ q.1 := by
  cases t with
  | nil => exact Option.noConfusion hp
  | cons hd tl =>
      obtain ⟨hhd, _⟩ := tsorted_cons.mp hs
      have heq : hd = p := by simpa using hp
      subst heq
      refine ⟨List.mem_cons_self _ _, ?_⟩
      intro q hq
      rcases List.mem_cons.mp hq with hq | hq
      · rw [hq]
      · exact le_of_lt (hhd q hq)

/-! ## Sorting of the heading hints -/

theorem insertHeading_mem {h : HeadingHint} {l : List HeadingHint} {x : HeadingHint} :
    x ∈ insertHeading h l ↔ x = h ∨ x ∈ l := by
  induction l with
  | nil => simp [insertHeading]
  | cons h' rest ih =>
      by_cases hc : h'.start ≤ h.start
      · simp only [insertHeading, if_pos hc, List.mem_cons, ih]
        tauto
      · simp only [insertHeading, if_neg hc, List.mem_cons]

theorem insertHeading_perm (h : HeadingHint) (l : List HeadingHint) :
    List.Perm (insertHeading h l) (h :: l) := by
  induction l with
  | nil => exact List.Perm.refl _
  | cons h' rest ih =>
      by_cases hc : h'.start ≤ h.start
      · rw [insertHeading, if_pos hc]
        exact (List.Perm.cons h' ih).trans (List.Perm.swap h h' rest)
      · rw [insertHeading, if_neg hc]

theorem insertHeading_sorted {h : HeadingHint} {l : List HeadingHint}
    (hs : List.Pairwise (fun a b => a.start ≤ b.start) l) :
    List.Pairwise (fun a b => a.start ≤ b.start) (insertHeading h l) := by
  induction l with
  | nil => simp [insertHeading]
  | cons h' rest ih =>
      obtain ⟨hh, htl⟩ := List.pairwise_cons.mp hs
      by_cases hc : h'.start ≤ h.start
      · rw [insertHeading, if_pos hc]
        refine List.pairwise_cons.mpr ⟨?_, ih htl⟩
        intro x hx
        rcases insertHeading_mem.mp hx with hx | hx
        · subst hx; exact hc
        · exact hh x hx
      · rw [insertHeading, if_neg hc]
        refine List.pairwise_cons.mpr ⟨?_, hs⟩
        intro x hx
        rcases List.mem_cons.mp hx with hx | hx
        · subst hx; omega
        · have := hh x hx; omega

theorem sortHeadings_perm (hs : List HeadingHint) :
    List.Perm (sortHeadings hs) hs := by
  suffices h : ∀ acc, List.Perm (hs.foldl (fun acc h => insertHeading h acc) acc) (acc ++ hs) by
    simpa using h []
  induction hs with
  | nil => intro acc; simp
  | cons h rest ih =>
      intro acc
      simp only [List.foldl_cons]
      have e1 := ih (insertHeading h acc)
      have e2 : List.Perm (insertHeading h acc ++ rest) ((h :: acc) ++ rest) :=
        List.Perm.append_right rest (insertHeading_perm h acc)
      have e3 : List.Perm ((h :: acc) ++ rest) (acc ++ h :: rest) := by
        rw [List.cons_append]
        exact List.perm_middle.symm
      exact (e1.trans e2).trans e3

theorem sortHeadings_sorted (hs : List HeadingHint) :
    List.Pairwise (fun a b => a.start ≤ b.start) (sortHeadings hs) := by
  suffices h : ∀ acc, List.Pairwise (fun a b => a.start ≤ b.start) acc →
      List.Pairwise (fun a b => a.start ≤ b.start)
        (hs.foldl (fun acc h => insertHeading h acc) acc) by
    exact h [] List.Pairwise.nil
  induction hs with
  | nil => intro acc hacc; simpa using hacc
  | cons h rest ih =>
      intro acc hacc
      simp only [List.foldl_cons]
      exact ih _ (insertHeading_sorted hacc)

/-! ## Characterization of the section phase -/

theorem headingLoop_eq (total : Nat) (hs : List HeadingHint) (idx : Nat)
    (t : Tree SectionCore) (pushed : List SectionCore) :
    headingLoop total hs idx t pushed =
      (tfold SectionCore.start t (headCores total hs idx),
        pushed ++ headCores total hs idx) := by
  have h1 := headingLoop_tree total hs idx t pushed
  have h2 := headingLoop_pushed total hs idx t pushed
  have : tfold SectionCore.start t (headCores total hs idx) =
      (headCores total hs idx).foldl (fun t c => t.set c.start c) t := rfl
  rw [this]
  exact Prod.ext h1 h2

theorem emptylinesGo_ok_eq (lines : List String) :
    ∀ (n start : Nat) (b : Bool), emptylinesGo lines start n = .ok b →
      b = (List.range' start n).all (fun i => strTrim (lines.getD i "") = "") := by
  intro n
  induction n with
  | zero =>
      intro start b hok
      have := Except.ok.inj hok
      subst this
      rfl
  | succ n ih =>
      intro start b hok
      rw [emptylinesGo] at hok
      cases hg : lines.get? start with
      | none =>
          rw [hg] at hok
          exact Except.noConfusion hok
      | some s =>
          rw [hg] at hok
          dsimp only at hok
          have hgd : lines.getD start "" = s := by
            unfold List.getD
            rw [hg]
            rfl
          rw [show List.range' start (n + 1) = start :: List.range' (start + 1) n from rfl,
            List.all_cons, hgd]
          by_cases hnb : strTrim s ≠ ""
          · rw [if_pos hnb] at hok
            have := Except.ok.inj hok
            subst this
            simp [hnb]
          · rw [if_neg hnb] at hok
            push_neg at hnb
            rw [ih (start + 1) b hok]
            simp [hnb]

theorem emptylinesGo_in_range (lines : List String) :
    ∀ (n start : Nat), start + n ≤ lines.length →
      ∃ b, emptylinesGo lines start n = .ok b := by
  intro n
  induction n with
  | zero => intro start _; exact ⟨true, rfl⟩
  | succ n ih =>
      intro start hle
      cases hg : lines.get? start with
      | none =>
          have := List.get?_eq_none.mp hg
          omega
      | some s =>
          simp only [emptylinesGo, hg]
          by_cases hnb : strTrim s ≠ ""
          · rw [if_pos hnb]
            exact ⟨false, rfl⟩
          · rw [if_neg hnb]
            exact ih (start + 1) (by omega)

theorem emptylinesE_ok_eq {lines : List String} {start endL : Nat} {b : Bool}
    (hok : emptylinesE lines start endL = .ok b) :
    b = emptylines lines start endL :=
  emptylinesGo_ok_eq lines (endL - start) start b hok

theorem emptylinesE_in_range (lines : List String) (start endL : Nat)
    (hle : endL ≤ lines.length) :
    emptylinesE lines start endL = .ok (emptylines lines start endL) := by
  by_cases hse : start ≤ endL
  · obtain ⟨b, hb⟩ := emptylinesGo_in_range lines (endL - start) start (by omega)
    rw [show emptylinesE lines start endL = emptylinesGo lines start (endL - start)
      from rfl, hb]
    rw [show emptylines lines start endL = (List.range' start (endL - start)).all
      (fun i => strTrim (lines.getD i "") = "") from rfl]
    rw [emptylinesGo_ok_eq lines (endL - start) start b hb]
  · have h0 : endL - start = 0 := by omega
    rw [show emptylinesE lines start endL = emptylinesGo lines start (endL - start)
      from rfl, h0]
    rw [show emptylines lines start endL = (List.range' start (endL - start)).all
      (fun i => strTrim (lines.getD i "") = "") from rfl, h0]
    rfl

theorem sectionsPhase_nil (path : String) (lines : List String)
    (headings : List HeadingHint) (hsort : sortHeadings headings = []) :
    sectionsPhase path lines headings =
      .ok (if emptylines lines 0 lines.length then ([], [])
        else ([(0, implicitCore path lines.length)],
          [implicitCore path lines.length])) := by
  rw [sectionsPhase, hsort]
  rw [headingLoop_eq]
  simp only [headCores, tfold_nil, List.append_nil, List.length_nil]
  rw [emptylinesE_in_range lines 0 lines.length (le_refl _)]
  by_cases he : emptylines lines 0 lines.length
  · simp [he]
  · simp [he, Tree.set, implicitCore]

theorem sectionsPhase_cons (path : String) (lines : List String)
    (headings : List HeadingHint) (h : HeadingHint) (rest : List HeadingHint)
    (hsort : sortHeadings headings = h :: rest) :
    sectionsPhase path lines headings =
      (let t0 := tfold SectionCore.start [] (headCores lines.length (h :: rest) 0)
       let pushed0 := headCores lines.length (h :: rest) 0
       if 0 < h.start then
         match emptylinesE lines 0 h.start with
         | .error e => .error e
         | .ok blank =>
             if blank then .ok (t0, pushed0)
             else .ok (t0.set 0 (implicitCore path h.start),
               pushed0 ++ [implicitCore path h.start])
       else .ok (t0, pushed0)) := by
  have hsorted : List.Pairwise (fun a b => a.start ≤ b.start) (h :: rest) := by
    rw [← hsort]; exact sortHeadings_sorted headings
  have ht0sorted : TSorted (tfold SectionCore.start [] (headCores lines.length (h :: rest) 0)) :=
    tfold_sorted _ _ tsorted_nil
  have ht0keyed : TKeyed SectionCore.start
      (tfold SectionCore.start [] (headCores lines.length (h :: rest) 0)) :=
    tfold_keyed _ _ tsorted_nil (fun p hp => absurd hp (List.not_mem_nil p))
  -- the tree is nonempty: the first sorted heading's start is one of its keys
  have hkey : ∃ v, (h.start, v) ∈
      tfold SectionCore.start [] (headCores lines.length (h :: rest) 0) := by
    rw [tfold_key_mem _ _ _ tsorted_nil]
    refine Or.inr ?_
    rw [headCores_starts]
    exact List.mem_map_of_mem _ (List.mem_cons_self _ _)
  have hne : tfold SectionCore.start [] (headCores lines.length (h :: rest) 0) ≠ [] := by
    intro hcontra
    obtain ⟨v, hv⟩ := hkey
    rw [hcontra] at hv
    exact List.not_mem_nil _ hv
  -- the head of the tree has key and value start equal to the first heading start
  obtain ⟨first, hfirst⟩ : ∃ p,
      (tfold SectionCore.start [] (headCores lines.length (h :: rest) 0)).head? = some p := by
    cases hc : (tfold SectionCore.start [] (headCores lines.length (h :: rest) 0)) with
    | nil => exact absurd hc hne
    | cons a b => exact ⟨a, rfl⟩
  obtain ⟨hfmem, hfleast⟩ := sorted_head_least ht0sorted hfirst
  have hfstart : first.2.start = h.start := by
    have hkeyed := ht0keyed first hfmem
    -- the head key is at most the least inserted key and is itself inserted
    obtain ⟨v, hv⟩ := hkey
    have h1 : first.1 ≤ h.start := hfleast (h.start, v) hv
    have h2 : h.start ≤ first.1 := by
      rcases tfold_value_mem SectionCore.start _ tsorted_nil hfmem with hm | ⟨c, hc, he⟩
      · exact absurd hm (List.not_mem_nil _)
      · have hcs := headCores_start_mem lines.length (h :: rest) 0 hc
        rw [List.map_cons] at hcs
        rcases List.mem_cons.mp hcs with hx | hx
        · rw [he]
          simp only
          omega
        · obtain ⟨y, hy, hyx⟩ := List.mem_map.mp hx
          have := (List.pairwise_cons.mp hsorted).1 y hy
          rw [he]
          simp only
          omega
    rw [hkeyed]
    omega
  rw [sectionsPhase, hsort, headingLoop_eq]
  simp only [List.nil_append]
  rw [if_neg (by
    intro hlen
    exact hne (List.length_eq_zero.mp hlen))]
  rw [← hfstart]
  rw [show Tree.least (tfold SectionCore.start [] (headCores lines.length (h :: rest) 0)) =
      some first from hfirst]
  rfl

/-- What a successful section phase computed, sorted-headings cons
case: the tree and push list of the heading loop, plus the implicit
section exactly when the first heading starts after line 0 and the
leading gap (which the emptylines loop must have scanned without
failing) has a non-blank line. -/
theorem sectionsPhase_cons_ok (path : String) (lines : List String)
    (headings : List HeadingHint) (h : HeadingHint) (rest : List HeadingHint)
    (hsort : sortHeadings headings = h :: rest)
    {sp : Tree SectionCore × List SectionCore}
    (hsp : sectionsPhase path lines headings = .ok sp) :
    sp = (let t0 := tfold SectionCore.start [] (headCores lines.length (h :: rest) 0)
          let pushed0 := headCores lines.length (h :: rest) 0
          if 0 < h.start ∧ ¬ emptylines lines 0 h.start then
            (t0.set 0 (implicitCore path h.start), pushed0 ++ [implicitCore path h.start])
          else (t0, pushed0)) := by
  rw [sectionsPhase_cons path lines headings h rest hsort] at hsp
  dsimp only at hsp ⊢
  by_cases h0 : 0 < h.start
  · rw [if_pos h0] at hsp
    cases hE : emptylinesE lines 0 h.start with
    | error e =>
        simp only [hE] at hsp
        exact Except.noConfusion hsp
    | ok blank =>
        simp only [hE] at hsp
        rw [emptylinesE_ok_eq hE] at hsp
        by_cases he : emptylines lines 0 h.start
        · rw [if_pos he] at hsp
          rw [← Except.ok.inj hsp]
          rw [if_neg (fun hc => hc.2 he)]
        · rw [if_neg he] at hsp
          rw [← Except.ok.inj hsp]
          rw [if_pos ⟨h0, he⟩]
  · rw [if_neg h0] at hsp
    rw [← Except.ok.inj hsp]
    rw [if_neg (fun hc => h0 hc.1)]

/-- The section phase never fails when every heading hint starts inside
the file: the emptylines loop then only scans in-range lines. -/
theorem sectionsPhase_ok_of_bounded (path : String) (lines : List String)
    (headings : List HeadingHint)
    (hb : ∀ h ∈ headings, h.start ≤ lines.length) :
    ∃ sp, sectionsPhase path lines headings = .ok sp := by
  cases hsort : sortHeadings headings with
  | nil =>
      exact ⟨_, sectionsPhase_nil path lines headings hsort⟩
  | cons h rest =>
      rw [sectionsPhase_cons path lines headings h rest hsort]
      dsimp only
      have hhs : h.start ≤ lines.length := by
        refine hb h ?_
        have hperm := sortHeadings_perm headings
        rw [hsort] at hperm
        exact hperm.mem_iff.mp (List.mem_cons_self _ _)
      by_cases h0 : 0 < h.start
      · rw [if_pos h0]
        simp only [emptylinesE_in_range lines 0 h.start hhs]
        by_cases he : emptylines lines 0 h.start
        · rw [if_pos he]
          exact ⟨_, rfl⟩
        · rw [if_neg he]
          exact ⟨_, rfl⟩
      · rw [if_neg h0]
        exact ⟨_, rfl⟩

/-! ## Build phase relations -/

theorem buildSection_fields {secT : Tree SectionCore} {sblocks : Nat → List BlockCore}
    {bitems cmap : Nat → List ListItemCore} {sm bm im : Nat → Metadata} {fuel : Nat}
    {core : SectionCore} {j : JsonSection}
    (hok : buildSection secT sblocks bitems cmap sm bm im fuel core = .ok j) :
    j.title = core.title ∧ j.ordinal = core.ordinal ∧ j.level = core.level ∧
      j.start = core.start ∧ j.endL = core.endL := by
  unfold buildSection at hok
  dsimp only at hok
  cases hbl : buildBlockList bitems cmap bm im fuel
      (if secT.get core.start = some core then sblocks core.start else []) with
  | error e => rw [hbl] at hok; exact Except.noConfusion hok
  | ok blocks =>
      rw [hbl] at hok
      have := Except.ok.inj hok
      subst this
      exact ⟨rfl, rfl, rfl, rfl, rfl⟩

theorem buildSectionList_rel {secT : Tree SectionCore} {sblocks : Nat → List BlockCore}
    {bitems cmap : Nat → List ListItemCore} {sm bm im : Nat → Metadata} {fuel : Nat} :
    ∀ {cs : List SectionCore} {js : List JsonSection},
      buildSectionList secT sblocks bitems cmap sm bm im fuel cs = .ok js →
      List.Forall₂ (fun (c : SectionCore) (j : JsonSection) =>
        j.title = c.title ∧ j.ordinal = c.ordinal ∧ j.level = c.level ∧
          j.start = c.start ∧ j.endL = c.endL) cs js := by
  intro cs
  induction cs with
  | nil =>
      intro js hok
      unfold buildSectionList at hok
      have := Except.ok.inj hok
      subst this
      exact List.Forall₂.nil
  | cons c cs ih =>
      intro js hok
      unfold buildSectionList at hok
      cases h1 : buildSection secT sblocks bitems cmap sm bm im fuel c with
      | error e => rw [h1] at hok; exact Except.noConfusion hok
      | ok j =>
          rw [h1] at hok
          cases h2 : buildSectionList secT sblocks bitems cmap sm bm im fuel cs with
          | error e => rw [h2] at hok; exact Except.noConfusion hok
          | ok js' =>
              rw [h2] at hok
              have := Except.ok.inj hok
              subst this
              exact List.Forall₂.cons (buildSection_fields h1) (ih h2)

theorem countP_of_forall₂ {α β : Type} {R : α → β → Prop} {p : α → Bool} {q : β → Bool} :
    ∀ {cs : List α} {js : List β}, List.Forall₂ R cs js →
      (∀ c j, R c j → q j = p c) → js.countP q = cs.countP p := by
  intro cs js hf hpq
  induction hf with
  | nil => rfl
  | cons hr _ ih =>
      rw [List.countP_cons, List.countP_cons, ih, hpq _ _ hr]

/-- Everything the success of markdownImport determines, phase by
phase. -/
theorem markdownImport_ok_elim {env : Env} {path markdown : String}
    {meta : MetadataCache} {stats : FileStats} {page : JsonPage}
    (hok : markdownImport env path markdown meta stats = .ok page) :
    ∃ sp bp sections,
      sectionsPhase path (splitLines markdown) (meta.headings.getD []) = .ok sp ∧
      blocksPhase env (splitLines markdown) (meta.sections.getD []) = .ok bp ∧
      (let lines := splitLines markdown
       let itmT := itemsPhase (meta.listItems.getD [])
       let pt := passTwo bp.1 itmT
       let st := attachPhase env lines sp.1 bp.1 itmT meta
       buildSectionList sp.1 (attachBlocks sp.1 bp.1) pt.1 pt.2 st.sec st.blk st.itm
         (itmT.length + 1) sp.2 = .ok sections ∧
       page = ⟨path, stats.ctime, stats.mtime, stats.size, getExtension path,
         0, lines.length, st.page.tags, st.page.links, st.page.infields,
         sections, meta.frontmatter.map (parseFrontmatterBlock env)⟩) := by
  unfold markdownImport at hok
  simp only at hok
  cases h0 : sectionsPhase path (splitLines markdown) (meta.headings.getD []) with
  | error e => rw [h0] at hok; exact Except.noConfusion hok
  | ok sp =>
      rw [h0] at hok
      simp only at hok
      cases h1 : blocksPhase env (splitLines markdown) (meta.sections.getD []) with
      | error e => rw [h1] at hok; exact Except.noConfusion hok
      | ok bp =>
          rw [h1] at hok
          simp only at hok
          cases h2 : buildSectionList sp.1 (attachBlocks sp.1 bp.1)
              (passTwo bp.1 (itemsPhase (meta.listItems.getD []))).1
              (passTwo bp.1 (itemsPhase (meta.listItems.getD []))).2
              (attachPhase env (splitLines markdown) sp.1 bp.1
                (itemsPhase (meta.listItems.getD [])) meta).sec
              (attachPhase env (splitLines markdown) sp.1 bp.1
                (itemsPhase (meta.listItems.getD [])) meta).blk
              (attachPhase env (splitLines markdown) sp.1 bp.1
                (itemsPhase (meta.listItems.getD [])) meta).itm
              ((itemsPhase (meta.listItems.getD [])).length + 1) sp.2 with
          | error e => rw [h2] at hok; exact Except.noConfusion hok
          | ok sections =>
              rw [h2] at hok
              refine ⟨sp, bp, sections, rfl, rfl, h2, ?_⟩
              exact (Except.ok.inj hok).symm

theorem page_sections_countP {env : Env} {path markdown : String}
    {meta : MetadataCache} {stats : FileStats} {page : JsonPage}
    (hok : markdownImport env path markdown meta stats = .ok page)
    {sp : Tree SectionCore × List SectionCore}
    (hsp : sectionsPhase path (splitLines markdown) (meta.headings.getD []) = .ok sp)
    (L : Nat) :
    page.sections.countP (coversLineJ L) = sp.2.countP (coversLine L) := by
  obtain ⟨sp2, bp, sections, hsp2, hbp, hrest⟩ := markdownImport_ok_elim hok
  rw [hsp2] at hsp
  have hspe := Except.ok.inj hsp
  subst hspe
  dsimp only at hrest
  obtain ⟨hbuild, hpage⟩ := hrest
  subst hpage
  dsimp only
  refine countP_of_forall₂ (buildSectionList_rel hbuild) ?_
  intro c j hr
  simp only [coversLineJ, coversLine, hr.2.2.2.1, hr.2.2.2.2]

/-! ## Claim C1 -/

/-- C1 (counterexample): a file whose line 0 is blank and whose single
heading starts at line 1 builds one section covering only lines 1-2,
so sections exist but line 0, inside the file, is contained in no
section: the partition law as claimed fails. -/
theorem C1_counterexample :
    (markdownImport cEnv "note.md" "\n# H\nx" cMetaC1 cStats).isOk = true ∧
    (pageSections (markdownImport cEnv "note.md" "\n# H\nx" cMetaC1 cStats)).length = 1 ∧
    (splitLines "\n# H\nx").length = 3 ∧
    (pageSections (markdownImport cEnv "note.md" "\n# H\nx" cMetaC1 cStats)).countP
      (coversLineJ 0) = 0 := by
  refine ⟨?_, ?_, ?_, ?_⟩ <;> rfl

/-- C1 (amended): for every import call the built sections are pairwise
non-overlapping (every line of the file is in at most one section), and
every line from the first sorted heading's start to the end of the file
is in exactly one section; a line of a leading gap before the first
heading is covered exactly once when the gap has a non-blank line (the
implicit section) and by no section when the gap is entirely blank; with
no headings at all, every line is covered exactly once when the file has
a non-blank line, and zero sections exist when the file is blank. -/
theorem C1_sections_partition {env : Env} {path markdown : String}
    {meta : MetadataCache} {stats : FileStats} {page : JsonPage}
    (hok : markdownImport env path markdown meta stats = .ok page) (L : Nat)
    (hL : L < (splitLines markdown).length) :
    page.sections.countP (coversLineJ L) ≤ 1 ∧
    (∀ h1 rest, sortHeadings (meta.headings.getD []) = h1 :: rest →
      (h1.start ≤ L → page.sections.countP (coversLineJ L) = 1) ∧
      (L < h1.start → page.sections.countP (coversLineJ L) =
        if emptylines (splitLines markdown) 0 h1.start then 0 else 1)) ∧
    (sortHeadings (meta.headings.getD []) = [] →
      page.sections.countP (coversLineJ L) =
        if emptylines (splitLines markdown) 0 (splitLines markdown).length
        then 0 else 1) := by
  obtain ⟨sp, bp, sections, hsp, hbp, -⟩ := markdownImport_ok_elim hok
  rw [page_sections_countP hok hsp L]
  cases hsort : sortHeadings (meta.headings.getD []) with
  | nil =>
      rw [sectionsPhase_nil path _ _ hsort] at hsp
      rw [← Except.ok.inj hsp]
      by_cases he : emptylines (splitLines markdown) 0 (splitLines markdown).length
      · simp only [if_pos he]
        refine ⟨by simp, ?_, ?_⟩
        · intro h1 rest hcontra
          exact absurd hcontra.symm (List.cons_ne_nil _ _)
        · intro _
          simp
      · simp only [if_neg he]
        have hcov : coversLine L (implicitCore path (splitLines markdown).length) = true := by
          simp only [coversLine, implicitCore, decide_eq_true_eq]
          omega
        refine ⟨?_, ?_, ?_⟩
        · simp [List.countP_cons, hcov]
        · intro h1 rest hcontra
          exact absurd hcontra.symm (List.cons_ne_nil _ _)
        · intro _
          simp [List.countP_cons, hcov]
  | cons h1 rest =>
      have hsorted : List.Pairwise (fun a b => a.start ≤ b.start) (h1 :: rest) := by
        rw [← hsort]
        exact sortHeadings_sorted _
      rw [sectionsPhase_cons_ok path _ _ h1 rest hsort hsp]
      dsimp only
      by_cases himp : 0 < h1.start ∧ ¬ emptylines (splitLines markdown) 0 h1.start
      · rw [if_pos himp]
        dsimp only
        rw [List.countP_append]
        by_cases hL1 : h1.start ≤ L
        · have hone := headCores_count_one (splitLines markdown).length L rest h1 0
            hsorted hL1 hL
          have hnocov : (List.countP (coversLine L) [implicitCore path h1.start]) = 0 := by
            simp only [List.countP_cons, List.countP_nil, coversLine, implicitCore]
            simp only [decide_eq_true_eq]
            rw [if_neg (by omega)]
          rw [hone, hnocov]
          refine ⟨le_refl _, ?_, ?_⟩
          · intro h1' rest' heq
            injection heq with he1 he2
            subst he1
            exact ⟨fun _ => rfl, fun hcontra => absurd hL1 (by omega)⟩
          · intro hcontra
            exact absurd hcontra (List.cons_ne_nil _ _)
        · have hzero := headCores_count_zero (splitLines markdown).length (h1 :: rest) 0 L
            (by
              intro x hx
              rcases List.mem_cons.mp hx with hx | hx
              · subst hx; omega
              · have := (List.pairwise_cons.mp hsorted).1 x hx
                omega)
          have hcov : (List.countP (coversLine L) [implicitCore path h1.start]) = 1 := by
            simp only [List.countP_cons, List.countP_nil, coversLine, implicitCore]
            simp only [decide_eq_true_eq]
            rw [if_pos (by omega)]
          rw [hzero, hcov]
          refine ⟨le_refl _, ?_, ?_⟩
          · intro h1' rest' heq
            injection heq with he1 he2
            subst he1
            refine ⟨fun hcontra => absurd hcontra hL1, fun _ => ?_⟩
            rw [if_neg himp.2]
          · intro hcontra
            exact absurd hcontra (List.cons_ne_nil _ _)
      · rw [if_neg himp]
        dsimp only
        by_cases hL1 : h1.start ≤ L
        · have hone := headCores_count_one (splitLines markdown).length L rest h1 0
            hsorted hL1 hL
          rw [hone]
          refine ⟨le_refl _, ?_, ?_⟩
          · intro h1' rest' heq
            injection heq with he1 he2
            subst he1
            exact ⟨fun _ => rfl, fun hcontra => absurd hL1 (by omega)⟩
          · intro hcontra
            exact absurd hcontra (List.cons_ne_nil _ _)
        · have hzero := headCores_count_zero (splitLines markdown).length (h1 :: rest) 0 L
            (by
              intro x hx
              rcases List.mem_cons.mp hx with hx | hx
              · subst hx; omega
              · have := (List.pairwise_cons.mp hsorted).1 x hx
                omega)
          rw [hzero]
          refine ⟨by omega, ?_, ?_⟩
          · intro h1' rest' heq
            injection heq with he1 he2
            subst he1
            refine ⟨fun hcontra => absurd hcontra hL1, fun _ => ?_⟩
            have hgap : emptylines (splitLines markdown) 0 h1.start = true := by
              by_contra hcontra2
              exact himp ⟨by omega, by simp [hcontra2]⟩
            rw [if_pos hgap]
          · intro hcontra
            exact absurd hcontra (List.cons_ne_nil _ _)

/-- C1 (witness): the amended partition theorem applied to the
counterexample file at line 1, inside the heading section. -/
theorem C1_witness :
    ∃ page, markdownImport cEnv "note.md" "\n# H\nx" cMetaC1 cStats = Except.ok page ∧
      (1 : Nat) < (splitLines "\n# H\nx").length ∧
      page.sections.countP (coversLineJ 1) ≤ 1 :=
  ⟨cPageC1, by rfl, by decide,
    (@C1_sections_partition cEnv "note.md" "\n# H\nx" cMetaC1 cStats cPageC1
      (by rfl) 1 (by decide)).1⟩

/-! ## Claim C7 -/

/-- C7: for every document with zero heading hints, if some line is
non-blank the page has exactly one section with ordinal 0, level 1,
title derived from the file's base name and position covering the whole
file; if every line is blank the page has zero sections. -/
theorem C7_no_headings {env : Env} {path markdown : String} {meta : MetadataCache}
    {stats : FileStats} {page : JsonPage}
    (hhead : meta.headings.getD [] = [])
    (hok : markdownImport env path markdown meta stats = .ok page) :
    (emptylines (splitLines markdown) 0 (splitLines markdown).length = true →
      page.sections = []) ∧
    (emptylines (splitLines markdown) 0 (splitLines markdown).length = false →
      ∃ s, page.sections = [s] ∧ s.ordinal = 0 ∧ s.level = 1 ∧
        s.title = getFileTitle path ∧ s.start = 0 ∧
        s.endL = (splitLines markdown).length) := by
  obtain ⟨sp, bp, sections, hsp, hbp, hrest⟩ := markdownImport_ok_elim hok
  dsimp only at hrest
  obtain ⟨hbuild, hpage⟩ := hrest
  subst hpage
  dsimp only
  have hsortnil : sortHeadings (meta.headings.getD []) = [] := by
    rw [hhead]
    rfl
  rw [sectionsPhase_nil path _ _ hsortnil] at hsp
  rw [← Except.ok.inj hsp] at hbuild
  by_cases he : emptylines (splitLines markdown) 0 (splitLines markdown).length
  · rw [if_pos he] at hbuild
    have hrel := buildSectionList_rel hbuild
    cases hrel
    exact ⟨fun _ => rfl, fun hcontra => absurd he (by rw [hcontra]; exact Bool.false_ne_true)⟩
  · rw [if_neg he] at hbuild
    have hrel := buildSectionList_rel hbuild
    cases hrel with
    | cons hr htail =>
        cases htail
        refine ⟨fun hcontra => absurd hcontra (by simp [he]), fun _ => ?_⟩
        refine ⟨_, rfl, ?_, ?_, ?_, ?_, ?_⟩
        · exact hr.2.1
        · exact hr.2.2.1
        · exact hr.1
        · exact hr.2.2.2.1
        · exact hr.2.2.2.2

/-! ## Claim C2 -/

/-- C2 (counterexample): coercion of an already-coerced date, duration
or link value does not return an equal value.  A coerced date is a
luxon DateTime instance, which is typeof object, not an Array and not
instanceof Date, so it re-enters the plain-object branch of the
coercion and comes back as a map literal of its enumerable fields; the
same happens to a luxon Duration and to a Link instance.  The claimed
idempotence fails on all three. -/
theorem C2_counterexample :
    parseFrontmatter cEnv (literalToJs (Literal.date ⟨0⟩)) =
      Literal.map [("ts", Literal.num 0)] ∧
    parseFrontmatter cEnv (literalToJs (Literal.date ⟨0⟩)) ≠ Literal.date ⟨0⟩ ∧
    parseFrontmatter cEnv (literalToJs (Literal.dur ⟨0⟩)) ≠ Literal.dur ⟨0⟩ ∧
    parseFrontmatter cEnv (literalToJs (Literal.link ⟨"a", none⟩)) ≠
      Literal.link ⟨"a", none⟩ := by
  refine ⟨rfl, ?_, ?_, ?_⟩
  · intro hc
    rw [show parseFrontmatter cEnv (literalToJs (Literal.date ⟨0⟩)) =
        Literal.map [("ts", Literal.num 0)] from rfl] at hc
    exact Literal.noConfusion hc
  · intro hc
    rw [show parseFrontmatter cEnv (literalToJs (Literal.dur ⟨0⟩)) =
        Literal.map [("values", Literal.num 0)] from rfl] at hc
    exact Literal.noConfusion hc
  · intro hc
    rw [show parseFrontmatter cEnv (literalToJs (Literal.link ⟨"a", none⟩)) =
        Literal.map [("path", Literal.str "a"), ("display", Literal.null)] from rfl] at hc
    exact Literal.noConfusion hc

/-- C2 (amended): the coercion is total - every untyped value, for
every choice of the three string parsers, coerces to some literal and
no input raises - and idempotence holds for already-coerced null,
boolean and number values; but an already-coerced date, duration or
link value is a class instance that falls into the plain-object branch
and coerces to the map literal of its key-wise coerced enumerable
fields, not to an equal value. -/
theorem C2_coercion :
    (∀ env v, ∃ l, parseFrontmatter env v = l) ∧
    (∀ env, parseFrontmatter env (literalToJs Literal.null) = Literal.null) ∧
    (∀ env b, parseFrontmatter env (literalToJs (Literal.bool b)) = Literal.bool b) ∧
    (∀ env n, parseFrontmatter env (literalToJs (Literal.num n)) = Literal.num n) ∧
    (∀ env d fs, parseFrontmatter env (JsValue.luxonDateTime d fs) =
      Literal.map (parseFrontmatterPairs env fs)) ∧
    (∀ env d fs, parseFrontmatter env (JsValue.luxonDuration d fs) =
      Literal.map (parseFrontmatterPairs env fs)) ∧
    (∀ env l fs, parseFrontmatter env (JsValue.linkObj l fs) =
      Literal.map (parseFrontmatterPairs env fs)) :=
  ⟨fun _ v => ⟨parseFrontmatter _ v, rfl⟩, fun _ => rfl, fun _ _ => rfl, fun _ _ => rfl,
    fun _ _ _ => rfl, fun _ _ _ => rfl, fun _ _ _ => rfl⟩

/-! ## Claim C9 -/

theorem recordSet_mem {k' : String} {e : FrontEntry} :
    ∀ (acc : List (String × FrontEntry)) (p : String × FrontEntry),
      p ∈ recordSet acc k' e → p = (k', e) ∨ p ∈ acc := by
  intro acc
  induction acc with
  | nil =>
      intro p hp
      simpa [recordSet] using hp
  | cons q rest ih =>
      intro p hp
      rw [recordSet] at hp
      by_cases hq : q.1 = k'
      · rw [if_pos hq] at hp
        rcases List.mem_cons.mp hp with hp | hp
        · left
          rw [hp, hq]
        · right
          exact List.mem_cons_of_mem _ hp
      · rw [if_neg hq] at hp
        rcases List.mem_cons.mp hp with hp | hp
        · exact Or.inr (hp ▸ List.mem_cons_self _ _)
        · rcases ih p hp with hp | hp
          · exact Or.inl hp
          · exact Or.inr (List.mem_cons_of_mem _ hp)

theorem recordSet_find (acc : List (String × FrontEntry)) (k' : String)
    (e : FrontEntry) (k : String) :
    (recordSet acc k' e).find? (fun p => p.1 = k) =
      if k = k' then some (k', e) else acc.find? (fun p => p.1 = k) := by
  induction acc with
  | nil =>
      rw [recordSet]
      by_cases h : k = k'
      · rw [if_pos h, List.find?_cons_of_pos _ (by simp [h])]
      · rw [if_neg h, List.find?_cons_of_neg _ (by simp; exact fun hc => h hc.symm)]
  | cons q rest ih =>
      rw [recordSet]
      by_cases hq : q.1 = k'
      · rw [if_pos hq]
        by_cases h : k = k'
        · rw [if_pos h, List.find?_cons_of_pos _ (by simp [h, hq])]
          rw [show ((q.1, e) : String × FrontEntry) = (k', e) by rw [hq]]
        · rw [if_neg h]
          rw [List.find?_cons_of_neg _ (by simp [hq]; exact fun hc => h hc.symm)]
          rw [List.find?_cons_of_neg _ (by simp [hq]; exact fun hc => h hc.symm)]
      · rw [if_neg hq]
        by_cases hqk : q.1 = k
        · have h : ¬ k = k' := fun hc => hq (hqk.trans hc)
          rw [if_neg h, List.find?_cons_of_pos _ (by simp [hqk]),
            List.find?_cons_of_pos _ (by simp [hqk])]
        · rw [List.find?_cons_of_neg _ (by simp [hqk]), ih]
          by_cases h : k = k'
          · rw [if_pos h, if_pos h]
          · rw [if_neg h, if_neg h, List.find?_cons_of_neg _ (by simp [hqk])]

theorem parseFrontmatterBlock_find_aux (env : Env) :
    ∀ (block : List (String × JsValue)) (acc : List (String × FrontEntry)) (k : String),
      ((block.foldl (fun acc kv =>
          recordSet acc (strLower kv.1) ⟨kv.1, parseFrontmatter env kv.2, kv.2⟩) acc).find?
        (fun p => p.1 = k)) =
      match block.reverse.find? (fun kv => strLower kv.1 = k) with
      | some kv => some (strLower kv.1, ⟨kv.1, parseFrontmatter env kv.2, kv.2⟩)
      | none => acc.find? (fun p => p.1 = k) := by
  intro block
  induction block with
  | nil => intro acc k; simp
  | cons kv rest ih =>
      intro acc k
      simp only [List.foldl_cons, List.reverse_cons]
      rw [ih]
      cases hfind : rest.reverse.find? (fun kv => strLower kv.1 = k) with
      | some kv' =>
          rw [show (rest.reverse ++ [kv]).find? (fun kv => strLower kv.1 = k) = some kv' by
            rw [List.find?_append, hfind]
            rfl]
      | none =>
          rw [show (rest.reverse ++ [kv]).find? (fun kv => strLower kv.1 = k) =
              [kv].find? (fun kv => strLower kv.1 = k) by
            rw [List.find?_append, hfind]
            rfl]
          rw [recordSet_find]
          by_cases h : strLower kv.1 = k
          · simp [List.find?_cons, h]
          · have h2 : ¬ k = strLower kv.1 := fun hc => h hc.symm
            simp [List.find?_cons, h, h2]

/-- C9: in the frontmatter map of every built page and in the data map
of every data block (both produced by parseFrontmatterBlock), every
entry sits at the lowercased form of a source key and keeps the
original-case key in its display-key field; and the entry found at any
key is exactly the one produced by the last source key lowercasing to
it, so of two source keys differing only in case the later-enumerated
one survives. -/
theorem C9_lowercase_keys (env : Env) (block : List (String × JsValue)) :
    (∀ p ∈ parseFrontmatterBlock env block,
      ∃ kv ∈ block, p.1 = strLower kv.1 ∧ p.2.key = kv.1 ∧
        p.2.value = parseFrontmatter env kv.2 ∧ p.2.raw = kv.2) ∧
    (∀ k, (parseFrontmatterBlock env block).find? (fun p => p.1 = k) =
      match block.reverse.find? (fun kv => strLower kv.1 = k) with
      | some kv => some (strLower kv.1, ⟨kv.1, parseFrontmatter env kv.2, kv.2⟩)
      | none => none) := by
  constructor
  · have hgen : ∀ (bl : List (String × JsValue)) (acc : List (String × FrontEntry))
        (p : String × FrontEntry),
        p ∈ bl.foldl (fun acc kv =>
          recordSet acc (strLower kv.1) ⟨kv.1, parseFrontmatter env kv.2, kv.2⟩) acc →
        p ∈ acc ∨ ∃ kv ∈ bl,
          p = (strLower kv.1, ⟨kv.1, parseFrontmatter env kv.2, kv.2⟩) := by
      intro bl
      induction bl with
      | nil =>
          intro acc p hp
          exact Or.inl hp
      | cons kv rest ih =>
          intro acc p hp
          rw [List.foldl_cons] at hp
          rcases ih _ p hp with hp' | ⟨kv', hkv', he⟩
          · rcases recordSet_mem _ p hp' with he | hm
            · exact Or.inr ⟨kv, List.mem_cons_self _ _, he⟩
            · exact Or.inl hm
          · exact Or.inr ⟨kv', List.mem_cons_of_mem _ hkv', he⟩
    intro p hp
    rcases hgen block [] p hp with hc | ⟨kv, hkv, he⟩
    · exact absurd hc (List.not_mem_nil p)
    · exact ⟨kv, hkv, congrArg Prod.fst he, by rw [he], by rw [he], by rw [he]⟩
  · intro k
    have := parseFrontmatterBlock_find_aux env block [] k
    rw [parseFrontmatterBlock] at *
    rw [this]
    cases block.reverse.find? (fun kv => strLower kv.1 = k) with
    | some kv => rfl
    | none => rfl

/-! ## Claim C6 -/

/-- A successful fence scan never captures a line terminator: the
dot-star capture stops at the first one. -/
theorem fenceScan_capture_no_term :
    ∀ (cs : List Char) (anchor : Bool) (rest : String),
      fenceScanAux anchor cs = some rest → ∀ c ∈ rest.data, isLineTerm c = false := by
  intro cs
  induction cs with
  | nil =>
      intro anchor rest h
      rw [fenceScanAux] at h
      exact Option.noConfusion h
  | cons c0 cs ih =>
      intro anchor rest h
      rw [fenceScanAux] at h
      by_cases hcond : (anchor && (listStarts (c0 :: cs) ("```".data) ||
          listStarts (c0 :: cs) ("~~~".data))) = true
      · rw [if_pos hcond] at h
        have he := Option.some.inj h
        subst he
        intro c hc
        have hpc := List.mem_takeWhile_imp hc
        simpa using hpc
      · rw [if_neg hcond] at h
        exact ih (isLineTerm c0) rest h

/-- A scan that is not at an anchor finds nothing in a terminator-free
suffix: no later caret anchor ever arises. -/
theorem fenceScan_no_anchor :
    ∀ cs : List Char, (∀ c ∈ cs, isLineTerm c = false) →
      fenceScanAux false cs = none := by
  intro cs
  induction cs with
  | nil => intro _; rfl
  | cons c rest ih =>
      intro hs
      rw [fenceScanAux]
      rw [if_neg (by simp)]
      rw [hs c (List.mem_cons_self _ _)]
      exact ih (fun c2 hc2 => hs c2 (List.mem_cons_of_mem _ hc2))

/-- A leading run of at least n copies of a character is a replicate
prefix. -/
theorem takeWhile_run_starts (g : Char) :
    ∀ (n : Nat) (cs : List Char),
      n ≤ (cs.takeWhile (fun x => x = g)).length →
      listStarts cs (List.replicate n g) = true := by
  intro n
  induction n with
  | zero =>
      intro cs _
      cases cs <;> rfl
  | succ n ih =>
      intro cs hle
      cases cs with
      | nil =>
          rw [show ([] : List Char).takeWhile (fun x => x = g) = [] from rfl] at hle
          simp at hle
      | cons a as =>
          by_cases ha : a = g
          · rw [List.takeWhile_cons, if_pos (by simp [ha])] at hle
            simp only [List.length_cons] at hle
            rw [List.replicate_succ]
            rw [show listStarts (a :: as) (g :: List.replicate n g) =
              (decide (a = g) && listStarts as (List.replicate n g)) from rfl]
            simp [ha, ih as (by omega)]
          · rw [List.takeWhile_cons, if_neg (by simp [ha])] at hle
            simp at hle

/-- The first three characters of a line opening with a three-character
run. -/
theorem listStarts3_dest (cs : List Char) (g : Char)
    (h : listStarts cs [g, g, g] = true) :
    ∃ t3, cs = g :: g :: g :: t3 := by
  match cs, h with
  | [], h => exact Bool.noConfusion h
  | [a], h =>
      rw [show listStarts [a] [g, g, g] = (decide (a = g) && false) from rfl] at h
      simp at h
  | [a, b], h =>
      rw [show listStarts [a, b] [g, g, g] =
        (decide (a = g) && (decide (b = g) && false)) from rfl] at h
      simp at h
  | a :: b :: c :: t3, h =>
      rw [show listStarts (a :: b :: c :: t3) [g, g, g] =
        (decide (a = g) && (decide (b = g) && (decide (c = g) && listStarts t3 [])))
        from rfl] at h
      simp only [Bool.and_eq_true, decide_eq_true_eq] at h
      obtain ⟨h1, h2, h3, -⟩ := h
      exact ⟨t3, by rw [h1, h2, h3]⟩

/-- The spec-side fence reading accepts a line whose first three
characters are the same fence character. -/
theorem specFence_isSome_of_lead3 (s : String) (g : Char) (t3 : List Char)
    (hg : g = Char.ofNat 96 ∨ g = Char.ofNat 126)
    (he : s.data = g :: g :: g :: t3) :
    (specFenceLanguages s).isSome = true := by
  simp only [specFenceLanguages, he, List.head?_cons]
  rw [if_pos hg]
  rw [show (g :: g :: g :: t3).takeWhile (fun c => c = g) =
      g :: g :: g :: t3.takeWhile (fun c => c = g) from by
    simp [List.takeWhile_cons]]
  rw [if_pos (by simp only [List.length_cons]; omega)]
  rfl

/-- On a first line free of line terminators - every line of an
LF-separated file - the fence test of the source accepts exactly the
lines accepted by the claim's three-or-more-fence-characters pattern: a
line starts with three identical fence characters iff its maximal
leading fence-character run has length at least three.  (With an
embedded carriage return the two diverge: the source's multiline caret
can also match after it.) -/
theorem fence_cond_iff (s : String)
    (hterm : ∀ c ∈ s.data, isLineTerm c = false) :
    (fenceMatch s).isSome = (specFenceLanguages s).isSome := by
  by_cases hpre : (listStarts s.data ("```".data) || listStarts s.data ("~~~".data)) = true
  · cases hd : s.data with
    | nil =>
        rw [hd] at hpre
        exact absurd hpre (by decide)
    | cons c rest =>
        rw [hd] at hpre
        have hlhs : (fenceMatch s).isSome = true := by
          rw [show fenceMatch s = fenceScanAux true s.data from rfl, hd]
          rw [fenceScanAux, if_pos (by simp only [Bool.true_and]; exact hpre)]
          rfl
        rw [hlhs]
        have hor : listStarts (c :: rest) ("```".data) = true ∨
            listStarts (c :: rest) ("~~~".data) = true := by
          simpa using hpre
        rcases hor with hbt | htl
        · obtain ⟨t3, he3⟩ := listStarts3_dest (c :: rest) (Char.ofNat 96)
            (by
              rw [show ([Char.ofNat 96, Char.ofNat 96, Char.ofNat 96] : List Char) =
                ("```" : String).data from rfl]
              exact hbt)
          exact (specFence_isSome_of_lead3 s (Char.ofNat 96) t3 (Or.inl rfl)
            (by rw [hd, he3])).symm
        · obtain ⟨t3, he3⟩ := listStarts3_dest (c :: rest) (Char.ofNat 126)
            (by
              rw [show ([Char.ofNat 126, Char.ofNat 126, Char.ofNat 126] : List Char) =
                ("~~~" : String).data from rfl]
              exact htl)
          exact (specFence_isSome_of_lead3 s (Char.ofNat 126) t3 (Or.inr rfl)
            (by rw [hd, he3])).symm
  · cases hd : s.data with
    | nil =>
        have hlhs : fenceMatch s = none := by
          rw [show fenceMatch s = fenceScanAux true s.data from rfl, hd]
          rfl
        have hrhs : specFenceLanguages s = none := by
          simp only [specFenceLanguages, hd]
          rfl
        rw [hlhs, hrhs]
        rfl
    | cons c rest =>
        rw [hd] at hpre hterm
        have hlhs : fenceMatch s = none := by
          rw [show fenceMatch s = fenceScanAux true s.data from rfl, hd]
          rw [fenceScanAux]
          rw [if_neg (by simp only [Bool.true_and]; exact hpre)]
          rw [hterm c (List.mem_cons_self _ _)]
          exact fenceScan_no_anchor rest
            (fun c2 hc2 => hterm c2 (List.mem_cons_of_mem _ hc2))
        have hrhs : specFenceLanguages s = none := by
          simp only [specFenceLanguages, hd, List.head?_cons]
          by_cases hfc : c = Char.ofNat 96 ∨ c = Char.ofNat 126
          · rw [if_pos hfc]
            rw [if_neg ?_]
            intro h3
            have hrun := takeWhile_run_starts c 3 (c :: rest) h3
            rcases hfc with hc | hc
            · apply hpre
              rw [Bool.or_eq_true]
              left
              rw [show ("```" : String).data = List.replicate 3 c from by subst hc; decide]
              exact hrun
            · apply hpre
              rw [Bool.or_eq_true]
              right
              rw [show ("~~~" : String).data = List.replicate 3 c from by subst hc; decide]
              exact hrun
          · rw [if_neg hfc]
        rw [hlhs, hrhs]
        rfl

/-- C6 (counterexample): first, a fenced block whose first line is four
backticks - under the claim's reading the fence is the whole run with
no language list, so the languages must be empty, while the source
splits everything after the first three characters and the fourth
backtick lands in the language list.  Second, the line-terminator
behavior of the fence regex: a trailing carriage return (every fenced
line of a CRLF file) is excluded from the capture, and the multiline
caret also matches a fence after an embedded carriage return. -/
theorem C6_counterexample :
    (firstBlock (markdownImport cEnv "f.md" "````\nx\n````" cMetaC6 cStats)).map
      (fun b => (b.languages, b.style)) = some (["`"], "fenced") ∧
    specFenceLanguages "````" = some [] ∧
    (["`"] : List String) ≠ ([] : List String) ∧
    fenceMatch "```js\r" = some "js" ∧
    fenceMatch "x\r```js" = some "js" := by
  refine ⟨by rfl, by rfl, by simp, by rfl, by rfl⟩

/-- C6 (amended): for a code-type hint that is not a yaml:data block,
the classification follows the first match of the fence regex on the
block's first line: at the first caret anchor (the line start, or just
after an embedded line terminator) opening with three identical fence
characters, the block becomes a fenced code block whose content
position excludes the opening fence line and the closing line and
whose languages are the comma-split of the capture - everything after
the first THREE fence characters of that anchor up to the next line
terminator, so extra fence characters land in the language list while
a trailing carriage return does not - empty when the capture is empty;
with no such anchor the block is an indented code block whose content
position is the whole block position. -/
theorem C6_code_classification (env : Env) (lines : List String) (ord : Nat)
    (b : BlockHint) (s : String) (hcode : b.typeTag = "code")
    (hline : lines.get? b.start = some s)
    (hyaml : yamlDataTest (lines.get? b.start) = false) :
    (∀ rest, fenceMatch s = some rest →
      (∀ c ∈ rest.data, isLineTerm c = false) ∧
      classifyBlock env lines ord b = .ok (.codeB b.start b.endL ord
        (if rest ≠ "" then splitComma rest else []) "fenced"
        ((b.start : Int) + 1) ((b.endL : Int) - 1) b.id)) ∧
    ((listStarts s.data ("```".data) || listStarts s.data ("~~~".data)) = true →
      fenceMatch s = some (String.mk ((s.data.drop 3).takeWhile
        (fun c => !(isLineTerm c))))) ∧
    (fenceMatch s = none →
      classifyBlock env lines ord b = .ok (.codeB b.start b.endL ord [] "indent"
        b.start b.endL b.id)) := by
  rw [hline] at hyaml
  have hred : classifyBlock env lines ord b =
      match fenceMatch s with
      | none => .ok (.codeB b.start b.endL ord [] "indent" b.start b.endL b.id)
      | some rest =>
          .ok (.codeB b.start b.endL ord
            (if rest ≠ "" then splitComma rest else []) "fenced"
            ((b.start : Int) + 1) ((b.endL : Int) - 1) b.id) := by
    unfold classifyBlock
    dsimp only
    rw [hcode, hline]
    rw [if_neg (by intro h; exact absurd h (by decide))]
    rw [if_neg (by
      intro h
      rw [hyaml] at h
      exact Bool.noConfusion h.2)]
    rw [if_pos rfl]
  refine ⟨?_, ?_, ?_⟩
  · intro rest hfm
    refine ⟨fenceScan_capture_no_term s.data true rest hfm, ?_⟩
    rw [hred, hfm]
  · intro hpre
    cases hd : s.data with
    | nil =>
        rw [hd] at hpre
        exact absurd hpre (by decide)
    | cons c rest =>
        rw [hd] at hpre
        rw [show fenceMatch s = fenceScanAux true s.data from rfl, hd]
        rw [fenceScanAux, if_pos (by simp only [Bool.true_and]; exact hpre)]
  · intro hfm
    rw [hred, hfm]

/-- C6 (witness): the classification theorem applied to a fenced
two-language block. -/
theorem C6_witness :
    fenceMatch "```js,py" = some "js,py" ∧
    classifyBlock cEnv ["```js,py", "x", "```"] 1 ⟨"code", 0, 2, none⟩ =
      .ok (.codeB 0 2 1 ["js", "py"] "fenced" 1 1 none) := by
  refine ⟨by rfl, ?_⟩
  have h := (C6_code_classification cEnv ["```js,py", "x", "```"] 1 ⟨"code", 0, 2, none⟩
    "```js,py" rfl rfl (by rfl)).1 "js,py" (by rfl)
  rw [h.2]
  rfl

/-! ## Claim C4 -/

theorem itemsPhase_eq (hints : List ListItemHint) :
    itemsPhase hints = tfold ListItemCore.start [] (hints.map itemCore) := by
  unfold itemsPhase tfold
  rw [List.foldl_map]
  rfl

theorem itemsPhase_sorted (hints : List ListItemHint) :
    TSorted (itemsPhase hints) := by
  rw [itemsPhase_eq]
  exact tfold_sorted _ _ tsorted_nil

theorem itemsPhase_keyed (hints : List ListItemHint) :
    TKeyed ListItemCore.start (itemsPhase hints) := by
  rw [itemsPhase_eq]
  exact tfold_keyed _ _ tsorted_nil (fun p hp => absurd hp (List.not_mem_nil p))

theorem values_nodup {α : Type} {keyf : α → Nat} {t : Tree α}
    (hs : TSorted t) (hk : TKeyed keyf t) : t.values.Nodup := by
  have hp : List.Pairwise (fun p q : Nat × α => p.2 ≠ q.2) t := by
    refine List.Pairwise.imp_of_mem ?_ hs
    intro p q hpm hqm hlt he
    have h1 := hk p hpm
    have h2 := hk q hqm
    rw [he] at h1
    omega
  unfold Tree.values
  exact List.pairwise_map.mpr hp

theorem mupdate_count {α : Type} [DecidableEq α] (m : Nat → List α) (key : Nat)
    (x : α) (k : Nat) (c : α) :
    ((mupdate m key x) k).count c =
      (m k).count c + (if k = key ∧ c = x then 1 else 0) := by
  unfold mupdate
  by_cases hk : k = key
  · rw [if_pos hk, List.count_append]
    by_cases hc : c = x
    · simp [hc, hk]
    · simp [hc, hk, List.count_singleton']
  · rw [if_neg hk]
    simp [hk]

theorem passTwoStep_count (blkT : Tree BlockCore) (itmT : Tree ListItemCore)
    (acc : (Nat → List ListItemCore) × (Nat → List ListItemCore))
    (c0 : ListItemCore) (k : Nat) (c : ListItemCore) :
    ((passTwoStep blkT itmT acc c0).1 k).count c =
      (acc.1 k).count c +
        (if c = c0 ∧ c0.parent < 0 ∧ (-c0.parent).toNat = k ∧
            isListAt blkT ((-c0.parent).toNat) = true then 1 else 0) ∧
    ((passTwoStep blkT itmT acc c0).2 k).count c =
      (acc.2 k).count c +
        (if c = c0 ∧ ¬ c0.parent < 0 ∧ c0.parent.toNat = k ∧
            (itmT.get c0.parent.toNat).isSome = true then 1 else 0) := by
  unfold passTwoStep
  by_cases hneg : c0.parent < 0
  · rw [if_pos hneg]
    cases hget : blkT.get (-c0.parent).toNat with
    | some core =>
        dsimp only
        by_cases hlist : core.isList = true
        · rw [if_pos hlist]
          constructor
          · rw [mupdate_count]
            congr 1
            have hLA : isListAt blkT ((-c0.parent).toNat) = true := by
              unfold isListAt
              rw [hget]
              exact hlist
            by_cases hc : c = c0 <;> by_cases hk : k = (-c0.parent).toNat <;>
              simp [hc, hk, hneg, hLA, eq_comm]
          · simp [hneg]
        · rw [if_neg hlist]
          have hLA : isListAt blkT ((-c0.parent).toNat) = false := by
            unfold isListAt
            rw [hget]
            exact eq_false_of_ne_true hlist
          constructor
          · simp [hLA]
          · simp [hneg]
    | none =>
        dsimp only
        have hLA : isListAt blkT ((-c0.parent).toNat) = false := by
          unfold isListAt
          rw [hget]
        constructor
        · simp [hLA]
        · simp [hneg]
  · rw [if_neg hneg]
    cases hget : itmT.get c0.parent.toNat with
    | some core =>
        dsimp only
        constructor
        · simp [hneg]
        · rw [mupdate_count]
          congr 1
          have hS : (itmT.get c0.parent.toNat).isSome = true := by rw [hget]; rfl
          by_cases hc : c = c0 <;> by_cases hk : k = c0.parent.toNat <;>
            simp [hc, hk, hneg, hS, eq_comm]
    | none =>
        dsimp only
        have hS : (itmT.get c0.parent.toNat).isSome = false := by rw [hget]; rfl
        constructor
        · simp [hneg]
        · simp [hS]

theorem passTwo_fold_count (blkT : Tree BlockCore) (itmT : Tree ListItemCore) :
    ∀ (vs : List ListItemCore)
      (acc : (Nat → List ListItemCore) × (Nat → List ListItemCore)),
      vs.Nodup →
      ∀ k c,
        ((vs.foldl (passTwoStep blkT itmT) acc).1 k).count c =
          (acc.1 k).count c +
            (if c ∈ vs ∧ c.parent < 0 ∧ (-c.parent).toNat = k ∧
                isListAt blkT ((-c.parent).toNat) = true then 1 else 0) ∧
        ((vs.foldl (passTwoStep blkT itmT) acc).2 k).count c =
          (acc.2 k).count c +
            (if c ∈ vs ∧ ¬ c.parent < 0 ∧ c.parent.toNat = k ∧
                (itmT.get c.parent.toNat).isSome = true then 1 else 0) := by
  intro vs
  induction vs with
  | nil =>
      intro acc _ k c
      constructor <;> simp
  | cons c0 rest ih =>
      intro acc hnd k c
      obtain ⟨hc0, hrest⟩ := List.nodup_cons.mp hnd
      rw [List.foldl_cons]
      obtain ⟨ih1, ih2⟩ := ih (passTwoStep blkT itmT acc c0) hrest k c
      obtain ⟨hs1, hs2⟩ := passTwoStep_count blkT itmT acc c0 k c
      constructor
      · rw [ih1, hs1]
        by_cases hcc : c = c0
        · subst hcc
          have hnr : c ∉ rest := hc0
          simp only [List.mem_cons, true_or, true_and, hnr, false_and, if_false]
          by_cases hcond : c.parent < 0 ∧ (-c.parent).toNat = k ∧
              isListAt blkT ((-c.parent).toNat) = true
          · simp [hcond]
          · simp [hcond]
        · simp only [hcc, false_and, if_false, List.mem_cons, hcc, false_or]
          omega
      · rw [ih2, hs2]
        by_cases hcc : c = c0
        · subst hcc
          have hnr : c ∉ rest := hc0
          simp only [List.mem_cons, true_or, true_and, hnr, false_and, if_false]
          by_cases hcond : ¬ c.parent < 0 ∧ c.parent.toNat = k ∧
              (itmT.get c.parent.toNat).isSome = true
          · simp [hcond]
          · simp [hcond]
        · simp only [hcc, false_and, if_false, List.mem_cons, hcc, false_or]
          omega

/-- C4: after the second list pass, an item with a negative parent
reference is appended exactly once to the item list of the block whose
start line is the negated value when that block exists in the block
tree and is a list block, and to no other block and to no item's
children; it is appended nowhere when no such block exists or it is not
a list block.  An item with a non-negative parent reference is appended
exactly once to the child list of the item starting at that line when
one exists, and to no other parent; it is appended nowhere when no such
item exists. -/
theorem C4_list_hierarchy (blkT : Tree BlockCore) (hints : List ListItemHint)
    (k : Nat) (c : ListItemCore) :
    ((passTwo blkT (itemsPhase hints)).1 k).count c =
      (if c ∈ (itemsPhase hints).values ∧ c.parent < 0 ∧ (-c.parent).toNat = k ∧
          isListAt blkT ((-c.parent).toNat) = true then 1 else 0) ∧
    ((passTwo blkT (itemsPhase hints)).2 k).count c =
      (if c ∈ (itemsPhase hints).values ∧ ¬ c.parent < 0 ∧ c.parent.toNat = k ∧
          ((itemsPhase hints).get c.parent.toNat).isSome = true then 1 else 0) := by
  have hnd : (itemsPhase hints).values.Nodup :=
    values_nodup (itemsPhase_sorted hints) (itemsPhase_keyed hints)
  obtain ⟨h1, h2⟩ := passTwo_fold_count blkT (itemsPhase hints)
    (itemsPhase hints).values (fun _ => [], fun _ => []) hnd k c
  constructor
  · rw [show passTwo blkT (itemsPhase hints) =
      (itemsPhase hints).values.foldl (passTwoStep blkT (itemsPhase hints))
        (fun _ => [], fun _ => []) from rfl, h1]
    simp
  · rw [show passTwo blkT (itemsPhase hints) =
      (itemsPhase hints).values.foldl (passTwoStep blkT (itemsPhase hints))
        (fun _ => [], fun _ => []) from rfl, h2]
    simp

/-- C4 (witness): a two-item list (a root under the list block at line
1 and its child) evaluated through both passes. -/
theorem C4_witness :
    ((passTwo [(1, BlockCore.listB 1 2 1 none)]
        (itemsPhase [⟨1, 2, -1, none, none⟩, ⟨2, 3, 1, none, none⟩])).1 1).count
      ⟨1, 2, -1, none, none⟩ = 1 ∧
    ((passTwo [(1, BlockCore.listB 1 2 1 none)]
        (itemsPhase [⟨1, 2, -1, none, none⟩, ⟨2, 3, 1, none, none⟩])).2 1).count
      ⟨2, 3, 1, none, none⟩ = 1 := by
  constructor
  · rw [(C4_list_hierarchy [(1, BlockCore.listB 1 2 1 none)]
      [⟨1, 2, -1, none, none⟩, ⟨2, 3, 1, none, none⟩] 1 ⟨1, 2, -1, none, none⟩).1]
    decide
  · rw [(C4_list_hierarchy [(1, BlockCore.listB 1 2 1 none)]
      [⟨1, 2, -1, none, none⟩, ⟨2, 3, 1, none, none⟩] 1 ⟨2, 3, 1, none, none⟩).2]
    decide

/-! ## Block loop lemmas -/

theorem classifyBlock_fields {env : Env} {lines : List String} {ord : Nat}
    {b : BlockHint} {core : BlockCore}
    (h : classifyBlock env lines ord b = .ok core) :
    core.start = b.start ∧ core.endL = b.endL ∧ core.ordinal = ord := by
  unfold classifyBlock at h
  dsimp only at h
  by_cases h1 : b.typeTag = "list"
  · rw [if_pos h1] at h
    have := Except.ok.inj h
    subst this
    exact ⟨rfl, rfl, rfl⟩
  · rw [if_neg h1] at h
    by_cases h2 : b.typeTag = "code" ∧ yamlDataTest (lines.get? b.start) = true
    · rw [if_pos h2] at h
      cases hy : env.yamlParse (replaceTabs (sliceJoin lines (b.start + 1) b.endL)) with
      | error e =>
          rw [hy] at h
          exact Except.noConfusion h
      | ok kvs =>
          rw [hy] at h
          have := Except.ok.inj h
          subst this
          exact ⟨rfl, rfl, rfl⟩
    · rw [if_neg h2] at h
      by_cases h3 : b.typeTag = "code"
      · rw [if_pos h3] at h
        cases hl : lines.get? b.start with
        | none =>
            rw [hl] at h
            exact Except.noConfusion h
        | some s =>
            rw [hl] at h
            dsimp only at h
            cases hf : fenceMatch s with
            | none =>
                rw [hf] at h
                have := Except.ok.inj h
                subst this
                exact ⟨rfl, rfl, rfl⟩
            | some rest =>
                rw [hf] at h
                have := Except.ok.inj h
                subst this
                exact ⟨rfl, rfl, rfl⟩
      · rw [if_neg h3] at h
        have := Except.ok.inj h
        subst this
        exact ⟨rfl, rfl, rfl⟩

theorem blockLoop_inv (env : Env) (lines : List String) :
    ∀ (hints : List BlockHint) (ord : Nat) (t : Tree BlockCore)
      (res : Tree BlockCore × Nat),
      blockLoop env lines hints ord t = .ok res →
      TSorted t → TKeyed BlockCore.start t →
      TSorted res.1 ∧ TKeyed BlockCore.start res.1 ∧
        res.2 = ord + (hints.filter (fun b => ¬ b.typeTag = "heading")).length ∧
        (∀ p ∈ res.1, p ∈ t ∨ ∃ b ∈ hints, p.1 = b.start) := by
  intro hints
  induction hints with
  | nil =>
      intro ord t res hok hs hk
      have := Except.ok.inj hok
      subst this
      exact ⟨hs, hk, by simp, fun p hp => Or.inl hp⟩
  | cons b rest ih =>
      intro ord t res hok hs hk
      rw [blockLoop] at hok
      by_cases hb : b.typeTag = "heading"
      · rw [if_pos hb] at hok
        obtain ⟨r1, r2, r3, r4⟩ := ih ord t res hok hs hk
        refine ⟨r1, r2, ?_, ?_⟩
        · rw [r3]
          congr 1
          rw [List.filter_cons_of_neg (by simp [hb])]
        · intro p hp
          rcases r4 p hp with hp' | ⟨b', hb', he⟩
          · exact Or.inl hp'
          · exact Or.inr ⟨b', List.mem_cons_of_mem _ hb', he⟩
      · rw [if_neg hb] at hok
        cases hc : classifyBlock env lines ord b with
        | error e =>
            rw [hc] at hok
            exact Except.noConfusion hok
        | ok core =>
            rw [hc] at hok
            obtain ⟨hcs, _, _⟩ := classifyBlock_fields hc
            have hs' : TSorted (t.set b.start core) := set_sorted _ _ hs
            have hk' : TKeyed BlockCore.start (t.set b.start core) := by
              intro p hp
              rcases (set_mem hs).mp hp with he | ⟨hm, _⟩
              · rw [he]
                exact hcs
              · exact hk p hm
            obtain ⟨r1, r2, r3, r4⟩ := ih (ord + 1) (t.set b.start core) res hok hs' hk'
            refine ⟨r1, r2, ?_, ?_⟩
            · rw [r3]
              rw [List.filter_cons_of_pos (by simp [hb])]
              simp only [List.length_cons]
              omega
            · intro p hp
              rcases r4 p hp with hp' | ⟨b', hb', he⟩
              · rcases (set_mem hs).mp hp' with he | ⟨hm, _⟩
                · exact Or.inr ⟨b, List.mem_cons_self _ _, by rw [he]⟩
                · exact Or.inl hm
              · exact Or.inr ⟨b', List.mem_cons_of_mem _ hb', he⟩

theorem blockLoop_mono (env : Env) (lines : List String) :
    ∀ (hints : List BlockHint) (ord : Nat) (t : Tree BlockCore)
      (res : Tree BlockCore × Nat),
      blockLoop env lines hints ord t = .ok res →
      List.Pairwise (fun a b => a.start ≤ b.start) hints →
      TSorted t → TKeyed BlockCore.start t →
      (∀ p ∈ t, ∀ b ∈ hints, p.1 ≤ b.start) →
      (∀ p ∈ t, p.2.ordinal < ord) →
      (∀ p q, p ∈ t → q ∈ t → p.2.start < q.2.start → p.2.ordinal < q.2.ordinal) →
      (∀ p q, p ∈ res.1 → q ∈ res.1 → p.2.start < q.2.start →
        p.2.ordinal < q.2.ordinal) := by
  intro hints
  induction hints with
  | nil =>
      intro ord t res hok _ _ _ _ _ hmono
      have := Except.ok.inj hok
      subst this
      exact hmono
  | cons b rest ih =>
      intro ord t res hok hsorted hs hk hbound hord hmono
      obtain ⟨hh, htl⟩ := List.pairwise_cons.mp hsorted
      rw [blockLoop] at hok
      by_cases hb : b.typeTag = "heading"
      · rw [if_pos hb] at hok
        exact ih ord t res hok htl hs hk
          (fun p hp b' hb' => hbound p hp b' (List.mem_cons_of_mem _ hb'))
          hord hmono
      · rw [if_neg hb] at hok
        cases hc : classifyBlock env lines ord b with
        | error e =>
            rw [hc] at hok
            exact Except.noConfusion hok
        | ok core =>
            rw [hc] at hok
            obtain ⟨hcs, _, hco⟩ := classifyBlock_fields hc
            have hs' : TSorted (t.set b.start core) := set_sorted _ _ hs
            have hk' : TKeyed BlockCore.start (t.set b.start core) := by
              intro p hp
              rcases (set_mem hs).mp hp with he | ⟨hm, _⟩
              · rw [he]
                exact hcs
              · exact hk p hm
            refine ih (ord + 1) (t.set b.start core) res hok htl hs' hk' ?_ ?_ ?_
            · intro p hp b' hb'
              rcases (set_mem hs).mp hp with he | ⟨hm, _⟩
              · rw [he]
                exact hh b' hb'
              · exact hbound p hm b' (List.mem_cons_of_mem _ hb')
            · intro p hp
              rcases (set_mem hs).mp hp with he | ⟨hm, _⟩
              · rw [he]
                simp only
                omega
              · have := hord p hm
                omega
            · intro p q hp hq hlt
              rcases (set_mem hs).mp hp with hep | ⟨hmp, _⟩ <;>
                rcases (set_mem hs).mp hq with heq | ⟨hmq, _⟩
              · rw [hep] at hlt ⊢
                rw [heq] at hlt ⊢
                simp at hlt
              · exfalso
                rw [hep] at hlt
                have h1 := hk q hmq
                have h2 := hbound q hmq b (List.mem_cons_self _ _)
                simp only at hlt
                rw [hcs] at hlt
                omega
              · rw [heq]
                simp only
                rw [hco]
                exact hord p hmp
              · exact hmono p q hmp hmq hlt

/-! ## Relating built blocks to the block tree -/

theorem forall2_mem_right {α β : Type} {R : α → β → Prop} :
    ∀ {cs : List α} {js : List β}, List.Forall₂ R cs js → ∀ j ∈ js, ∃ c ∈ cs, R c j := by
  intro cs js hf
  induction hf with
  | nil => intro j hj; exact absurd hj (List.not_mem_nil j)
  | cons hr _ ih =>
      intro j hj
      rcases List.mem_cons.mp hj with hj | hj
      · exact ⟨_, List.mem_cons_self _ _, hj ▸ hr⟩
      · obtain ⟨c, hc, hcr⟩ := ih j hj
        exact ⟨c, List.mem_cons_of_mem _ hc, hcr⟩

theorem buildBlock_fields {bitems cmap : Nat → List ListItemCore}
    {bm im : Nat → Metadata} {fuel : Nat} {core : BlockCore} {j : JsonBlock}
    (h : buildBlock bitems cmap bm im fuel core = .ok j) :
    j.start = core.start ∧ j.ordinal = core.ordinal := by
  cases core with
  | listB s e o id =>
      unfold buildBlock at h
      dsimp only at h
      cases hb : buildItemList cmap im fuel (bitems s) with
      | error err =>
          rw [hb] at h
          exact Except.noConfusion h
      | ok items =>
          rw [hb] at h
          dsimp only at h
          have := Except.ok.inj h
          subst this
          exact ⟨rfl, rfl⟩
  | codeB s e o langs style cs ce id =>
      have := Except.ok.inj h
      subst this
      exact ⟨rfl, rfl⟩
  | dataB s e o data id =>
      have := Except.ok.inj h
      subst this
      exact ⟨rfl, rfl⟩
  | baseB s e o ty id =>
      have := Except.ok.inj h
      subst this
      exact ⟨rfl, rfl⟩

theorem buildBlockList_rel {bitems cmap : Nat → List ListItemCore}
    {bm im : Nat → Metadata} {fuel : Nat} :
    ∀ {cs : List BlockCore} {js : List JsonBlock},
      buildBlockList bitems cmap bm im fuel cs = .ok js →
      List.Forall₂ (fun (c : BlockCore) (j : JsonBlock) =>
        j.start = c.start ∧ j.ordinal = c.ordinal) cs js := by
  intro cs
  induction cs with
  | nil =>
      intro js hok
      have := Except.ok.inj hok
      subst this
      exact List.Forall₂.nil
  | cons c cs ih =>
      intro js hok
      unfold buildBlockList at hok
      cases h1 : buildBlock bitems cmap bm im fuel c with
      | error e =>
          rw [h1] at hok
          exact Except.noConfusion hok
      | ok j =>
          rw [h1] at hok
          cases h2 : buildBlockList bitems cmap bm im fuel cs with
          | error e =>
              rw [h2] at hok
              exact Except.noConfusion hok
          | ok js' =>
              rw [h2] at hok
              have := Except.ok.inj hok
              subst this
              exact List.Forall₂.cons (buildBlock_fields h1) (ih h2)

theorem buildSection_blocks {secT : Tree SectionCore} {sblocks : Nat → List BlockCore}
    {bitems cmap : Nat → List ListItemCore} {sm bm im : Nat → Metadata} {fuel : Nat}
    {core : SectionCore} {j : JsonSection}
    (hok : buildSection secT sblocks bitems cmap sm bm im fuel core = .ok j) :
    buildBlockList bitems cmap bm im fuel
      (if secT.get core.start = some core then sblocks core.start else []) =
      .ok j.blocks := by
  unfold buildSection at hok
  dsimp only at hok
  cases hbl : buildBlockList bitems cmap bm im fuel
      (if secT.get core.start = some core then sblocks core.start else []) with
  | error e =>
      rw [hbl] at hok
      exact Except.noConfusion hok
  | ok blocks =>
      rw [hbl] at hok
      have := Except.ok.inj hok
      subst this
      rfl

theorem buildSectionList_blocks {secT : Tree SectionCore}
    {sblocks : Nat → List BlockCore} {bitems cmap : Nat → List ListItemCore}
    {sm bm im : Nat → Metadata} {fuel : Nat} :
    ∀ {cs : List SectionCore} {js : List JsonSection},
      buildSectionList secT sblocks bitems cmap sm bm im fuel cs = .ok js →
      ∀ j ∈ js, ∀ bl ∈ j.blocks, ∃ bc s, bc ∈ sblocks s ∧
        bl.start = bc.start ∧ bl.ordinal = bc.ordinal := by
  intro cs
  induction cs with
  | nil =>
      intro js hok j hj
      have := Except.ok.inj hok
      subst this
      exact absurd hj (List.not_mem_nil j)
  | cons c cs ih =>
      intro js hok j hj bl hbl
      unfold buildSectionList at hok
      cases h1 : buildSection secT sblocks bitems cmap sm bm im fuel c with
      | error e =>
          rw [h1] at hok
          exact Except.noConfusion hok
      | ok j0 =>
          rw [h1] at hok
          cases h2 : buildSectionList secT sblocks bitems cmap sm bm im fuel cs with
          | error e =>
              rw [h2] at hok
              exact Except.noConfusion hok
          | ok js' =>
              rw [h2] at hok
              have := Except.ok.inj hok
              subst this
              rcases List.mem_cons.mp hj with hj | hj
              · subst hj
                have hbll := buildSection_blocks h1
                have hrel := buildBlockList_rel hbll
                obtain ⟨bc, hbc, hfields⟩ := forall2_mem_right hrel bl hbl
                by_cases hres : secT.get c.start = some c
                · rw [if_pos hres] at hbc
                  exact ⟨bc, c.start, hbc, hfields.1, hfields.2⟩
                · rw [if_neg hres] at hbc
                  exact absurd hbc (List.not_mem_nil bc)
              · exact ih h2 j hj bl hbl

theorem values_mem {α : Type} {t : Tree α} {c : α} :
    c ∈ t.values ↔ ∃ k, (k, c) ∈ t := by
  unfold Tree.values
  constructor
  · intro hc
    obtain ⟨p, hp, he⟩ := List.mem_map.mp hc
    exact ⟨p.1, by rw [← he]; exact hp⟩
  · rintro ⟨k, hk⟩
    exact List.mem_map.mpr ⟨(k, c), hk, rfl⟩

theorem attachBlocks_mem (secT : Tree SectionCore) (blkT : Tree BlockCore) :
    ∀ k c, c ∈ attachBlocks secT blkT k → c ∈ blkT.values := by
  unfold attachBlocks
  suffices h : ∀ (vs : List BlockCore) (acc : Nat → List BlockCore),
      (∀ k c, c ∈ acc k → c ∈ blkT.values) → (∀ c ∈ vs, c ∈ blkT.values) →
      ∀ k c, c ∈ vs.foldl (fun acc core =>
        match Tree.lookupBy SectionCore.endL core.start secT with
        | some sec => mupdate acc sec.start core
        | none => acc) acc k → c ∈ blkT.values by
    intro k c hc
    refine h blkT.values (fun _ => []) ?_ (fun c hc => hc) k c hc
    intro k c hc
    exact absurd hc (List.not_mem_nil c)
  intro vs
  induction vs with
  | nil =>
      intro acc hacc _ k c hc
      exact hacc k c hc
  | cons v rest ih =>
      intro acc hacc hvs k c hc
      rw [List.foldl_cons] at hc
      refine ih _ ?_ (fun c hc => hvs c (List.mem_cons_of_mem _ hc)) k c hc
      intro k' c' hc'
      cases hlk : Tree.lookupBy SectionCore.endL v.start secT with
      | some sec =>
          rw [hlk] at hc'
          unfold mupdate at hc'
          dsimp only at hc'
          by_cases hk' : k' = sec.start
          · rw [if_pos hk'] at hc'
            rcases List.mem_append.mp hc' with hc' | hc'
            · exact hacc k' c' hc'
            · rw [List.mem_singleton.mp hc']
              exact hvs v (List.mem_cons_self _ _)
          · rw [if_neg hk'] at hc'
            exact hacc k' c' hc'
      | none =>
          rw [hlk] at hc'
          exact hacc k' c' hc'

/-! ## Claim C5 -/

theorem pairwise_mono_combined {α : Type} (f g : α → Nat) :
    ∀ (l : List α), List.Pairwise (fun a b => f a ≤ f b) l →
      List.Pairwise (fun a b => g a < g b) l →
      ∀ x ∈ l, ∀ y ∈ l, f x < f y → g x < g y := by
  intro l
  induction l with
  | nil => intro _ _ x hx; exact absurd hx (List.not_mem_nil x)
  | cons c rest ih =>
      intro hf hg x hx y hy hlt
      obtain ⟨hfc, hftl⟩ := List.pairwise_cons.mp hf
      obtain ⟨hgc, hgtl⟩ := List.pairwise_cons.mp hg
      rcases List.mem_cons.mp hx with hx1 | hx1
      · rcases List.mem_cons.mp hy with hy1 | hy1
        · subst hx1
          subst hy1
          omega
        · subst hx1
          exact hgc y hy1
      · rcases List.mem_cons.mp hy with hy1 | hy1
        · subst hy1
          exact absurd hlt (by have := hfc x hx1; omega)
        · exact ih hftl hgtl x hx1 y hy1 hlt

theorem headCores_pairwise_start (total : Nat) (hs : List HeadingHint) (idx : Nat)
    (hsorted : List.Pairwise (fun a b => a.start ≤ b.start) hs) :
    List.Pairwise (fun (a b : SectionCore) => a.start ≤ b.start)
      (headCores total hs idx) := by
  have h1 : List.Pairwise (fun a b => a ≤ b) ((headCores total hs idx).map (·.start)) := by
    rw [headCores_starts]
    exact List.pairwise_map.mpr hsorted
  exact List.pairwise_map.mp h1

theorem sectionsPhase_pushed_mono (path : String) (lines : List String)
    (headings : List HeadingHint) {sp : Tree SectionCore × List SectionCore}
    (hsp : sectionsPhase path lines headings = .ok sp) :
    ∀ c1 ∈ sp.2, ∀ c2 ∈ sp.2,
        c1.start < c2.start → c1.ordinal < c2.ordinal := by
  cases hsort : sortHeadings headings with
  | nil =>
      rw [sectionsPhase_nil path lines headings hsort] at hsp
      by_cases he : emptylines lines 0 lines.length
      · rw [if_pos he] at hsp
        rw [← Except.ok.inj hsp]
        intro c1 hc1
        exact absurd hc1 (List.not_mem_nil c1)
      · rw [if_neg he] at hsp
        rw [← Except.ok.inj hsp]
        intro c1 hc1 c2 hc2 hlt
        rw [List.mem_singleton.mp hc1, List.mem_singleton.mp hc2] at hlt
        omega
  | cons h rest =>
      rw [sectionsPhase_cons_ok path lines headings h rest hsort hsp]
      have hsorted : List.Pairwise (fun a b => a.start ≤ b.start) (h :: rest) := by
        rw [← hsort]
        exact sortHeadings_sorted headings
      have hmonohc := pairwise_mono_combined SectionCore.start SectionCore.ordinal
        (headCores lines.length (h :: rest) 0)
        (headCores_pairwise_start lines.length (h :: rest) 0 hsorted)
        (headCores_pairwise_ordinal lines.length (h :: rest) 0)
      dsimp only
      by_cases himp : 0 < h.start ∧ ¬ emptylines lines 0 h.start
      · rw [if_pos himp]
        dsimp only
        intro c1 hc1 c2 hc2 hlt
        rcases List.mem_append.mp hc1 with hc1 | hc1 <;>
          rcases List.mem_append.mp hc2 with hc2 | hc2
        · exact hmonohc c1 hc1 c2 hc2 hlt
        · exfalso
          rw [List.mem_singleton.mp hc2] at hlt
          simp only [implicitCore] at hlt
          omega
        · rw [List.mem_singleton.mp hc1]
          simp only [implicitCore]
          exact headCores_ordinal_gt lines.length (h :: rest) 0 c2 hc2
        · rw [List.mem_singleton.mp hc1, List.mem_singleton.mp hc2] at hlt
          omega
      · rw [if_neg himp]
        exact hmonohc

/-- C5: in every built page with block hints sorted by start line (the
order the host reports them in), section ordinals strictly increase in
document order - the implicit section's ordinal 0 before the 1-based
heading ordinals - and block ordinals, drawn from the one page-wide
counter that is never reset per section, strictly increase across the
whole page in document order, independent of section boundaries. -/
theorem C5_ordinals {env : Env} {path markdown : String} {meta : MetadataCache}
    {stats : FileStats} {page : JsonPage}
    (hok : markdownImport env path markdown meta stats = .ok page)
    (hbsorted : List.Pairwise (fun a b => a.start ≤ b.start) (meta.sections.getD [])) :
    (∀ s1 ∈ page.sections, ∀ s2 ∈ page.sections,
      s1.start < s2.start → s1.ordinal < s2.ordinal) ∧
    (∀ b1 ∈ allBlocks page, ∀ b2 ∈ allBlocks page,
      b1.start < b2.start → b1.ordinal < b2.ordinal) := by
  obtain ⟨sp, bp, sections, hsp, hbp, hrest⟩ := markdownImport_ok_elim hok
  dsimp only at hrest
  obtain ⟨hbuild, hpage⟩ := hrest
  subst hpage
  dsimp only
  constructor
  · intro s1 hs1 s2 hs2 hlt
    obtain ⟨c1, hc1, hr1⟩ := forall2_mem_right (buildSectionList_rel hbuild) s1 hs1
    obtain ⟨c2, hc2, hr2⟩ := forall2_mem_right (buildSectionList_rel hbuild) s2 hs2
    rw [hr1.2.2.2.1, hr2.2.2.2.1] at hlt
    rw [hr1.2.1, hr2.2.1]
    exact sectionsPhase_pushed_mono path (splitLines markdown) (meta.headings.getD [])
      hsp c1 hc1 c2 hc2 hlt
  · have hblk := blockLoop_inv env (splitLines markdown) (meta.sections.getD []) 1 [] bp hbp
      tsorted_nil (fun p hp => absurd hp (List.not_mem_nil p))
    have hmono := blockLoop_mono env (splitLines markdown) (meta.sections.getD []) 1 [] bp hbp
      hbsorted tsorted_nil (fun p hp => absurd hp (List.not_mem_nil p))
      (fun p hp => absurd hp (List.not_mem_nil p))
      (fun p hp => absurd hp (List.not_mem_nil p))
      (fun p q hp => absurd hp (List.not_mem_nil p))
    intro b1 hb1 b2 hb2 hlt
    unfold allBlocks at hb1 hb2
    obtain ⟨blks1, hblks1, hb1'⟩ := List.mem_flatten.mp hb1
    obtain ⟨blks2, hblks2, hb2'⟩ := List.mem_flatten.mp hb2
    obtain ⟨j1, hj1, hje1⟩ := List.mem_map.mp hblks1
    obtain ⟨j2, hj2, hje2⟩ := List.mem_map.mp hblks2
    obtain ⟨bc1, s1, hbc1, hfs1, hfo1⟩ :=
      buildSectionList_blocks hbuild j1 hj1 b1 (hje1 ▸ hb1')
    obtain ⟨bc2, s2, hbc2, hfs2, hfo2⟩ :=
      buildSectionList_blocks hbuild j2 hj2 b2 (hje2 ▸ hb2')
    have hv1 := attachBlocks_mem _ _ _ _ hbc1
    have hv2 := attachBlocks_mem _ _ _ _ hbc2
    obtain ⟨k1, hk1⟩ := values_mem.mp hv1
    obtain ⟨k2, hk2⟩ := values_mem.mp hv2
    rw [hfs1, hfs2] at hlt
    rw [hfo1, hfo2]
    exact hmono (k1, bc1) (k2, bc2) hk1 hk2 hlt

/-- C5 (witness): the ordinal theorem applied to a page with a heading
section, a paragraph block and a fenced code block. -/
theorem C5_witness :
    ∃ page, markdownImport cEnv "f.md" "# Title\npara\n```js\nx\n```" cMetaC5 cStats =
        Except.ok page ∧
      ((∀ s1 ∈ page.sections, ∀ s2 ∈ page.sections,
        s1.start < s2.start → s1.ordinal < s2.ordinal) ∧
       (∀ b1 ∈ allBlocks page, ∀ b2 ∈ allBlocks page,
        b1.start < b2.start → b1.ordinal < b2.ordinal)) :=
  ⟨cPageC5, by rfl,
    @C5_ordinals cEnv "f.md" "# Title\npara\n```js\nx\n```" cMetaC5 cStats cPageC5
      (by rfl) (by decide)⟩

/-- C7 (witness): a two-line file with content and no headings builds
the single implicit section, and a blank file builds none. -/
theorem C7_witness :
    ∃ page, markdownImport cEnv "dir/note.md" "hello\nworld" cMeta cStats = Except.ok page ∧
      (emptylines (splitLines "hello\nworld") 0 (splitLines "hello\nworld").length = false ∧
        ∃ s, page.sections = [s] ∧ s.ordinal = 0 ∧ s.level = 1 ∧
          s.title = getFileTitle "dir/note.md" ∧ s.start = 0 ∧
          s.endL = (splitLines "hello\nworld").length) := by
  refine ⟨(markdownImport cEnv "dir/note.md" "hello\nworld" cMeta cStats).toOption.getD
    defaultPage, by rfl, by decide, ?_⟩
  exact (@C7_no_headings cEnv "dir/note.md" "hello\nworld" cMeta cStats
    ((markdownImport cEnv "dir/note.md" "hello\nworld" cMeta cStats).toOption.getD defaultPage)
    (by rfl) (by rfl)).2 (by decide)

/-! ## Claim C10 -/

theorem countP_flatten {α : Type} (p : α → Bool) :
    ∀ ls : List (List α), ls.flatten.countP p = (ls.map (fun l => l.countP p)).sum := by
  intro ls
  induction ls with
  | nil => rfl
  | cons l ls ih =>
      rw [List.flatten_cons, List.countP_append, List.map_cons, List.sum_cons, ih]

theorem map_sum_of_forall₂ {α β : Type} {R : α → β → Prop} (f : β → Nat) (g : α → Nat) :
    ∀ {cs : List α} {js : List β}, List.Forall₂ R cs js →
      (∀ c j, R c j → f j = g c) → (js.map f).sum = (cs.map g).sum := by
  intro cs js hf hfg
  induction hf with
  | nil => rfl
  | cons hr _ ih =>
      rw [List.map_cons, List.map_cons, List.sum_cons, List.sum_cons, ih, hfg _ _ hr]

theorem sum_if_eq_countP {α : Type} (p : α → Prop) [DecidablePred p] :
    ∀ l : List α,
      (l.map (fun c => if p c then 1 else 0)).sum = l.countP (fun c => decide (p c)) := by
  intro l
  induction l with
  | nil => rfl
  | cons c l ih =>
      rw [List.map_cons, List.sum_cons, ih, List.countP_cons]
      by_cases h : p c
      · simp [h, Nat.add_comm]
      · simp [h]

theorem nodup_countP_le_one {α : Type} (p : α → Bool) :
    ∀ l : List α, l.Nodup →
      (∀ x ∈ l, ∀ y ∈ l, p x = true → p y = true → x = y) → l.countP p ≤ 1 := by
  intro l
  induction l with
  | nil => intro _ _; simp
  | cons c l ih =>
      intro hnd hu
      obtain ⟨hc, hl⟩ := List.nodup_cons.mp hnd
      rw [List.countP_cons]
      by_cases h : p c = true
      · have hz : l.countP p = 0 := by
          apply List.countP_eq_zero.mpr
          intro y hy hpy
          have he : y = c := hu y (List.mem_cons_of_mem _ hy) c (List.mem_cons_self _ _) hpy h
          rw [he] at hy
          exact absurd hy hc
        rw [hz]
        simp [h]
      · have hrec := ih hl (fun x hx y hy hpx hpy =>
          hu x (List.mem_cons_of_mem _ hx) y (List.mem_cons_of_mem _ hy) hpx hpy)
        rw [if_neg h]
        omega

/-- The start lines of the values of a sorted, start-keyed tree are
pairwise distinct. -/
theorem values_starts_nodup {α : Type} (keyf : α → Nat) {t : Tree α}
    (hs : TSorted t) (hk : TKeyed keyf t) : (t.values.map keyf).Nodup := by
  have heq : t.values.map keyf = t.map (·.1) := by
    unfold Tree.values
    rw [List.map_map]
    apply List.map_congr_left
    intro p hp
    exact hk p hp
  rw [heq]
  have hpw : List.Pairwise (fun a b : Nat => a < b) (t.map (·.1)) :=
    List.pairwise_map.mpr hs
  exact List.Pairwise.imp (fun hab => Nat.ne_of_lt hab) hpw

/-- The surviving entry of the block tree at each start line: the last
non-heading hint with that start line wins, and a line with no such
hint keeps the incoming tree's entry. -/
theorem blockLoop_get (env : Env) (lines : List String) :
    ∀ (hints : List BlockHint) (ord : Nat) (t : Tree BlockCore)
      (res : Tree BlockCore × Nat),
      blockLoop env lines hints ord t = .ok res → TSorted t →
      ∀ s : Nat,
        match (hints.filter
            (fun b => ¬ b.typeTag = "heading" ∧ b.start = s)).getLast? with
        | some b => ∃ o core, classifyBlock env lines o b = .ok core ∧
            res.1.get s = some core
        | none => res.1.get s = t.get s := by
  intro hints
  induction hints with
  | nil =>
      intro ord t res hok _ s
      have := Except.ok.inj hok
      subst this
      exact rfl
  | cons b rest ih =>
      intro ord t res hok hs s
      rw [blockLoop] at hok
      by_cases hb : b.typeTag = "heading"
      · rw [if_pos hb] at hok
        rw [List.filter_cons_of_neg (by simp [hb])]
        exact ih ord t res hok hs s
      · rw [if_neg hb] at hok
        cases hc : classifyBlock env lines ord b with
        | error e =>
            rw [hc] at hok
            exact Except.noConfusion hok
        | ok core =>
            rw [hc] at hok
            have ihr := ih (ord + 1) (t.set b.start core) res hok (set_sorted _ _ hs) s
            by_cases hbs : b.start = s
            · rw [List.filter_cons_of_pos (by simp [hb, hbs])]
              cases hl : (rest.filter
                  (fun b => ¬ b.typeTag = "heading" ∧ b.start = s)).getLast? with
              | some b' =>
                  rw [List.getLast?_cons, hl]
                  rw [hl] at ihr
                  dsimp only at ihr
                  simpa using ihr
              | none =>
                  rw [List.getLast?_cons, hl]
                  rw [hl] at ihr
                  dsimp only at ihr
                  simp only [Option.getD_none]
                  refine ⟨ord, core, hc, ?_⟩
                  rw [ihr, set_get hs b.start s core, if_pos hbs.symm]
            · rw [List.filter_cons_of_neg (by simp [hbs])]
              cases hl : (rest.filter
                  (fun b => ¬ b.typeTag = "heading" ∧ b.start = s)).getLast? with
              | some b' =>
                  rw [hl] at ihr
                  exact ihr
              | none =>
                  rw [hl] at ihr
                  dsimp only at ihr
                  dsimp only
                  rw [ihr, set_get hs b.start s core,
                    if_neg (fun he => hbs he.symm)]

/-- How many blocks with a given start line end up attached to a given
section key: exactly one when some tree value has that start line and
the containment lookup at it lands on that key, zero otherwise. -/
theorem attachBlocks_countP (secT : Tree SectionCore) (blkT : Tree BlockCore)
    (hnd : (blkT.values.map BlockCore.start).Nodup) (k s : Nat) :
    ((attachBlocks secT blkT k).countP (fun b => b.start = s)) =
      if (∃ c ∈ blkT.values, c.start = s) ∧
          (Tree.lookupBy SectionCore.endL s secT).map SectionCore.start = some k
      then 1 else 0 := by
  unfold attachBlocks
  suffices h : ∀ (vs : List BlockCore) (acc : Nat → List BlockCore),
      (vs.map BlockCore.start).Nodup →
      ∀ k s : Nat, ((vs.foldl (fun acc core =>
          match Tree.lookupBy SectionCore.endL core.start secT with
          | some sec => mupdate acc sec.start core
          | none => acc) acc) k).countP (fun b => b.start = s) =
        ((acc k).countP (fun b => b.start = s)) +
        (if (∃ c ∈ vs, c.start = s) ∧
            (Tree.lookupBy SectionCore.endL s secT).map SectionCore.start = some k
         then 1 else 0) by
    rw [h blkT.values (fun _ => []) hnd k s]
    simp
  intro vs
  induction vs with
  | nil =>
      intro acc _ k s
      simp
  | cons v rest ih =>
      intro acc hnd2 k s
      rw [List.map_cons] at hnd2
      obtain ⟨hvs, hnd'⟩ := List.nodup_cons.mp hnd2
      rw [List.foldl_cons]
      cases hlk : Tree.lookupBy SectionCore.endL v.start secT with
      | some sec =>
          simp only [hlk]
          rw [ih (mupdate acc sec.start v) hnd' k s]
          unfold mupdate
          by_cases hks : k = sec.start
          · rw [if_pos hks, List.countP_append]
            by_cases hvst : v.start = s
            · have hind0 : ¬ ((∃ c ∈ rest, c.start = s) ∧
                  (Tree.lookupBy SectionCore.endL s secT).map SectionCore.start = some k) := by
                rintro ⟨⟨c, hcm, hcs⟩, -⟩
                apply hvs
                rw [hvst, ← hcs]
                exact List.mem_map_of_mem _ hcm
              have hind1 : ((∃ c ∈ v :: rest, c.start = s) ∧
                  (Tree.lookupBy SectionCore.endL s secT).map SectionCore.start = some k) := by
                refine ⟨⟨v, List.mem_cons_self _ _, hvst⟩, ?_⟩
                rw [← hvst, hlk]
                simp [hks]
              rw [if_neg hind0, if_pos hind1]
              have hone : (List.countP (fun b => decide (b.start = s)) [v]) = 1 := by
                simp [hvst]
              rw [hone]
            · have hiff : ((∃ c ∈ v :: rest, c.start = s) ∧
                  (Tree.lookupBy SectionCore.endL s secT).map SectionCore.start = some k) ↔
                  ((∃ c ∈ rest, c.start = s) ∧
                  (Tree.lookupBy SectionCore.endL s secT).map SectionCore.start = some k) := by
                constructor
                · rintro ⟨⟨c, hcm, hcs⟩, hT⟩
                  rcases List.mem_cons.mp hcm with he | hm
                  · exact absurd (he ▸ hcs) hvst
                  · exact ⟨⟨c, hm, hcs⟩, hT⟩
                · rintro ⟨⟨c, hm, hcs⟩, hT⟩
                  exact ⟨⟨c, List.mem_cons_of_mem _ hm, hcs⟩, hT⟩
              rw [if_congr hiff rfl rfl]
              have hzero : (List.countP (fun b => decide (b.start = s)) [v]) = 0 := by
                simp [hvst]
              rw [hzero]
              omega
          · rw [if_neg hks]
            by_cases hvst : v.start = s
            · have hT : ¬ ((Tree.lookupBy SectionCore.endL s secT).map SectionCore.start
                  = some k) := by
                intro hcon
                rw [← hvst, hlk] at hcon
                simp only [Option.map_some'] at hcon
                exact hks (Option.some.inj hcon).symm
              rw [if_neg (fun hcon => hT hcon.2), if_neg (fun hcon => hT hcon.2)]
            · have hiff : ((∃ c ∈ v :: rest, c.start = s) ∧
                  (Tree.lookupBy SectionCore.endL s secT).map SectionCore.start = some k) ↔
                  ((∃ c ∈ rest, c.start = s) ∧
                  (Tree.lookupBy SectionCore.endL s secT).map SectionCore.start = some k) := by
                constructor
                · rintro ⟨⟨c, hcm, hcs⟩, hT⟩
                  rcases List.mem_cons.mp hcm with he | hm
                  · exact absurd (he ▸ hcs) hvst
                  · exact ⟨⟨c, hm, hcs⟩, hT⟩
                · rintro ⟨⟨c, hm, hcs⟩, hT⟩
                  exact ⟨⟨c, List.mem_cons_of_mem _ hm, hcs⟩, hT⟩
              rw [if_congr hiff rfl rfl]
      | none =>
          simp only [hlk]
          rw [ih acc hnd' k s]
          by_cases hvst : v.start = s
          · have hT : ¬ ((Tree.lookupBy SectionCore.endL s secT).map SectionCore.start
                = some k) := by
              intro hcon
              rw [← hvst, hlk] at hcon
              exact Option.noConfusion hcon
            rw [if_neg (fun hcon => hT hcon.2), if_neg (fun hcon => hT hcon.2)]
          · have hiff : ((∃ c ∈ v :: rest, c.start = s) ∧
                (Tree.lookupBy SectionCore.endL s secT).map SectionCore.start = some k) ↔
                ((∃ c ∈ rest, c.start = s) ∧
                (Tree.lookupBy SectionCore.endL s secT).map SectionCore.start = some k) := by
              constructor
              · rintro ⟨⟨c, hcm, hcs⟩, hT⟩
                rcases List.mem_cons.mp hcm with he | hm
                · exact absurd (he ▸ hcs) hvst
                · exact ⟨⟨c, hm, hcs⟩, hT⟩
              · rintro ⟨⟨c, hm, hcs⟩, hT⟩
                exact ⟨⟨c, List.mem_cons_of_mem _ hm, hcs⟩, hT⟩
            rw [if_congr hiff rfl rfl]

/-- The heading-derived section cores are pairwise distinct (their
ordinals strictly increase). -/
theorem headCores_nodup (total : Nat) (hs : List HeadingHint) (idx : Nat) :
    (headCores total hs idx).Nodup := by
  have hp := headCores_pairwise_ordinal total hs idx
  exact List.Pairwise.imp (fun hab he => by rw [he] at hab; omega) hp

theorem headCores_length (total : Nat) (hs : List HeadingHint) :
    ∀ idx, (headCores total hs idx).length = hs.length := by
  induction hs with
  | nil => intro idx; rfl
  | cons h rest ih =>
      intro idx
      simp only [headCores, List.length_cons]
      rw [ih]

/-- The pushed section list never repeats a section record. -/
theorem sectionsPhase_pushed_nodup (path : String) (lines : List String)
    (headings : List HeadingHint) {sp : Tree SectionCore × List SectionCore}
    (hsp : sectionsPhase path lines headings = .ok sp) :
    sp.2.Nodup := by
  cases hsort : sortHeadings headings with
  | nil =>
      rw [sectionsPhase_nil path lines headings hsort] at hsp
      by_cases he : emptylines lines 0 lines.length
      · rw [if_pos he] at hsp
        rw [← Except.ok.inj hsp]
        exact List.nodup_nil
      · rw [if_neg he] at hsp
        rw [← Except.ok.inj hsp]
        exact List.nodup_singleton _
  | cons h rest =>
      rw [sectionsPhase_cons_ok path lines headings h rest hsort hsp]
      dsimp only
      by_cases himp : 0 < h.start ∧ ¬ emptylines lines 0 h.start
      · rw [if_pos himp]
        dsimp only
        refine List.Nodup.append (headCores_nodup _ _ _) (List.nodup_singleton _) ?_
        intro c hc1 hc2
        have hgt := headCores_ordinal_gt lines.length (h :: rest) 0 c hc1
        rw [List.mem_singleton.mp hc2] at hgt
        have h0 : (implicitCore path h.start).ordinal = 0 := rfl
        omega
      · rw [if_neg himp]
        exact headCores_nodup _ _ _

/-- Each pushed section's serialized blocks come from the block list
the attachment phase assigned to its start key - the empty list when
the pushed core is not the tree resident at its start. -/
theorem buildSectionList_blocks_rel {secT : Tree SectionCore}
    {sblocks : Nat → List BlockCore} {bitems cmap : Nat → List ListItemCore}
    {sm bm im : Nat → Metadata} {fuel : Nat} :
    ∀ {cs : List SectionCore} {js : List JsonSection},
      buildSectionList secT sblocks bitems cmap sm bm im fuel cs = .ok js →
      List.Forall₂ (fun (c : SectionCore) (j : JsonSection) =>
        buildBlockList bitems cmap bm im fuel
          (if secT.get c.start = some c then sblocks c.start else []) = .ok j.blocks)
        cs js := by
  intro cs
  induction cs with
  | nil =>
      intro js hok
      have := Except.ok.inj hok
      subst this
      exact List.Forall₂.nil
  | cons c cs ih =>
      intro js hok
      unfold buildSectionList at hok
      cases h1 : buildSection secT sblocks bitems cmap sm bm im fuel c with
      | error e =>
          rw [h1] at hok
          exact Except.noConfusion hok
      | ok j0 =>
          rw [h1] at hok
          cases h2 : buildSectionList secT sblocks bitems cmap sm bm im fuel cs with
          | error e =>
              rw [h2] at hok
              exact Except.noConfusion hok
          | ok js' =>
              rw [h2] at hok
              have := Except.ok.inj hok
              subst this
              exact List.Forall₂.cons (buildSection_blocks h1) (ih h2)

/-- C10 (counterexample): two heading hints both starting at line 0.
The later hint replaces the earlier one in the section tree index, but
both pushed section records stay in the built page, so the output holds
two sections with the same start line - last-write-wins does not reach
the page for heading hints. -/
theorem C10_counterexample :
    (markdownImport cEnv "n.md" "x" cMetaC10 cStats).isOk = true ∧
    (pageSections (markdownImport cEnv "n.md" "x" cMetaC10 cStats)).length = 2 ∧
    (pageSections (markdownImport cEnv "n.md" "x" cMetaC10 cStats)).map
      (fun sec => sec.start) = [0, 0] ∧
    (pageSections (markdownImport cEnv "n.md" "x" cMetaC10 cStats)).map
      (fun sec => sec.title) = ["A", "B"] := by
  refine ⟨by rfl, by rfl, by rfl, by rfl⟩

/-- C10: where last-write-wins really holds in a successful import.
Blocks: at most one block with any given start line exists in the whole
built page.  The page-wide ordinal counter is still incremented once
per non-heading hint - replaced hints included - so output ordinals may
skip values; the surviving block-tree entry at each start line is the
classification of the last non-heading hint with that start.  List
items: the item tree keeps exactly the last hint with each start line.
Heading hints, however, are not last-write-wins in the output: every
heading hint contributes one section to the built page (plus at most
one implicit section), even when a later hint shares its start line. -/
theorem C10_last_write_wins {env : Env} {path markdown : String}
    {meta : MetadataCache} {stats : FileStats} {page : JsonPage}
    (hok : markdownImport env path markdown meta stats = .ok page) :
    (∀ s : Nat, (allBlocks page).countP (fun b => b.start = s) ≤ 1) ∧
    (∀ bp, blocksPhase env (splitLines markdown) (meta.sections.getD []) = .ok bp →
      bp.2 = 1 + ((meta.sections.getD []).filter
          (fun b => ¬ b.typeTag = "heading")).length ∧
      (∀ s : Nat,
        match ((meta.sections.getD []).filter
            (fun b => ¬ b.typeTag = "heading" ∧ b.start = s)).getLast? with
        | some b => ∃ o core, classifyBlock env (splitLines markdown) o b = .ok core ∧
            bp.1.get s = some core
        | none => bp.1.get s = none)) ∧
    (∀ s : Nat, (itemsPhase (meta.listItems.getD [])).get s =
      (((meta.listItems.getD []).filter (fun h => h.start = s)).map itemCore).getLast?) ∧
    (page.sections.length = (meta.headings.getD []).length ∨
      page.sections.length = (meta.headings.getD []).length + 1) := by
  obtain ⟨sp, bp, sections, hsp, hbp, hrest⟩ := markdownImport_ok_elim hok
  dsimp only at hrest
  obtain ⟨hbuild, hpage⟩ := hrest
  subst hpage
  refine ⟨?_, ?_, ?_, ?_⟩
  · -- at most one block per start line across the built page
    intro s
    have hbl : blockLoop env (splitLines markdown) (meta.sections.getD []) 1 [] = .ok bp :=
      hbp
    obtain ⟨hbso, hbke, -, -⟩ := blockLoop_inv env (splitLines markdown)
      (meta.sections.getD []) 1 [] bp hbl tsorted_nil
      (fun p hp => absurd hp (List.not_mem_nil p))
    have hnd := values_starts_nodup BlockCore.start hbso hbke
    have hndp := sectionsPhase_pushed_nodup path (splitLines markdown)
      (meta.headings.getD []) hsp
    have hrelB := buildSectionList_blocks_rel hbuild
    have hpiece : ∀ (bitems cmap : Nat → List ListItemCore) (bm im : Nat → Metadata)
        (fuel : Nat) (c : SectionCore) (j : JsonSection),
        buildBlockList bitems cmap bm im fuel
          (if sp.1.get c.start
              = some c
           then attachBlocks
                  sp.1
                  bp.1 c.start
           else []) = .ok j.blocks →
        j.blocks.countP (fun b => b.start = s) =
          if (sp.1.get c.start
                = some c) ∧
              (∃ bc ∈ bp.1.values, bc.start = s) ∧
              (Tree.lookupBy SectionCore.endL s
                sp.1).map SectionCore.start = some c.start
          then 1 else 0 := by
      intro bitems cmap bm im fuel c j hcj
      have h1 : j.blocks.countP (fun b => b.start = s) =
          (if sp.1.get c.start
              = some c
           then attachBlocks
                  sp.1
                  bp.1 c.start
           else []).countP (fun bc => bc.start = s) :=
        countP_of_forall₂ (buildBlockList_rel hcj) (fun bc bl hr => by rw [hr.1])
      rw [h1]
      by_cases hres : sp.1.get c.start = some c
      · rw [if_pos hres]
        rw [attachBlocks_countP _ bp.1 hnd c.start s]
        by_cases hq : (∃ bc ∈ bp.1.values, bc.start = s) ∧
            (Tree.lookupBy SectionCore.endL s
              sp.1).map SectionCore.start = some c.start
        · rw [if_pos hq, if_pos ⟨hres, hq.1, hq.2⟩]
        · rw [if_neg hq, if_neg (fun hcon => hq ⟨hcon.2.1, hcon.2.2⟩)]
      · rw [if_neg hres, if_neg (fun hcon => hres hcon.1)]
        rfl
    have huniq : ∀ x ∈ sp.2,
        ∀ y ∈ sp.2,
        (fun c => decide
          ((sp.1.get c.start
              = some c) ∧
            (∃ bc ∈ bp.1.values, bc.start = s) ∧
            (Tree.lookupBy SectionCore.endL s
              sp.1).map SectionCore.start = some c.start)) x = true →
        (fun c => decide
          ((sp.1.get c.start
              = some c) ∧
            (∃ bc ∈ bp.1.values, bc.start = s) ∧
            (Tree.lookupBy SectionCore.endL s
              sp.1).map SectionCore.start = some c.start)) y = true →
        x = y := by
      intro x hx y hy hqx hqy
      simp only [decide_eq_true_eq] at hqx hqy
      obtain ⟨hrx, -, htx⟩ := hqx
      obtain ⟨hry, -, hty⟩ := hqy
      have hse : x.start = y.start := by
        rw [htx] at hty
        exact Option.some.inj hty
      rw [hse] at hrx
      rw [hrx] at hry
      exact Option.some.inj hry
    refine le_trans (le_of_eq ?_) (nodup_countP_le_one _ _ hndp huniq)
    show ((sections.map (fun sec => sec.blocks)).flatten).countP
        (fun b => decide (b.start = s)) = _
    rw [countP_flatten, List.map_map]
    show (List.map (fun j => List.countP (fun b => decide (b.start = s)) j.blocks)
        sections).sum = _
    rw [map_sum_of_forall₂ _ (fun c => if
        ((sp.1.get c.start
            = some c) ∧
          (∃ bc ∈ bp.1.values, bc.start = s) ∧
          (Tree.lookupBy SectionCore.endL s
            sp.1).map SectionCore.start = some c.start)
        then 1 else 0) hrelB (fun c j hr => hpiece _ _ _ _ _ c j hr)]
    exact sum_if_eq_countP _ _
  · -- the block counter and the surviving tree entry per start line
    intro bp' hbp'
    have hbl' : blockLoop env (splitLines markdown) (meta.sections.getD []) 1 [] = .ok bp' :=
      hbp'
    obtain ⟨-, -, hcount, -⟩ := blockLoop_inv env (splitLines markdown)
      (meta.sections.getD []) 1 [] bp' hbl' tsorted_nil
      (fun p hp => absurd hp (List.not_mem_nil p))
    refine ⟨hcount, ?_⟩
    intro s
    have hget := blockLoop_get env (splitLines markdown) (meta.sections.getD []) 1 [] bp'
      hbl' tsorted_nil s
    cases hl : ((meta.sections.getD []).filter
        (fun b => ¬ b.typeTag = "heading" ∧ b.start = s)).getLast? with
    | some b =>
        rw [hl] at hget
        exact hget
    | none =>
        rw [hl] at hget
        exact hget
  · -- the item tree keeps exactly the last hint with each start line
    intro s
    rw [itemsPhase_eq]
    rw [tfold_get ListItemCore.start ((meta.listItems.getD []).map itemCore) s tsorted_nil]
    have hswap : ((meta.listItems.getD []).map itemCore).filter
        (fun c => ListItemCore.start c = s) =
        ((meta.listItems.getD []).filter (fun h => h.start = s)).map itemCore := by
      induction (meta.listItems.getD []) with
      | nil => rfl
      | cons h l ih =>
          rw [List.map_cons]
          by_cases hh : h.start = s
          · rw [List.filter_cons_of_pos (by simp [itemCore, hh]),
              List.filter_cons_of_pos (by simp [hh]), List.map_cons, ih]
          · rw [List.filter_cons_of_neg (by simp [itemCore, hh]),
              List.filter_cons_of_neg (by simp [hh]), ih]
    rw [hswap]
    cases hl : (((meta.listItems.getD []).filter
        (fun h => h.start = s)).map itemCore).getLast? with
    | some c => rfl
    | none => rfl
  · -- every heading hint contributes one section to the built page
    have hlen : sp.2.length = sections.length :=
      List.Forall₂.length_eq (buildSectionList_rel hbuild)
    dsimp only
    cases hsort : sortHeadings (meta.headings.getD []) with
    | nil =>
        have hperm := sortHeadings_perm (meta.headings.getD [])
        rw [hsort] at hperm
        have h0 : (meta.headings.getD []).length = 0 := by
          rw [← hperm.length_eq]
          rfl
        rw [sectionsPhase_nil path (splitLines markdown) (meta.headings.getD []) hsort]
          at hsp
        rw [← Except.ok.inj hsp] at hlen
        by_cases he : emptylines (splitLines markdown) 0 (splitLines markdown).length
        · rw [if_pos he] at hlen
          simp only [List.length_nil] at hlen
          left
          omega
        · rw [if_neg he] at hlen
          simp only [List.length_singleton] at hlen
          right
          omega
    | cons h rest =>
        have hperm := sortHeadings_perm (meta.headings.getD [])
        rw [hsort] at hperm
        have hL : (h :: rest).length = (meta.headings.getD []).length := hperm.length_eq
        rw [sectionsPhase_cons_ok path (splitLines markdown) (meta.headings.getD []) h rest
          hsort hsp] at hlen
        dsimp only at hlen
        by_cases himp : 0 < h.start ∧ ¬ emptylines (splitLines markdown) 0 h.start
        · rw [if_pos himp] at hlen
          dsimp only at hlen
          rw [List.length_append, headCores_length, List.length_singleton] at hlen
          right
          omega
        · rw [if_neg himp] at hlen
          rw [headCores_length] at hlen
          left
          omega

/-- C10 (witness): the duplicate-heading fixture import succeeds and
satisfies every clause of the last-write-wins theorem. -/
theorem C10_witness :
    ∃ page, markdownImport cEnv "n.md" "x" cMetaC10 cStats = Except.ok page ∧
      ((∀ s : Nat, (allBlocks page).countP (fun b => b.start = s) ≤ 1) ∧
       (∀ bp, blocksPhase cEnv (splitLines "x") (cMetaC10.sections.getD []) = .ok bp →
         bp.2 = 1 + ((cMetaC10.sections.getD []).filter
             (fun b => ¬ b.typeTag = "heading")).length ∧
         (∀ s : Nat,
           match ((cMetaC10.sections.getD []).filter
               (fun b => ¬ b.typeTag = "heading" ∧ b.start = s)).getLast? with
           | some b => ∃ o core, classifyBlock cEnv (splitLines "x") o b = .ok core ∧
               bp.1.get s = some core
           | none => bp.1.get s = none)) ∧
       (∀ s : Nat, (itemsPhase (cMetaC10.listItems.getD [])).get s =
         (((cMetaC10.listItems.getD []).filter (fun h => h.start = s)).map
           itemCore).getLast?) ∧
       (page.sections.length = (cMetaC10.headings.getD []).length ∨
         page.sections.length = (cMetaC10.headings.getD []).length + 1)) :=
  ⟨cPageC10, by rfl,
    @C10_last_write_wins cEnv "n.md" "x" cMetaC10 cStats cPageC10 (by rfl)⟩

/-! ## Claim C3 -/

/-- Every value of a sorted, keyed tree is the resident at its own
key. -/
theorem values_resident {α : Type} (keyf : α → Nat) {t : Tree α}
    (hs : TSorted t) (hk : TKeyed keyf t) {c : α} (hc : c ∈ t.values) :
    t.get (keyf c) = some c := by
  obtain ⟨k, hkm⟩ := values_mem.mp hc
  have hkey := hk (k, c) hkm
  rw [get_eq_some hs]
  rw [show keyf c = k from hkey]
  exact hkm

/-- Membership in a child list of the second pass forces the member's
parent reference to name that key non-negatively. -/
theorem cmap_mem (blkT : Tree BlockCore) (itmT : Tree ListItemCore)
    (hsort : TSorted itmT) (hkey : TKeyed ListItemCore.start itmT)
    (k : Nat) (d : ListItemCore) (hd : d ∈ (passTwo blkT itmT).2 k) :
    d ∈ itmT.values ∧ ¬ d.parent < 0 ∧ d.parent.toNat = k := by
  have hnd : itmT.values.Nodup := values_nodup hsort hkey
  obtain ⟨-, h2⟩ := passTwo_fold_count blkT itmT itmT.values
    (fun _ => [], fun _ => []) hnd k d
  have hpos : 0 < ((passTwo blkT itmT).2 k).count d := List.count_pos_iff.mpr hd
  rw [show passTwo blkT itmT = itmT.values.foldl (passTwoStep blkT itmT)
    (fun _ => [], fun _ => []) from rfl] at hpos
  rw [h2] at hpos
  by_cases hcond : d ∈ itmT.values ∧ ¬ d.parent < 0 ∧ d.parent.toNat = k ∧
      (itmT.get d.parent.toNat).isSome = true
  · exact ⟨hcond.1, hcond.2.1, hcond.2.2.1⟩
  · rw [if_neg hcond] at hpos
    simp at hpos

/-- Membership in a block's item list of the second pass forces a
negative parent reference. -/
theorem bitems_mem (blkT : Tree BlockCore) (itmT : Tree ListItemCore)
    (hsort : TSorted itmT) (hkey : TKeyed ListItemCore.start itmT)
    (k : Nat) (d : ListItemCore) (hd : d ∈ (passTwo blkT itmT).1 k) :
    d ∈ itmT.values ∧ d.parent < 0 := by
  have hnd : itmT.values.Nodup := values_nodup hsort hkey
  obtain ⟨h1, -⟩ := passTwo_fold_count blkT itmT itmT.values
    (fun _ => [], fun _ => []) hnd k d
  have hpos : 0 < ((passTwo blkT itmT).1 k).count d := List.count_pos_iff.mpr hd
  rw [show passTwo blkT itmT = itmT.values.foldl (passTwoStep blkT itmT)
    (fun _ => [], fun _ => []) from rfl] at hpos
  rw [h1] at hpos
  by_cases hcond : d ∈ itmT.values ∧ d.parent < 0 ∧ (-d.parent).toNat = k ∧
      isListAt blkT ((-d.parent).toNat) = true
  · exact ⟨hcond.1, hcond.2.1⟩
  · rw [if_neg hcond] at hpos
    simp at hpos

/-- A parent chain that ends at a root never repeats an item: each link
determines its target (the unique resident at the named start line), so
a repeat would propagate back to the root, whose negative parent admits
no outgoing link. -/
theorem chain_nodup (itmT : Tree ListItemCore) :
    ∀ (n : Nat) (l : List ListItemCore), l.length ≤ n →
      List.Chain' (fun a b => ¬ a.parent < 0 ∧ itmT.get a.parent.toNat = some b) l →
      (∀ r ∈ l.getLast?, r.parent < 0) →
      l.Nodup := by
  intro n
  induction n with
  | zero =>
      intro l hlen _ _
      rw [List.length_eq_zero.mp (Nat.le_zero.mp hlen)]
      exact List.nodup_nil
  | succ n ih =>
      intro l hlen hchain hroot
      match l, hlen, hchain, hroot with
      | [], _, _, _ => exact List.nodup_nil
      | [a], _, _, _ => exact List.nodup_singleton a
      | a :: b :: rest, hlen, hchain, hroot =>
          have hab := (List.chain'_cons.mp hchain).1
          have hchain2 := (List.chain'_cons.mp hchain).2
          have hroot2 : ∀ r ∈ (b :: rest).getLast?, r.parent < 0 := by
            intro r hr
            apply hroot r
            rwa [List.getLast?_cons_cons]
          have htail : (b :: rest).Nodup := by
            refine ih (b :: rest) ?_ hchain2 hroot2
            simp only [List.length_cons] at hlen ⊢
            omega
          refine List.nodup_cons.mpr ⟨?_, htail⟩
          intro hmem
          obtain ⟨u, v, huv⟩ := List.append_of_mem hmem
          cases v with
          | nil =>
              have hlast : (a :: b :: rest).getLast? = some a := by
                rw [List.getLast?_cons_cons, huv]
                exact List.getLast?_concat u
              have hrootA := hroot a (by rw [hlast]; rfl)
              exact hab.1 hrootA
          | cons w v' =>
              have haw : (¬ a.parent < 0 ∧ itmT.get a.parent.toNat = some w) := by
                have hc2 := hchain2
                rw [huv] at hc2
                have h3 := (List.chain'_append.mp hc2).2.1
                exact (List.chain'_cons.mp h3).1
              have hwb : w = b := by
                have h1 := hab.2
                rw [h1] at haw
                exact (Option.some.inj haw.2).symm
              cases u with
              | nil =>
                  rw [List.nil_append] at huv
                  injection huv with h1 h2
                  have hbm : b ∈ rest := by
                    rw [h2, hwb]
                    exact List.mem_cons_self _ _
                  exact (List.nodup_cons.mp htail).1 hbm
              | cons u0 u' =>
                  rw [List.cons_append] at huv
                  injection huv with h1 h2
                  have hbm : b ∈ rest := by
                    rw [h2, ← hwb]
                    exact List.mem_append_right _
                      (List.mem_cons_of_mem _ (List.mem_cons_self _ _))
                  exact (List.nodup_cons.mp htail).1 hbm

/-- Fuel sufficiency of the item serialization: along any ancestor
chain rooted in a negative-parent item, the chain items are pairwise
distinct tree values, so the recursion depth never exceeds the item
count and the given fuel never runs out. -/
theorem buildItem_fuel (blkT : Tree BlockCore) (itmT : Tree ListItemCore)
    (hsort : TSorted itmT) (hkey : TKeyed ListItemCore.start itmT)
    (im : Nat → Metadata) :
    ∀ (fuel : Nat) (c : ListItemCore) (anc : List ListItemCore),
      c ∈ itmT.values → (∀ x ∈ anc, x ∈ itmT.values) →
      List.Chain' (fun a b => ¬ a.parent < 0 ∧ itmT.get a.parent.toNat = some b)
        (c :: anc) →
      (∀ r ∈ (c :: anc).getLast?, r.parent < 0) →
      itmT.values.length + 1 ≤ fuel + (anc.length + 1) →
      ∃ j, buildItem (passTwo blkT itmT).2 im fuel c = .ok j := by
  intro fuel
  induction fuel with
  | zero =>
      intro c anc hc hanc hchain hroot hlen
      exfalso
      have hnd := chain_nodup itmT (c :: anc).length (c :: anc) le_rfl hchain hroot
      have hsub : (c :: anc) ⊆ itmT.values := by
        intro x hx
        rcases List.mem_cons.mp hx with he | hm
        · rw [he]
          exact hc
        · exact hanc x hm
      have hle := (List.subperm_of_subset hnd hsub).length_le
      simp only [List.length_cons] at hle
      omega
  | succ fuel ih =>
      intro c anc hc hanc hchain hroot hlen
      have hresident : itmT.get c.start = some c := values_resident ListItemCore.start
        hsort hkey hc
      have hlist : ∀ cs : List ListItemCore,
          (∀ d ∈ cs, d ∈ (passTwo blkT itmT).2 c.start) →
          ∃ js, buildItemList (passTwo blkT itmT).2 im fuel cs = .ok js := by
        intro cs
        induction cs with
        | nil => intro _; exact ⟨[], by rw [buildItemList]⟩
        | cons d ds ihd =>
            intro hds
            obtain ⟨hdval, hdpar, hdk⟩ := cmap_mem blkT itmT hsort hkey c.start d
              (hds d (List.mem_cons_self _ _))
            have hchain' : List.Chain'
                (fun a b => ¬ a.parent < 0 ∧ itmT.get a.parent.toNat = some b)
                (d :: c :: anc) :=
              List.chain'_cons.mpr ⟨⟨hdpar, by rw [hdk]; exact hresident⟩, hchain⟩
            have hroot' : ∀ r ∈ (d :: c :: anc).getLast?, r.parent < 0 := by
              intro r hr
              apply hroot r
              rwa [List.getLast?_cons_cons] at hr
            obtain ⟨j, hj⟩ := ih d (c :: anc) hdval
              (fun x hx => by
                rcases List.mem_cons.mp hx with he | hm
                · rw [he]
                  exact hc
                · exact hanc x hm)
              hchain' hroot'
              (by simp only [List.length_cons] at hlen ⊢; omega)
            obtain ⟨js, hjs⟩ := ihd (fun d' hd' => hds d' (List.mem_cons_of_mem _ hd'))
            refine ⟨j :: js, ?_⟩
            rw [buildItemList, hj, hjs]
      obtain ⟨js, hjs⟩ := hlist ((passTwo blkT itmT).2 c.start) (fun d hd => hd)
      refine ⟨.mk c.parent c.start c.endL c.blockId js
        (match c.status with
          | some s => if s = "" then "list" else "task"
          | none => "list")
        c.status (im c.start).tags (im c.start).links (im c.start).infields, ?_⟩
      rw [buildItem, hjs]

/-- A list of negative-parent tree values serializes successfully at
fuel one more than the item count. -/
theorem buildItemList_roots (blkT : Tree BlockCore) (itmT : Tree ListItemCore)
    (hsort : TSorted itmT) (hkey : TKeyed ListItemCore.start itmT)
    (im : Nat → Metadata) :
    ∀ rs : List ListItemCore, (∀ r ∈ rs, r ∈ itmT.values ∧ r.parent < 0) →
      ∃ js, buildItemList (passTwo blkT itmT).2 im (itmT.length + 1) rs = .ok js := by
  intro rs
  induction rs with
  | nil => intro _; exact ⟨[], by rw [buildItemList]⟩
  | cons r rs ih =>
      intro hrs
      obtain ⟨hrval, hrpar⟩ := hrs r (List.mem_cons_self _ _)
      have hvlen : itmT.values.length = itmT.length := by
        unfold Tree.values
        exact List.length_map _ _
      obtain ⟨j, hj⟩ := buildItem_fuel blkT itmT hsort hkey im (itmT.length + 1) r []
        hrval (fun x hx => absurd hx (List.not_mem_nil x)) (List.chain'_singleton r)
        (by
          intro x hx
          have hxr : r = x := by simpa using hx
          rw [← hxr]
          exact hrpar)
        (by omega)
      obtain ⟨js, hjs⟩ := ih (fun r' hr' => hrs r' (List.mem_cons_of_mem _ hr'))
      refine ⟨j :: js, ?_⟩
      rw [buildItemList, hj, hjs]

/-- Every block core serializes successfully at fuel one more than the
item count: only list blocks recurse, and their item lists hold
negative-parent roots. -/
theorem buildBlock_total (blkT : Tree BlockCore) (itmT : Tree ListItemCore)
    (hsort : TSorted itmT) (hkey : TKeyed ListItemCore.start itmT)
    (bm im : Nat → Metadata) (core : BlockCore) :
    ∃ j, buildBlock (passTwo blkT itmT).1 (passTwo blkT itmT).2 bm im
      (itmT.length + 1) core = .ok j := by
  cases core with
  | listB s e o id =>
      obtain ⟨js, hjs⟩ := buildItemList_roots blkT itmT hsort hkey im
        ((passTwo blkT itmT).1 s)
        (fun r hr => bitems_mem blkT itmT hsort hkey s r hr)
      refine ⟨.listB o s e (bm s).infields (bm s).tags (bm s).links id js, ?_⟩
      simp only [buildBlock]
      rw [hjs]
  | codeB s e o langs style cs ce id => exact ⟨_, rfl⟩
  | dataB s e o data id => exact ⟨_, rfl⟩
  | baseB s e o ty id => exact ⟨_, rfl⟩

theorem buildBlockList_total (blkT : Tree BlockCore) (itmT : Tree ListItemCore)
    (hsort : TSorted itmT) (hkey : TKeyed ListItemCore.start itmT)
    (bm im : Nat → Metadata) :
    ∀ cs : List BlockCore,
      ∃ js, buildBlockList (passTwo blkT itmT).1 (passTwo blkT itmT).2 bm im
        (itmT.length + 1) cs = .ok js := by
  intro cs
  induction cs with
  | nil => exact ⟨[], by rw [buildBlockList]⟩
  | cons c cs ih =>
      obtain ⟨j, hj⟩ := buildBlock_total blkT itmT hsort hkey bm im c
      obtain ⟨js, hjs⟩ := ih
      refine ⟨j :: js, ?_⟩
      rw [buildBlockList, hj, hjs]

theorem buildSection_total (secT : Tree SectionCore) (sblocks : Nat → List BlockCore)
    (blkT : Tree BlockCore) (itmT : Tree ListItemCore)
    (hsort : TSorted itmT) (hkey : TKeyed ListItemCore.start itmT)
    (sm bm im : Nat → Metadata) (core : SectionCore) :
    ∃ j, buildSection secT sblocks (passTwo blkT itmT).1 (passTwo blkT itmT).2
      sm bm im (itmT.length + 1) core = .ok j := by
  obtain ⟨blocks, hblocks⟩ := buildBlockList_total blkT itmT hsort hkey bm im
    (if secT.get core.start = some core then sblocks core.start else [])
  refine ⟨⟨core.title, core.ordinal, core.level,
    (if secT.get core.start = some core then sm core.start else Metadata.empty).tags,
    (if secT.get core.start = some core then sm core.start else Metadata.empty).infields,
    (if secT.get core.start = some core then sm core.start else Metadata.empty).links,
    core.start, core.endL, blocks⟩, ?_⟩
  simp only [buildSection]
  rw [hblocks]

theorem buildSectionList_total (secT : Tree SectionCore)
    (sblocks : Nat → List BlockCore) (blkT : Tree BlockCore)
    (itmT : Tree ListItemCore)
    (hsort : TSorted itmT) (hkey : TKeyed ListItemCore.start itmT)
    (sm bm im : Nat → Metadata) :
    ∀ cs : List SectionCore,
      ∃ js, buildSectionList secT sblocks (passTwo blkT itmT).1 (passTwo blkT itmT).2
        sm bm im (itmT.length + 1) cs = .ok js := by
  intro cs
  induction cs with
  | nil => exact ⟨[], by rw [buildSectionList]⟩
  | cons c cs ih =>
      obtain ⟨j, hj⟩ := buildSection_total secT sblocks blkT itmT hsort hkey sm bm im c
      obtain ⟨js, hjs⟩ := ih
      refine ⟨j :: js, ?_⟩
      rw [buildSectionList, hj, hjs]

/-- The import succeeds exactly when its section phase and its block
phase do: every other phase is total, and the serialization never
exhausts its fuel. -/
theorem markdownImport_ok_iff {env : Env} {path markdown : String}
    {meta : MetadataCache} {stats : FileStats} :
    (∃ page, markdownImport env path markdown meta stats = .ok page) ↔
    ((∃ sp, sectionsPhase path (splitLines markdown) (meta.headings.getD []) = .ok sp) ∧
     (∃ bp, blocksPhase env (splitLines markdown) (meta.sections.getD []) = .ok bp)) := by
  constructor
  · rintro ⟨page, hok⟩
    obtain ⟨sp, bp, _, hsp, hbp, -⟩ := markdownImport_ok_elim hok
    exact ⟨⟨sp, hsp⟩, ⟨bp, hbp⟩⟩
  · rintro ⟨⟨sp, hsp⟩, ⟨bp, hbp⟩⟩
    obtain ⟨sections, hsec⟩ := buildSectionList_total sp.1
      (attachBlocks sp.1 bp.1)
      bp.1 (itemsPhase (meta.listItems.getD []))
      (itemsPhase_sorted _) (itemsPhase_keyed _)
      (attachPhase env (splitLines markdown) sp.1 bp.1
        (itemsPhase (meta.listItems.getD [])) meta).sec
      (attachPhase env (splitLines markdown) sp.1 bp.1
        (itemsPhase (meta.listItems.getD [])) meta).blk
      (attachPhase env (splitLines markdown) sp.1 bp.1
        (itemsPhase (meta.listItems.getD [])) meta).itm
      sp.2
    refine ⟨⟨path, stats.ctime, stats.mtime, stats.size, getExtension path, 0,
      (splitLines markdown).length,
      (attachPhase env (splitLines markdown) sp.1 bp.1
        (itemsPhase (meta.listItems.getD [])) meta).page.tags,
      (attachPhase env (splitLines markdown) sp.1 bp.1
        (itemsPhase (meta.listItems.getD [])) meta).page.links,
      (attachPhase env (splitLines markdown) sp.1 bp.1
        (itemsPhase (meta.listItems.getD [])) meta).page.infields,
      sections, meta.frontmatter.map (parseFrontmatterBlock env)⟩, ?_⟩
    unfold markdownImport
    dsimp only
    rw [hsp]
    dsimp only
    rw [hbp]
    dsimp only
    rw [hsec]

/-- A classification error pins down its cause: the hint is a code
hint whose yaml:data body the yaml parser rejects, or a code hint whose
first line lies beyond the file. -/
theorem classifyBlock_error_cond {env : Env} {lines : List String} {ord : Nat}
    {b : BlockHint} {e : String}
    (h : classifyBlock env lines ord b = .error e) :
    b.typeTag = "code" ∧
      ((yamlDataTest (lines.get? b.start) = true ∧
        (env.yamlParse (replaceTabs (sliceJoin lines (b.start + 1) b.endL))).isOk
          = false) ∨
       (¬ yamlDataTest (lines.get? b.start) = true ∧ lines.get? b.start = none)) := by
  unfold classifyBlock at h
  dsimp only at h
  by_cases h1 : b.typeTag = "list"
  · rw [if_pos h1] at h
    exact Except.noConfusion h
  · rw [if_neg h1] at h
    by_cases h2 : b.typeTag = "code" ∧ yamlDataTest (lines.get? b.start) = true
    · rw [if_pos h2] at h
      cases hy : env.yamlParse (replaceTabs (sliceJoin lines (b.start + 1) b.endL)) with
      | error e2 =>
          exact ⟨h2.1, Or.inl ⟨h2.2, rfl⟩⟩
      | ok kvs =>
          rw [hy] at h
          exact Except.noConfusion h
    · rw [if_neg h2] at h
      by_cases h3 : b.typeTag = "code"
      · rw [if_pos h3] at h
        cases hl : lines.get? b.start with
        | none =>
            exact ⟨h3, Or.inr ⟨fun hcon => h2 ⟨h3, by rw [hl]; exact hcon⟩, rfl⟩⟩
        | some str =>
            rw [hl] at h
            dsimp only at h
            cases hf : fenceMatch str with
            | none =>
                rw [hf] at h
                exact Except.noConfusion h
            | some rest =>
                rw [hf] at h
                exact Except.noConfusion h
      · rw [if_neg h3] at h
        exact Except.noConfusion h

/-- Either failure condition forces the classification to fail,
whatever the ordinal. -/
theorem classifyBlock_cond_error {env : Env} {lines : List String} {ord : Nat}
    {b : BlockHint}
    (hcond : b.typeTag = "code" ∧
      ((yamlDataTest (lines.get? b.start) = true ∧
        (env.yamlParse (replaceTabs (sliceJoin lines (b.start + 1) b.endL))).isOk
          = false) ∨
       (¬ yamlDataTest (lines.get? b.start) = true ∧ lines.get? b.start = none))) :
    ∀ core, ¬ classifyBlock env lines ord b = .ok core := by
  intro core hcore
  obtain ⟨hcode, hdisj⟩ := hcond
  unfold classifyBlock at hcore
  dsimp only at hcore
  rw [if_neg (show ¬ b.typeTag = "list" by rw [hcode]; decide)] at hcore
  rcases hdisj with ⟨hyt, hko⟩ | ⟨hnyt, hnone⟩
  · rw [if_pos ⟨hcode, hyt⟩] at hcore
    cases hy : env.yamlParse (replaceTabs (sliceJoin lines (b.start + 1) b.endL)) with
    | error e2 =>
        rw [hy] at hcore
        exact Except.noConfusion hcore
    | ok kvs =>
        rw [hy] at hko
        exact Bool.noConfusion (show true = false from hko)
  · rw [if_neg (fun hcon => hnyt hcon.2)] at hcore
    rw [if_pos hcode] at hcore
    rw [hnone] at hcore
    exact Except.noConfusion hcore

/-- Whether a single hint classifies successfully is independent of the
ordinal: the only failure sources are a yaml:data body the yaml parser
rejects and a code hint whose first line lies beyond the file. -/
theorem classifyBlock_ok_iff (env : Env) (lines : List String) (ord : Nat)
    (b : BlockHint) :
    (∃ core, classifyBlock env lines ord b = .ok core) ↔
    ¬ (b.typeTag = "code" ∧
       ((yamlDataTest (lines.get? b.start) = true ∧
         (env.yamlParse (replaceTabs (sliceJoin lines (b.start + 1) b.endL))).isOk
           = false) ∨
        (¬ yamlDataTest (lines.get? b.start) = true ∧ lines.get? b.start = none))) := by
  constructor
  · rintro ⟨core, hcore⟩ hcond
    exact classifyBlock_cond_error hcond core hcore
  · intro hncond
    cases hres : classifyBlock env lines ord b with
    | ok core => exact ⟨core, rfl⟩
    | error e => exact absurd (classifyBlock_error_cond hres) hncond

/-- The block loop succeeds exactly when no non-heading hint satisfies
either failure condition. -/
theorem blockLoop_ok_iff (env : Env) (lines : List String) :
    ∀ (hints : List BlockHint) (ord : Nat) (t : Tree BlockCore),
      (∃ res, blockLoop env lines hints ord t = .ok res) ↔
      (∀ b ∈ hints, ¬ b.typeTag = "heading" →
        ¬ (b.typeTag = "code" ∧
           ((yamlDataTest (lines.get? b.start) = true ∧
             (env.yamlParse (replaceTabs (sliceJoin lines (b.start + 1) b.endL))).isOk
               = false) ∨
            (¬ yamlDataTest (lines.get? b.start) = true ∧
              lines.get? b.start = none)))) := by
  intro hints
  induction hints with
  | nil =>
      intro ord t
      refine iff_of_true ⟨(t, ord), rfl⟩ ?_
      intro b hb
      exact absurd hb (List.not_mem_nil b)
  | cons b rest ih =>
      intro ord t
      rw [blockLoop]
      by_cases hb : b.typeTag = "heading"
      · rw [if_pos hb]
        rw [ih ord t]
        constructor
        · intro h b' hb' hbh
          rcases List.mem_cons.mp hb' with he | hm
          · rw [he] at hbh
            exact absurd hb hbh
          · exact h b' hm hbh
        · intro h b' hb' hbh
          exact h b' (List.mem_cons_of_mem _ hb') hbh
      · rw [if_neg hb]
        cases hc : classifyBlock env lines ord b with
        | error e =>
            refine iff_of_false ?_ ?_
            · rintro ⟨res, hres⟩
              exact Except.noConfusion
                (show (Except.error e : Except String (Tree BlockCore × Nat)) =
                  Except.ok res from hres)
            · intro hall
              obtain ⟨core, hcore⟩ := (classifyBlock_ok_iff env lines ord b).mpr
                (hall b (List.mem_cons_self _ _) hb)
              rw [hc] at hcore
              exact Except.noConfusion hcore
        | ok core =>
            show (∃ res, blockLoop env lines rest (ord + 1) (t.set b.start core)
              = .ok res) ↔ _
            rw [ih (ord + 1) (t.set b.start core)]
            constructor
            · intro h b' hb' hbh
              rcases List.mem_cons.mp hb' with he | hm
              · rw [he]
                exact (classifyBlock_ok_iff env lines ord b).mp ⟨core, hc⟩
              · exact h b' hm hbh
            · intro h b' hb' hbh
              exact h b' (List.mem_cons_of_mem _ hb') hbh

/-- C3 (counterexample): two out-of-range crashes that are not
malformed yaml.  First, a code hint whose start line lies beyond the
end of the file makes the import fail - the source reads
undefined.match and throws a TypeError - although no yaml:data body
fails to parse.  Second, a heading hint starting past the end of an
all-blank file makes the import fail with no block hints at all: the
leading-gap emptylines scan reads undefined.trim past the end of the
lines array. -/
theorem C3_counterexample :
    (markdownImport cEnv "f.md" "x" cMetaC3x cStats).isOk = false ∧
    (∀ b ∈ cMetaC3x.sections.getD [], ¬ (b.typeTag = "code" ∧
      yamlDataTest ((splitLines "x").get? b.start) = true ∧
      (cEnv.yamlParse (replaceTabs (sliceJoin (splitLines "x") (b.start + 1)
        b.endL))).isOk = false)) ∧
    (markdownImport cEnv "f.md" "" cMetaC3h cStats).isOk = false ∧
    cMetaC3h.sections = none := by
  refine ⟨by rfl, by decide, by rfl, by rfl⟩

/-- C3: when every code hint starts inside the file (ruling out the
undefined.match TypeError) and every heading hint starts no later than
the end of the file (ruling out the undefined.trim TypeError of the
leading-gap emptylines scan), the import fails exactly when some yaml
data block's embedded body is rejected by the yaml parser; and the
degradations are silent: an unrecognized block type is preserved as a
generic block, and an unmatched scalar coerces to null.  (The silent
drop of an orphaned list-item reference is the subject of the list
hierarchy theorem.) -/
theorem C3_fatal_only_yaml {env : Env} {path markdown : String} {meta : MetadataCache}
    {stats : FileStats}
    (hcode : ∀ b ∈ meta.sections.getD [], b.typeTag = "code" →
      b.start < (splitLines markdown).length)
    (hhead : ∀ h ∈ meta.headings.getD [], h.start ≤ (splitLines markdown).length) :
    ((∃ page, markdownImport env path markdown meta stats = .ok page) ↔
      ∀ b ∈ meta.sections.getD [], ¬ (b.typeTag = "code" ∧
        yamlDataTest ((splitLines markdown).get? b.start) = true ∧
        (env.yamlParse (replaceTabs (sliceJoin (splitLines markdown)
          (b.start + 1) b.endL))).isOk = false)) ∧
    (∀ ord (b : BlockHint), ¬ b.typeTag = "list" → ¬ b.typeTag = "code" →
      classifyBlock env (splitLines markdown) ord b =
        .ok (.baseB b.start b.endL ord b.typeTag b.id)) ∧
    parseFrontmatter env .other = .null := by
  refine ⟨?_, ?_, rfl⟩
  · have hsec : ∃ sp, sectionsPhase path (splitLines markdown)
        (meta.headings.getD []) = .ok sp :=
      sectionsPhase_ok_of_bounded path (splitLines markdown) (meta.headings.getD []) hhead
    rw [markdownImport_ok_iff, and_iff_right hsec]
    show (∃ bp, blockLoop env (splitLines markdown) (meta.sections.getD []) 1 []
      = .ok bp) ↔ _
    rw [blockLoop_ok_iff env (splitLines markdown) (meta.sections.getD []) 1 []]
    constructor
    · intro h b hb
      rintro ⟨hc, hyt, hko⟩
      exact h b hb (by rw [hc]; decide) ⟨hc, Or.inl ⟨hyt, hko⟩⟩
    · intro h b hb hbh
      rintro ⟨hc, hdisj⟩
      rcases hdisj with ⟨hyt, hko⟩ | ⟨-, hnone⟩
      · exact h b hb ⟨hc, hyt, hko⟩
      · have hlt := hcode b hb hc
        have hge := List.get?_eq_none.mp hnone
        omega
  · intro ord b h1 h3
    unfold classifyBlock
    dsimp only
    rw [if_neg h1, if_neg (fun hcon => h3 hcon.1), if_neg h3]

/-- C3 (witness): the failing-yaml fixture - a yaml:data block whose
body the yaml parser rejects - satisfies the in-bounds hypothesis and
every clause of the failure characterization. -/
theorem C3_witness :
    (∀ b ∈ cMetaC3.sections.getD [], b.typeTag = "code" →
      b.start < (splitLines "```yaml:data\nFAIL\n```").length) ∧
    (∀ h ∈ cMetaC3.headings.getD [],
      h.start ≤ (splitLines "```yaml:data\nFAIL\n```").length) ∧
    (((∃ page, markdownImport cEnv "f.md" "```yaml:data\nFAIL\n```" cMetaC3 cStats
        = .ok page) ↔
      ∀ b ∈ cMetaC3.sections.getD [], ¬ (b.typeTag = "code" ∧
        yamlDataTest ((splitLines "```yaml:data\nFAIL\n```").get? b.start) = true ∧
        (cEnv.yamlParse (replaceTabs (sliceJoin (splitLines "```yaml:data\nFAIL\n```")
          (b.start + 1) b.endL))).isOk = false)) ∧
     (∀ ord (b : BlockHint), ¬ b.typeTag = "list" → ¬ b.typeTag = "code" →
       classifyBlock cEnv (splitLines "```yaml:data\nFAIL\n```") ord b =
         .ok (.baseB b.start b.endL ord b.typeTag b.id)) ∧
     parseFrontmatter cEnv .other = .null) :=
  ⟨by decide, by decide,
    @C3_fatal_only_yaml cEnv "f.md" "```yaml:data\nFAIL\n```" cMetaC3 cStats
      (by decide) (by decide)⟩

/-! ## Claim C8 -/

/-- C8 (counterexample): two lines each yield a discovered inline
field, and both fields lowercase to the same record key, so the second
discovered field is attached nowhere - not even to the page - because
Metadata.inlineField keeps the first occurrence per lowercased key. -/
theorem C8_counterexample :
    (markdownImport cEnv "f.md" "a::1\nb::2" cMeta cStats).isOk = true ∧
    (inlineFieldsOf cEnv (splitLines "a::1\nb::2")).length = 2 ∧
    cPageC8.infields.length = 1 ∧
    cPageC8.infields.map (fun p => InlineField.value p.2) = ["a::1"] := by
  refine ⟨by rfl, by rfl, by rfl, by rfl⟩

/-- C8: one attachment step applies the addition to the page
aggregator unconditionally and, independently at each of the three
granularities, to exactly the aggregator keyed by the start of the node
the containment lookup returns - the floor entry at the line, accepted
only when its end exceeds the line - leaving every other key untouched;
a lookup miss at a granularity leaves that whole granularity untouched.
The attachment applies the aggregator's deduplication, so an addition
whose inline-field key lowercases to one already present leaves the
record unchanged (the counterexample's dropped second field). -/
theorem C8_attachment (secT : Tree SectionCore) (blkT : Tree BlockCore)
    (itmT : Tree ListItemCore)
    (hsec : TSorted secT) (hblk : TSorted blkT) (hitm : TSorted itmT)
    (st : AttachState) (line : Nat) (f : Metadata → Metadata) :
    ((attachAt secT blkT itmT st line f).page = f st.page) ∧
    (∀ k, (attachAt secT blkT itmT st line f).sec k =
      (match Tree.lookupBy SectionCore.endL line secT with
       | some sec => if k = sec.start then f (st.sec k) else st.sec k
       | none => st.sec k)) ∧
    (∀ k, (attachAt secT blkT itmT st line f).blk k =
      (match Tree.lookupBy BlockCore.endL line blkT with
       | some core => if k = core.start then f (st.blk k) else st.blk k
       | none => st.blk k)) ∧
    (∀ k, (attachAt secT blkT itmT st line f).itm k =
      (match Tree.lookupBy ListItemCore.endL line itmT with
       | some core => if k = core.start then f (st.itm k) else st.itm k
       | none => st.itm k)) ∧
    (∀ v : SectionCore, Tree.lookupBy SectionCore.endL line secT = some v ↔
      ∃ k, (k, v) ∈ secT ∧ k ≤ line ∧ line < v.endL ∧
        ∀ q ∈ secT, q.1 ≤ line → q.1 ≤ k) ∧
    (∀ v : BlockCore, Tree.lookupBy BlockCore.endL line blkT = some v ↔
      ∃ k, (k, v) ∈ blkT ∧ k ≤ line ∧ line < v.endL ∧
        ∀ q ∈ blkT, q.1 ≤ line → q.1 ≤ k) ∧
    (∀ v : ListItemCore, Tree.lookupBy ListItemCore.endL line itmT = some v ↔
      ∃ k, (k, v) ∈ itmT ∧ k ≤ line ∧ line < v.endL ∧
        ∀ q ∈ itmT, q.1 ≤ line → q.1 ≤ k) ∧
    (∀ (m : Metadata) (fl : InlineField),
      m.infields.any (fun p => strLower p.1 = strLower fl.key) = true →
      Metadata.addField m fl = m) := by
  refine ⟨?_, ?_, ?_, ?_, fun v => lookup_some hsec, fun v => lookup_some hblk,
    fun v => lookup_some hitm, ?_⟩
  · simp only [attachAt]
    cases hs1 : Tree.lookupBy SectionCore.endL line secT <;>
      cases hs2 : Tree.lookupBy BlockCore.endL line blkT <;>
        cases hs3 : Tree.lookupBy ListItemCore.endL line itmT <;> rfl
  · intro k
    simp only [attachAt]
    cases hs1 : Tree.lookupBy SectionCore.endL line secT <;>
      cases hs2 : Tree.lookupBy BlockCore.endL line blkT <;>
        cases hs3 : Tree.lookupBy ListItemCore.endL line itmT <;> rfl
  · intro k
    simp only [attachAt]
    cases hs1 : Tree.lookupBy SectionCore.endL line secT <;>
      cases hs2 : Tree.lookupBy BlockCore.endL line blkT <;>
        cases hs3 : Tree.lookupBy ListItemCore.endL line itmT <;> rfl
  · intro k
    simp only [attachAt]
    cases hs1 : Tree.lookupBy SectionCore.endL line secT <;>
      cases hs2 : Tree.lookupBy BlockCore.endL line blkT <;>
        cases hs3 : Tree.lookupBy ListItemCore.endL line itmT <;> rfl
  · intro m fl hany
    unfold Metadata.addField
    dsimp only
    rw [if_pos hany]

/-- C8 (witness): a one-section, one-block index evaluated at line 1
with a tag addition - the page and both containing nodes receive the
tag, the missing item granularity stays untouched. -/
theorem C8_witness :
    TSorted [(0, (⟨0, 2, "T", 1, 1⟩ : SectionCore))] ∧
    TSorted [(0, BlockCore.baseB 0 2 1 "paragraph" none)] ∧
    TSorted ([] : Tree ListItemCore) ∧
    (((attachAt [(0, (⟨0, 2, "T", 1, 1⟩ : SectionCore))]
        [(0, BlockCore.baseB 0 2 1 "paragraph" none)] ([] : Tree ListItemCore)
        AttachState.init 1 (fun m => m.addTag "#x")).page =
      (fun m => m.addTag "#x") AttachState.init.page) ∧
     (∀ k, (attachAt [(0, (⟨0, 2, "T", 1, 1⟩ : SectionCore))]
        [(0, BlockCore.baseB 0 2 1 "paragraph" none)] ([] : Tree ListItemCore)
        AttachState.init 1 (fun m => m.addTag "#x")).sec k =
      (match Tree.lookupBy SectionCore.endL 1
          [(0, (⟨0, 2, "T", 1, 1⟩ : SectionCore))] with
       | some sec => if k = sec.start then (fun m => m.addTag "#x")
           (AttachState.init.sec k) else AttachState.init.sec k
       | none => AttachState.init.sec k)) ∧
     (∀ k, (attachAt [(0, (⟨0, 2, "T", 1, 1⟩ : SectionCore))]
        [(0, BlockCore.baseB 0 2 1 "paragraph" none)] ([] : Tree ListItemCore)
        AttachState.init 1 (fun m => m.addTag "#x")).blk k =
      (match Tree.lookupBy BlockCore.endL 1
          [(0, BlockCore.baseB 0 2 1 "paragraph" none)] with
       | some core => if k = core.start then (fun m => m.addTag "#x")
           (AttachState.init.blk k) else AttachState.init.blk k
       | none => AttachState.init.blk k)) ∧
     (∀ k, (attachAt [(0, (⟨0, 2, "T", 1, 1⟩ : SectionCore))]
        [(0, BlockCore.baseB 0 2 1 "paragraph" none)] ([] : Tree ListItemCore)
        AttachState.init 1 (fun m => m.addTag "#x")).itm k =
      (match Tree.lookupBy ListItemCore.endL 1 ([] : Tree ListItemCore) with
       | some core => if k = core.start then (fun m => m.addTag "#x")
           (AttachState.init.itm k) else AttachState.init.itm k
       | none => AttachState.init.itm k)) ∧
     (∀ v : SectionCore, Tree.lookupBy SectionCore.endL 1
          [(0, (⟨0, 2, "T", 1, 1⟩ : SectionCore))] = some v ↔
        ∃ k, (k, v) ∈ [(0, (⟨0, 2, "T", 1, 1⟩ : SectionCore))] ∧ k ≤ 1 ∧
          1 < v.endL ∧ ∀ q ∈ [(0, (⟨0, 2, "T", 1, 1⟩ : SectionCore))],
            q.1 ≤ 1 → q.1 ≤ k) ∧
     (∀ v : BlockCore, Tree.lookupBy BlockCore.endL 1
          [(0, BlockCore.baseB 0 2 1 "paragraph" none)] = some v ↔
        ∃ k, (k, v) ∈ [(0, BlockCore.baseB 0 2 1 "paragraph" none)] ∧ k ≤ 1 ∧
          1 < v.endL ∧ ∀ q ∈ [(0, BlockCore.baseB 0 2 1 "paragraph" none)],
            q.1 ≤ 1 → q.1 ≤ k) ∧
     (∀ v : ListItemCore, Tree.lookupBy ListItemCore.endL 1
          ([] : Tree ListItemCore) = some v ↔
        ∃ k, (k, v) ∈ ([] : Tree ListItemCore) ∧ k ≤ 1 ∧
          1 < v.endL ∧ ∀ q ∈ ([] : Tree ListItemCore), q.1 ≤ 1 → q.1 ≤ k) ∧
     (∀ (m : Metadata) (fl : InlineField),
        m.infields.any (fun p => strLower p.1 = strLower fl.key) = true →
        Metadata.addField m fl = m)) :=
  ⟨List.pairwise_singleton _ _, List.pairwise_singleton _ _, List.Pairwise.nil,
    C8_attachment [(0, (⟨0, 2, "T", 1, 1⟩ : SectionCore))]
      [(0, BlockCore.baseB 0 2 1 "paragraph" none)] ([] : Tree ListItemCore)
      (List.pairwise_singleton _ _) (List.pairwise_singleton _ _) List.Pairwise.nil
      AttachState.init 1 (fun m => m.addTag "#x")⟩

end Datacore
